import Mathlib

/-!
# The multiplexing file server: codec, framing and request handling

A shallow embedding of the C sources (compression.c, compression_opt.c, compression_optimized.c,
message_handling.c, message_handling_optimized.c, multiplexlist.c, memory_pool.c, tp.c,
tp_optimized.c, server_optimized.c) and the properties of the specification checked against it.
Bytes are natural numbers below 256, buffers are lists of bytes, and a function that sends
returns the bytes it sends.
-/

set_option maxRecDepth 100000

namespace MultiplexServer

/-! ## The dictionary codec of compression.c -/

/-- Entry of the compression dictionary (`m_node` of tp.h). The array `code` of `code_l` cells is
the list `code`; the field `code_l` is its length. -/
structure m_node where
  byte : Nat
  code : List Nat
deriving DecidableEq, Repr

/-- Field `code_l` of `m_node`: the number of cells of `code`. -/
def m_node.code_l (n : m_node) : Nat := n.code.length

/-- Array access `(*dict)[q]`. -/
def dict_at (dict : List m_node) (q : Nat) : m_node := dict.getD q ⟨0, []⟩

/-- The C expression `(x & (1 << (j - 1))) >> (j - 1)`: bit `j - 1` of `x`. -/
def bit_at (x j : Nat) : Nat := (x &&& (1 <<< (j - 1))) >>> (j - 1)

/-- The inner loop `for (j = 8; j > 0; j--)` over one byte: its bits, most significant first. -/
def byte_bits (x : Nat) : List Nat := [8, 7, 6, 5, 4, 3, 2, 1].map (bit_at x)

/-- Assignment through `new_representation[curr_byte - 1]`, the last allocated byte. -/
def set_last (f : Nat → Nat) : List Nat → List Nat
  | [] => []
  | [x] => [f x]
  | x :: y :: r => x :: set_last f (y :: r)

/-- `x |= (1 << k)` on an unsigned char. -/
def or_bit (k x : Nat) : Nat := x ||| (1 <<< k)

/-- `x &= ~(1 << k)` on an unsigned char: the complement is cut to the eight bits of the cell. -/
def clear_bit (k x : Nat) : Nat := x &&& (255 - (1 <<< k))

/-- Local variables of `compress`: the output buffer (`curr_byte` is its length), `curr_bit` and
`total_count`. -/
structure compress_state where
  new_representation : List Nat
  curr_bit : Nat
  total_count : Nat
deriving DecidableEq, Repr

/-- Body of the inner loop of `compress` for one cell `c = code[j]`. A byte added by `realloc`
is not initialised: its content is `junk n % 256` for the `n`-th byte. -/
def compress_bit (junk : Nat → Nat) (s : compress_state) (c : Nat) : compress_state :=
  let rep := if s.curr_bit = 8 then s.new_representation ++ [junk s.new_representation.length % 256]
    else s.new_representation
  let rep := if c ≠ 0 then set_last (or_bit (s.curr_bit - 1)) rep
    else set_last (clear_bit (s.curr_bit - 1)) rep
  let curr_bit := s.curr_bit - 1
  ⟨rep, if curr_bit = 0 then 8 else curr_bit, s.total_count + 1⟩

/-- The loop `while (curr_bit > 0 && curr_bit != 8)` of `compress` that clears the padding bits. -/
def zero_padding : Nat → List Nat → List Nat
  | 0, rep => rep
  | k + 1, rep => if k + 1 = 8 then rep else zero_padding k (set_last (clear_bit k) rep)

/-- Function `compress` of compression.c on the payload `input` (buffer and length of the message),
with the content of fresh bytes given by `junk`. The result is the new buffer; the new length is its
length. The `int` counters `curr_byte` and `total_count` are numbers without a bound, as they are
while the code bits number less than 2^31. -/
def compress_with (junk : Nat → Nat) (input : List Nat) (dict : List m_node) : List Nat :=
  let s := input.foldl (fun s b => (dict_at dict b).code.foldl (compress_bit junk) s) ⟨[], 8, 0⟩
  zero_padding s.curr_bit s.new_representation ++ [(8 - s.total_count % 8) % 8]

/-- Function `compress` of compression.c with fresh bytes reading as zero; `compress_with` gives the
same buffer for every other content of fresh bytes. -/
def compress (input : List Nat) (dict : List m_node) : List Nat :=
  compress_with (fun _ => 0) input dict

/-- The search `for (q = 0; q < 256; q++)` of `decompress`: the byte of the first entry whose
`code_l` is `count` and whose code equals the `count` collected bits. -/
def find_code (dict : List m_node) (buffer : List Nat) : Option Nat :=
  ((List.range 256).find? (fun q => (dict_at dict q).code_l == buffer.length &&
    (dict_at dict q).code == buffer)).map (fun q => (dict_at dict q).byte)

/-- The two nested loops of `decompress` over the bits still to read. `buffer` holds the `count`
bits collected so far, `rep` is `new_representation`. The result is `some rep` when the function
returns through `curr_bits == total_bits`, and `none` when the loops run out. -/
def decompress_loop (dict : List m_node) (total_bits : Int) :
    List Nat → List Nat → List Nat → Int → Option (List Nat)
  | [], _, _, _ => none
  | b :: rest, buffer, rep, curr_bits =>
    let buffer := buffer ++ [b]
    let found := find_code dict buffer
    let rep := match found with
      | some byte => rep ++ [byte]
      | none => rep
    let buffer := match found with
      | some _ => []
      | none => buffer
    if curr_bits + 1 = total_bits then some rep
    else decompress_loop dict total_bits rest buffer rep (curr_bits + 1)

/-- Function `decompress` of compression.c on the payload `input`. `none`: the message is empty, so
that the read of `buffer[length - 1]` is outside the buffer. Otherwise the new buffer; it is the
old one when the loops end without reaching `total_bits`. The `int` counters are integers without
a bound, as they are for messages below 2^28 bytes. -/
def decompress (input : List Nat) (dict : List m_node) : Option (List Nat) :=
  match input.getLast? with
  | none => none
  | some pad =>
    let total_bits : Int := ((input.length : Int) - 1) * 8 - (pad : Int)
    match decompress_loop dict total_bits (input.flatMap byte_bits) [] [] 0 with
    | some rep => some rep
    | none => some input

/-! ## The dictionary loaders of compression.c and compression_opt.c -/

/-- The bit cursor of the dictionary readers: `current_byte` and `curr_byte_bit`. -/
structure bit_cursor where
  current_byte : Nat
  curr_byte_bit : Nat
deriving DecidableEq, Repr

/-- The step `curr_byte_bit--; if (curr_byte_bit == 0) { curr_byte_bit = 8; current_byte++; }`. -/
def cursor_next (c : bit_cursor) : bit_cursor :=
  if c.curr_byte_bit - 1 = 0 then ⟨c.current_byte + 1, 8⟩ else ⟨c.current_byte, c.curr_byte_bit - 1⟩

/-- A loop of `create_map` that reads `n` bits at the cursor, each by
`(buffer[current_byte] & (1 << (curr_byte_bit - 1))) >> (curr_byte_bit - 1)`. The function has no
bound check: a byte past the end of the buffer reads as zero here. -/
def read_bits (buffer : List Nat) : Nat → bit_cursor → List Nat × bit_cursor
  | 0, c => ([], c)
  | n + 1, c =>
    let r := read_bits buffer n (cursor_next c)
    (bit_at (buffer.getD c.current_byte 0) c.curr_byte_bit :: r.1, r.2)

/-- The loop of `create_map` that turns the eight bits `len` into the `u_int8_t` `size`, adding
`pow(2 * len[i], power)` for `power` from 7 down to 0 except when the base and the power are both
zero. -/
def code_size (len : List Nat) : Nat :=
  (List.range 8).foldl (fun size i =>
    if ¬ (2 * len.getD i 0 = 0 ∧ 7 - i = 0) then (size + (2 * len.getD i 0) ^ (7 - i)) % 256
    else size) 0

/-- The loop `while (count < 256)` of `create_map`, with `n` turns left. -/
def create_map_loop (buffer : List Nat) : Nat → Nat → bit_cursor → List m_node
  | 0, _, _ => []
  | n + 1, count, c =>
    let len := read_bits buffer 8 c
    let code := read_bits buffer (code_size len.1) len.2
    ⟨count % 256, code.1⟩ :: create_map_loop buffer n (count + 1) code.2

/-- Function `create_map` of compression.c on the bytes of the dictionary file. -/
def create_map (buffer : List Nat) : List m_node := create_map_loop buffer 256 0 ⟨0, 8⟩

/-- A pointer to a `trie_node` of compression_opt.h: null, or a node with its two children, its
`byte` and its `is_leaf`. -/
inductive trie where
  | null : trie
  | node : trie → trie → Nat → Nat → trie
deriving DecidableEq, Repr

/-- Function `insert_trie` of compression_opt.c on the node a pointer leads to, a null pointer
standing for the zeroed node `create_trie_node` puts there. A cell of the code selects child 0
when it is zero and child 1 otherwise. -/
def insert_trie : trie → List Nat → Nat → trie
  | trie.null, [], byte => trie.node trie.null trie.null byte 1
  | trie.node c0 c1 _ _, [], byte => trie.node c0 c1 byte 1
  | trie.null, bit :: rest, byte =>
    if bit = 0 then trie.node (insert_trie trie.null rest byte) trie.null 0 0
    else trie.node trie.null (insert_trie trie.null rest byte) 0 0
  | trie.node c0 c1 b l, bit :: rest, byte =>
    if bit = 0 then trie.node (insert_trie c0 rest byte) c1 b l
    else trie.node c0 (insert_trie c1 rest byte) b l

/-- The walk `current = current->children[bit]` along a code: the node reached. -/
def trie_walk : trie → List Nat → trie
  | t, [] => t
  | trie.null, _ :: _ => trie.null
  | trie.node c0 c1 _ _, bit :: rest => if bit = 0 then trie_walk c0 rest else trie_walk c1 rest

/-- Structure `compression_map_opt` of compression_opt.h: the trie and the codes of the encode
table, the field `code_length` of an entry being the length of its list. -/
structure compression_map_opt where
  root : trie
  encode_table : List (List Nat)
deriving DecidableEq, Repr

/-- The loop of `create_map_optimized` that reads the eight bits of a code length, `i + 1` bits
being left to read; it stops when the cursor is past the buffer. -/
def read_length_optimized (buffer : List Nat) : Nat → Nat → bit_cursor → Nat × bit_cursor
  | 0, code_length, c => (code_length, c)
  | i + 1, code_length, c =>
    if c.current_byte ≥ buffer.length then (code_length, c)
    else
      let bit := (buffer.getD c.current_byte 0 >>> (c.curr_byte_bit - 1)) &&& 1
      read_length_optimized buffer i (code_length ||| (bit <<< i)) (cursor_next c)

/-- The loop of `create_map_optimized` that reads the `n` cells of a code still to fill; it
stops when the cursor is past the buffer, and the cells it has not filled read as zero here. -/
def read_code_optimized (buffer : List Nat) : Nat → bit_cursor → List Nat × bit_cursor
  | 0, c => ([], c)
  | n + 1, c =>
    if c.current_byte ≥ buffer.length then (List.replicate (n + 1) 0, c)
    else
      let r := read_code_optimized buffer n (cursor_next c)
      (((buffer.getD c.current_byte 0 >>> (c.curr_byte_bit - 1)) &&& 1) :: r.1, r.2)

/-- The loop `for (byte_val = 0; byte_val < 256; byte_val++)` of `create_map_optimized`, with `n`
turns left. -/
def create_map_optimized_loop (buffer : List Nat) :
    Nat → Nat → bit_cursor → compression_map_opt → compression_map_opt
  | 0, _, _, map => map
  | n + 1, byte_val, c, map =>
    let len := read_length_optimized buffer 8 0 c
    let code := read_code_optimized buffer len.1 len.2
    create_map_optimized_loop buffer n (byte_val + 1) code.2
      ⟨insert_trie map.root code.1 (byte_val % 256), map.encode_table ++ [code.1]⟩

/-- Function `create_map_optimized` of compression_opt.c on the bytes of the dictionary file. -/
def create_map_optimized (buffer : List Nat) : compression_map_opt :=
  create_map_optimized_loop buffer 256 0 ⟨0, 8⟩ ⟨trie.node trie.null trie.null 0 0, []⟩

/-! ## Byte order, framing and the request handlers (message_handling.c and its optimized twin) -/

/-- Value of an unsigned integer whose bytes of memory are `bs`, on the little-endian host the
server is written for. -/
def le_val (bs : List Nat) : Nat := bs.foldr (fun b acc => b + 256 * acc) 0

/-- The `n` bytes of memory of an unsigned integer `x`, least significant first. -/
def mem_bytes (n x : Nat) : List Nat := (List.range n).map (fun i => x / 256 ^ i % 256)

/-- Library function `bswap_64`: the eight bytes of the value in reverse order. -/
def bswap_64 (x : Nat) : Nat := le_val (mem_bytes 8 x).reverse

/-- Library function `bswap_32`. -/
def bswap_32 (x : Nat) : Nat := le_val (mem_bytes 4 x).reverse

/-- Bytes that `memcpy` or `send` take from a `uint64_t` holding `bswap_64(x)`. -/
def send_u64 (x : Nat) : List Nat := mem_bytes 8 (bswap_64 (x % 2 ^ 64))

/-- Bytes that `memcpy` takes from a `uint32_t` holding `bswap_32(x)`. -/
def send_u32 (x : Nat) : List Nat := mem_bytes 4 (bswap_32 (x % 2 ^ 32))

/-- Big-endian writing of a number on `n` bytes, as the specification words the wire format. -/
def be_bytes (n x : Nat) : List Nat := (List.range n).map (fun i => x / 256 ^ (n - 1 - i) % 256)

/-- Big-endian value of a byte sequence. -/
def be_val (bs : List Nat) : Nat := bs.foldl (fun acc b => 256 * acc + b) 0

/-- Bit field `header` of message_handling.h: `type` on four bits, `compression` and
`requires_compression` on one bit each. -/
structure header where
  type : Nat
  compression : Nat
  requires_compression : Nat
deriving DecidableEq, Repr

/-- Structure `message` of message_handling.h. The field `length` is the length of the list
`buffer`; a null `buffer` is the empty list. -/
structure message where
  main : header
  buffer : List Nat
deriving DecidableEq, Repr

/-- Field `length` of `message`. -/
def message.length (m : message) : Nat := m.buffer.length

/-- What `get_description` leaves to its caller. `null`: the null pointer. `bare`: a message of
which only `main.type` is set, returned before anything more is read. `full`: a message with its
body. `short`: the stream ends inside the frame, and `get_description` works on bytes it never
received. `fault`: `decompress` read outside the buffer. The second component is the part of the
stream that is not read. -/
inductive description where
  | null : description
  | bare : Nat → List Nat → description
  | full : message → List Nat → description
  | short : description
  | fault : description
deriving DecidableEq, Repr

/-- First part of `get_description` (message_handling.c), up to the read of the body: the header
byte, the early return on type 8 and on an unknown type, the eight bytes of the length and the
body. A read is taken to deliver all the bytes asked for when the stream holds them. -/
def read_description (input : List Nat) : description :=
  match input with
  | [] => description.null
  | hdr :: rest =>
    let type := (hdr >>> 4) % 16
    if type = 8 ∨ (type ≠ 0 ∧ type ≠ 2 ∧ type ≠ 4 ∧ type ≠ 6 ∧ type ≠ 8) then
      description.bare type rest
    else
      let compression := (hdr >>> 3) % 2
      let requires_compression := (hdr >>> 2) % 2
      if rest.length < 8 then description.short
      else
        let length := bswap_64 (le_val (rest.take 8))
        let rest := rest.drop 8
        if rest.length < length then description.short
        else description.full ⟨⟨type, compression, requires_compression⟩, rest.take length⟩
          (rest.drop length)

/-- The call `decompress(&msg, compress)` in `get_description`: the message with its payload
replaced, or `fault` when `decompress` reads outside the buffer. -/
def decompressed (msg : message) (rest : List Nat) (dict : List m_node) : description :=
  match decompress msg.buffer dict with
  | some b => description.full ⟨msg.main, b⟩ rest
  | none => description.fault

/-- Last part of `get_description` and of `get_description_optimized`: the payload is decompressed
when it came compressed, unless the request is an echo that asks for a compressed reply. -/
def decompress_description (d : description) (dict : List m_node) : description :=
  match d with
  | description.full msg rest =>
    if msg.main.compression = 1 then
      if msg.main.type = 0 then
        if msg.main.requires_compression ≠ 1 then decompressed msg rest dict
        else description.full msg rest
      else decompressed msg rest dict
    else description.full msg rest
  | d => d

/-- Function `get_description` of message_handling.c on the bytes the socket delivers. -/
def get_description (input : List Nat) (dict : List m_node) : description :=
  decompress_description (read_description input) dict

/-- First part of `get_description_optimized` (message_handling_optimized.c): as
`read_description`, with the flags masked by `& 1` and a null result when the stream ends inside
the frame. -/
def read_description_optimized (input : List Nat) : description :=
  match input with
  | [] => description.null
  | hdr :: rest =>
    let type := (hdr >>> 4) % 16
    if type = 8 ∨ (type ≠ 0 ∧ type ≠ 2 ∧ type ≠ 4 ∧ type ≠ 6 ∧ type ≠ 8) then
      description.bare type rest
    else
      let compression := (hdr >>> 3) &&& 1
      let requires_compression := (hdr >>> 2) &&& 1
      if rest.length < 8 then description.null
      else
        let length := bswap_64 (le_val (rest.take 8))
        let rest := rest.drop 8
        if rest.length < length then description.null
        else description.full ⟨⟨type, compression, requires_compression⟩, rest.take length⟩
          (rest.drop length)

/-- Function `get_description_optimized` of message_handling_optimized.c. -/
def get_description_optimized (input : List Nat) (dict : List m_node) : description :=
  decompress_description (read_description_optimized input) dict

/-- Function `error_send`: the bytes it sends, the header `0b11110000` and a zero `uint64_t`. -/
def error_send : List Nat := 0b11110000 :: mem_bytes 8 0

/-- Function `echo` of message_handling.c: the bytes it sends. The model holds the bytes written
through `full` and sent; whether they fit the block that `malloc` gave for `full` is told by
`echo_overruns`. -/
def echo (input : message) (dict : List m_node) : List Nat :=
  let hdr := if input.main.requires_compression = 1 then 0b00011000 else 0b00010000
  let buffer :=
    if input.main.requires_compression = 1 ∧ input.main.compression = 0 then
      compress input.buffer dict
    else input.buffer
  hdr :: send_u64 buffer.length ++ buffer

/-- Function `echo_optimized` of message_handling_optimized.c: the bytes it sends. As in `echo`,
the block `full` is taken with the length the payload has before `compress` runs. -/
def echo_optimized (input : message) (dict : List m_node) : List Nat :=
  let hdr := if input.main.requires_compression = 1 then 0b00011000 else 0b00010000
  let buffer :=
    if input.main.requires_compression = 1 ∧ input.main.compression = 0 then
      compress input.buffer dict
    else input.buffer
  hdr :: send_u64 buffer.length ++ buffer

/-- The copy `memcpy(full + 9, input->buffer, input->length)` of `echo` and of `echo_optimized`
writes past the block `full`: the size `input->length + 9` given to `malloc` is taken before
`compress` runs, the copy and the send use the length of the compressed payload, and that payload
is the longer one. -/
def echo_overruns (input : message) (dict : List m_node) : Bool :=
  decide (input.main.requires_compression = 1 ∧ input.main.compression = 0 ∧
    input.buffer.length < (compress input.buffer dict).length)

/-- The files the server sees: `lookup path` is the content of the file that `open` and `stat`
find at `path` (`none` when they fail), `listing` the entries `readdir` gives for the published
directory, each with its name and whether its `d_type` is `DT_REG` (`none` when `opendir`
fails). -/
structure file_system where
  lookup : List Nat → Option (List Nat)
  listing : Option (List (List Nat × Bool))

/-- The C string that starts a buffer: the bytes before the first NUL. `none` when the buffer holds
no NUL, so that the string functions read past its end. -/
def c_string (buffer : List Nat) : Option (List Nat) :=
  if 0 ∈ buffer then some (buffer.takeWhile (fun b => b ≠ 0)) else none

/-- The test `strstr(filename, "..") != NULL || strchr(filename, '/') != NULL`. -/
def path_rejected (filename : List Nat) : Bool :=
  decide ([46, 46] <:+: filename) || decide (47 ∈ filename)

/-- The path `snprintf(path, path_len, "%s/%s", directory, filename)` writes. -/
def join_path (directory filename : List Nat) : List Nat := directory ++ [47] ++ filename

/-- What `file_size_response` does: the bytes it sends, and whether it then frees `path` a second
time. When `open` succeeds, `path` is freed after `close(fd)` and again at the end of the
function, after the reply is sent: the process aborts on the second `free`. -/
structure size_result where
  sent : List Nat
  freed_twice : Bool
deriving DecidableEq, Repr

/-- Function `file_size_response` of message_handling.c. `none`: the payload holds no NUL (or is
null), so that `strstr` reads outside it. -/
def file_size_response (input : message) (directory : List Nat) (dict : List m_node)
    (fs : file_system) : Option size_result :=
  match c_string input.buffer with
  | none => none
  | some filename =>
    if path_rejected filename then some ⟨error_send, false⟩
    else
      match fs.lookup (join_path directory filename) with
      | none => some ⟨error_send, false⟩
      | some content =>
        let size := content.length
        if input.main.requires_compression = 1 then
          let buffer := compress (send_u64 size) dict
          some ⟨0b01011000 :: send_u64 buffer.length ++ buffer, true⟩
        else some ⟨0b01010000 :: send_u64 8 ++ send_u64 size, true⟩

/-- The buffer of names `directory_send` collects: the name of each regular file and a NUL, or one NUL
when there is no regular file. -/
def directory_names (entries : List (List Nat × Bool)) : List Nat :=
  let regular := entries.filter (fun e => e.2)
  if regular.length = 0 then [0] else regular.flatMap (fun e => e.1 ++ [0])

/-- Function `directory_send` of message_handling.c: the bytes it sends. When `opendir` fails the
buffer stays empty; the call `closedir(d)` that follows the sends is not part of the model. -/
def directory_send (input : message) (dict : List m_node) (fs : file_system) : List Nat :=
  let buf := match fs.listing with
    | some entries => directory_names entries
    | none => []
  if input.main.requires_compression = 1 then
    let buffer := compress buf dict
    0b00111000 :: send_u64 buffer.length ++ buffer
  else 0b00110000 :: send_u64 buf.length ++ buf

/-- Structure `file_request` of multiplexlist.h, without its lock, link and pipe descriptors. -/
structure file_request where
  session_id : Nat
  offset : Nat
  length : Nat
  file_name : List Nat
  num_connect : Nat
deriving DecidableEq, Repr

/-- Function `dissect_file_request`. `none`: the payload is shorter than the twenty bytes of the
three numbers or holds no NUL after them. -/
def dissect_file_request (input : message) : Option file_request :=
  if input.buffer.length < 20 then none
  else
    match c_string (input.buffer.drop 20) with
    | none => none
    | some name =>
      some ⟨bswap_32 (le_val (input.buffer.take 4)),
        bswap_64 (le_val ((input.buffer.drop 4).take 8)),
        bswap_64 (le_val ((input.buffer.drop 12).take 8)), name, 0⟩

/-- What a handler of a file retrieval does: the bytes it sends, the records `(o_l[0], o_l[1])` it
writes to the pipe of the session, and the number of records it reads from that pipe. -/
structure send_result where
  sent : List Nat
  written : List (Nat × Nat)
  reads : Nat
deriving DecidableEq, Repr

/-- The bytes `lseek(fd, off, SEEK_SET); read(fd, buffer + 20, len)` leave in the `len` bytes of
the buffer: the bytes of the file from `off`, and zero for what the file does not hold (memory
that C leaves as `malloc` gave it). -/
def read_file (content : List Nat) (off len : Nat) : List Nat :=
  (content.drop off).take len ++ List.replicate (len - ((content.drop off).take len).length) 0

/-- The reply both `child_send` and `parent_send` build from the buffer of twenty bytes and file
bytes. -/
def file_reply (compressed : Nat) (buffer : List Nat) (dict : List m_node) : List Nat :=
  if compressed = 1 then
    let out := compress buffer dict
    0b01111000 :: send_u64 out.length ++ out
  else 0b01110000 :: send_u64 buffer.length ++ buffer

/-- The buffer `child_send` and `parent_send` fill for the range they serve: the session id and
the two numbers of the range in network byte order, then the bytes of the file. -/
def range_buffer (session_id off len : Nat) (content : List Nat) : List Nat :=
  send_u32 session_id ++ send_u64 off ++ send_u64 len ++ read_file content off len

/-- Function `child_send` of message_handling.c; `record` is the pair of `uint64_t` the pipe
delivers. -/
def child_send (compressed : Nat) (directory : List Nat) (input : file_request)
    (dict : List m_node) (fs : file_system) (record : Nat × Nat) : send_result :=
  if path_rejected input.file_name then ⟨error_send, [], 0⟩
  else
    match fs.lookup (join_path directory input.file_name) with
    | none => ⟨error_send, [], 1⟩
    | some content =>
      ⟨file_reply compressed (range_buffer input.session_id record.1 record.2 content) dict, [], 1⟩

/-- One of the two loops of `parent_send` that write records: `n` records of length `len`, the
offset moving on by `len` each time. The result is the records and the last `current_offset`. -/
def write_records : Nat → Nat → Nat → List (Nat × Nat) × Nat
  | 0, current_offset, _ => ([], current_offset)
  | n + 1, current_offset, len =>
    let r := write_records n ((current_offset + len) % 2 ^ 64) len
    ((current_offset, len) :: r.1, r.2)

/-- The part of `parent_send` that divides the range between the peers: the records written to
the pipe, and the `current_offset` left for the range the function serves itself. -/
def parent_records (input : file_request) : List (Nat × Nat) × Nat :=
  let size := input.length
  let division := size / (input.num_connect + 1)
  if input.num_connect > 0 then
    let first := write_records (size % (input.num_connect + 1)) input.offset
      ((division + 1) % 2 ^ 64)
    let second := write_records (input.num_connect - size % (input.num_connect + 1)) first.2
      division
    (first.1 ++ second.1, second.2)
  else ([], input.offset)

/-- Function `parent_send` of message_handling.c. The field `num_connect` of `input` is the value
the function reads when it divides the range. Where `offset + length` reaches 2^64 and so passes
the test, the source wraps `20 + division` as well, the size of its block and of the reply body;
the model keeps the body at its length `20 + division`, so that for such a range only the passing
of the test is to be read from it. -/
def parent_send (compressed : Nat) (directory : List Nat) (input : file_request)
    (dict : List m_node) (fs : file_system) : send_result :=
  if path_rejected input.file_name then ⟨error_send, [], 0⟩
  else
    match fs.lookup (join_path directory input.file_name) with
    | none => ⟨error_send, [], 0⟩
    | some content =>
      if input.offset > content.length ∨ (input.offset + input.length) % 2 ^ 64 > content.length then
        ⟨error_send, [], 0⟩
      else
        let division := input.length / (input.num_connect + 1)
        let records := parent_records input
        ⟨file_reply compressed (range_buffer input.session_id records.2 division content) dict,
          records.1, 0⟩

/-- Function `file_size_response_optimized` of message_handling_optimized.c. `none`: the payload
holds no NUL, or a compressed reply is asked for: `compress` is then handed the address of a
`message` where it takes the address of a pointer to one. -/
def file_size_response_optimized (input : message) (directory : List Nat)
    (fs : file_system) : Option (List Nat) :=
  match c_string input.buffer with
  | none => none
  | some filename =>
    if path_rejected filename then some error_send
    else if directory.length + filename.length + 2 > 4096 then some error_send
    else
      match fs.lookup (join_path directory filename) with
      | none => some error_send
      | some content =>
        if input.main.requires_compression = 1 then none
        else some (0b01010000 :: send_u64 8 ++ send_u64 content.length)

/-- The buffer of names `directory_send_optimized` collects. -/
def directory_names_optimized (entries : List (List Nat × Bool)) : List Nat :=
  let buf := (entries.filter (fun e => e.2)).flatMap (fun e => e.1 ++ [0])
  if buf.length = 0 then [0] else buf

/-- Function `directory_send_optimized` of message_handling_optimized.c. `none`: a compressed
reply is asked for, see `file_size_response_optimized`. -/
def directory_send_optimized (input : message) (fs : file_system) : Option (List Nat) :=
  match fs.listing with
  | none => some error_send
  | some entries =>
    let buf := directory_names_optimized entries
    if input.main.requires_compression = 1 then none
    else some (0b00110000 :: send_u64 buf.length ++ buf)

/-- Function `parent_send_optimized` of message_handling_optimized.c. `none`: a compressed reply
is asked for, see `file_size_response_optimized`. The path is cut to the 4095 characters of its
array. -/
def parent_send_optimized (compressed : Nat) (directory : List Nat) (input : file_request)
    (fs : file_system) : Option send_result :=
  if path_rejected input.file_name then some ⟨error_send, [], 0⟩
  else
    match fs.lookup ((join_path directory input.file_name).take 4095) with
    | none => some ⟨error_send, [], 0⟩
    | some content =>
      if ((content.drop input.offset).take input.length).length ≠ input.length then
        some ⟨error_send, [], 0⟩
      else if compressed = 1 then none
      else
        let file_buffer := send_u32 input.session_id ++ send_u64 input.offset ++
          send_u64 input.length ++ (content.drop input.offset).take input.length
        some ⟨0b01110000 :: send_u64 (20 + input.length) ++ file_buffer,
          [(bswap_64 input.offset, bswap_64 input.length)], 0⟩

/-- Function `find` of multiplexlist.c on the entries of the list from its head. The outer `none`:
the loop never ends, which is the case when the head has another session id, as `curr` is never
moved. -/
def find (list : List file_request) (input : file_request) : Option (Option file_request) :=
  match list with
  | [] => some none
  | head :: _ => if head.session_id = input.session_id then some (some head) else none

/-- What the server shares between its threads, as one connection sees it: the dictionary, the
published directory, the files, the list of sessions at the time of `find`, the value of
`num_connect` that `parent_send` reads, and the record a child reads from the pipe. -/
structure server_env where
  dict : List m_node
  directory : List Nat
  fs : file_system
  requests_list : List file_request
  joined : Nat
  record : Nat × Nat

/-- One turn of the loop that serves a connection. `sent`: the bytes sent to the client. `unread`:
the bytes of the stream not read. `closed`: the socket is closed. `returned`: the loop is left, so
that nothing more is read from this client. `shut`: the shutdown flag is set. `written`, `reads`:
as in `send_result`. `incremented`: `num_connect` of the session found is incremented. -/
structure step_result where
  sent : List Nat
  unread : List Nat
  closed : Bool
  returned : Bool
  shut : Bool
  written : List (Nat × Nat)
  reads : Nat
  incremented : Bool
deriving DecidableEq, Repr

/-- One turn of the loop of `client_handling` (tp.c) on the bytes the socket delivers, `shut` being
the flag read at the head of the loop. `none`: the turn does not end (a crash: a read outside a
buffer, a write past the block of `full` in `echo`, the second `free(path)` of
`file_size_response`; or a loop that never ends), or the stream ends inside a frame. What
`file_size_response` sends before the process aborts is told by `file_size_response` itself. -/
def client_handling (env : server_env) (shut : Bool) (input : List Nat) : Option step_result :=
  if shut then some ⟨[], input, false, true, false, [], 0, false⟩
  else
    match get_description input env.dict with
    | description.null => some ⟨[], [], true, true, false, [], 0, false⟩
    | description.short => none
    | description.fault => none
    | description.bare type rest =>
      if type ≠ 0 ∧ type ≠ 2 ∧ type ≠ 4 ∧ type ≠ 6 ∧ type ≠ 8 then
        some ⟨error_send, rest, true, true, false, [], 0, false⟩
      else some ⟨[], rest, true, true, true, [], 0, false⟩
    | description.full msg rest =>
      if msg.main.type = 0 then
        if echo_overruns msg env.dict then none
        else some ⟨echo msg env.dict, rest, false, false, false, [], 0, false⟩
      else if msg.main.type = 2 then
        some ⟨directory_send msg env.dict env.fs, rest, false, false, false, [], 0, false⟩
      else if msg.main.type = 4 then
        match file_size_response msg env.directory env.dict env.fs with
        | none => none
        | some r =>
          if r.freed_twice then none
          else some ⟨r.sent, rest, false, false, false, [], 0, false⟩
      else
        match dissect_file_request msg with
        | none => none
        | some req =>
          match find env.requests_list req with
          | none => none
          | some (some curr) =>
            if req.file_name ≠ curr.file_name ∨ req.length ≠ curr.length ∨
                req.offset ≠ curr.offset then
              some ⟨error_send, rest, false, true, false, [], 0, false⟩
            else
              let r := child_send msg.main.requires_compression env.directory curr env.dict
                env.fs env.record
              some ⟨r.sent, rest, true, true, false, r.written, r.reads, true⟩
          | some none =>
            let r := parent_send msg.main.requires_compression env.directory
              { req with num_connect := env.joined } env.dict env.fs
            some ⟨r.sent, rest, false, false, false, r.written, r.reads, false⟩

/-- One turn of the loop of `client_handling_optimized` (tp_optimized.c). -/
def client_handling_optimized (env : server_env) (shut : Bool) (input : List Nat) :
    Option step_result :=
  if shut then some ⟨[], input, false, true, false, [], 0, false⟩
  else
    match get_description_optimized input env.dict with
    | description.null => some ⟨[], [], true, true, false, [], 0, false⟩
    | description.short => none
    | description.fault => none
    | description.bare type rest =>
      if type ≠ 0 ∧ type ≠ 2 ∧ type ≠ 4 ∧ type ≠ 6 ∧ type ≠ 8 then
        some ⟨error_send, rest, true, true, false, [], 0, false⟩
      else some ⟨[], rest, true, true, true, [], 0, false⟩
    | description.full msg rest =>
      if msg.main.type = 0 then
        if echo_overruns msg env.dict then none
        else some ⟨echo_optimized msg env.dict, rest, false, false, false, [], 0, false⟩
      else if msg.main.type = 2 then
        (directory_send_optimized msg env.fs).map
          (fun sent => ⟨sent, rest, false, false, false, [], 0, false⟩)
      else if msg.main.type = 4 then
        (file_size_response_optimized msg env.directory env.fs).map
          (fun sent => ⟨sent, rest, false, false, false, [], 0, false⟩)
      else
        match dissect_file_request msg with
        | none => none
        | some req =>
          match find env.requests_list req with
          | none => none
          | some (some curr) =>
            if req.file_name ≠ curr.file_name ∨ req.length ≠ curr.length ∨
                req.offset ≠ curr.offset then
              some ⟨error_send, rest, true, true, false, [], 0, false⟩
            else
              let r := child_send msg.main.requires_compression env.directory curr env.dict
                env.fs env.record
              some ⟨r.sent, rest, true, true, false, r.written, r.reads, true⟩
          | some none =>
            (parent_send_optimized msg.main.requires_compression env.directory
              { req with num_connect := env.joined } env.fs).map
              (fun r => ⟨r.sent, rest, false, false, false, r.written, r.reads, false⟩)

/-- One turn of the loop that `thread_worker_opt` (server_optimized.c) runs on a connection. -/
def thread_worker_opt (env : server_env) (shut : Bool) (input : List Nat) :
    Option step_result :=
  if shut then some ⟨[], input, true, true, false, [], 0, false⟩
  else
    match get_description input env.dict with
    | description.null => some ⟨[], [], true, true, false, [], 0, false⟩
    | description.short => none
    | description.fault => none
    | description.bare type rest =>
      if type = 8 then some ⟨[], rest, true, true, true, [], 0, false⟩
      else some ⟨error_send, rest, true, true, false, [], 0, false⟩
    | description.full msg rest =>
      if msg.main.type = 0 then
        if echo_overruns msg env.dict then none
        else some ⟨echo msg env.dict, rest, false, false, false, [], 0, false⟩
      else if msg.main.type = 2 then
        some ⟨directory_send msg env.dict env.fs, rest, false, false, false, [], 0, false⟩
      else if msg.main.type = 4 then
        match file_size_response msg env.directory env.dict env.fs with
        | none => none
        | some r =>
          if r.freed_twice then none
          else some ⟨r.sent, rest, false, false, false, [], 0, false⟩
      else
        match dissect_file_request msg with
        | none => none
        | some req =>
          match find env.requests_list req with
          | none => none
          | some (some curr) =>
            let r := child_send msg.main.requires_compression env.directory curr env.dict
              env.fs env.record
            some ⟨r.sent, rest, false, false, false, r.written, r.reads, true⟩
          | some none =>
            let r := parent_send msg.main.requires_compression env.directory
              { req with num_connect := env.joined } env.dict env.fs
            some ⟨r.sent, rest, false, false, false, r.written, r.reads, false⟩

/-! ## The accept queues (tp.c and tp_optimized.c) -/

/-- Structure `Node` of tp.h. The descriptor pointer `clfd` is an address, 0 being the null
pointer; `next` is the address of a node, `none` being the null pointer. -/
structure Node where
  clfd : Nat
  next : Option Nat
deriving DecidableEq, Repr

/-- The fields `head` and `tail` of `thread_pool` (tp.h), with the nodes `malloc` has handed out:
the node at address `a` is `nodes[a]`, and `none` marks a node that `free` has taken back. -/
structure thread_pool where
  nodes : List (Option Node)
  head : Option Nat
  tail : Option Nat
deriving DecidableEq, Repr

/-- Function `enqueue` of tp.c; `malloc` gives the next address never used. `none`: a write
through a pointer to a freed node. -/
def enqueue (clfd : Nat) (input : thread_pool) : Option thread_pool :=
  let toadd := input.nodes.length
  let nodes := input.nodes ++ [some ⟨clfd, none⟩]
  match input.tail with
  | none => some ⟨nodes, some toadd, some toadd⟩
  | some t =>
    match nodes.getD t none with
    | none => none
    | some node => some ⟨nodes.set t (some ⟨node.clfd, some toadd⟩), input.head, some toadd⟩

/-- Function `dequeue` of tp.c: the pointer returned (0 is NULL) and the pool. `none`: a read
through a pointer to a freed node. -/
def dequeue (input : thread_pool) : Option (Nat × thread_pool) :=
  match input.head with
  | none => some (0, input)
  | some h =>
    match input.nodes.getD h none with
    | none => none
    | some tmp =>
      some (tmp.clfd, ⟨input.nodes.set h none, tmp.next,
        if tmp.next = none then none else input.tail⟩)

/-- Structure `circular_queue` of tp_optimized.c, with `QUEUE_SIZE` 1024. -/
structure circular_queue where
  items : List Nat
  head : Nat
  tail : Nat
  count : Nat
deriving DecidableEq, Repr

/-- Function `cq_enqueue` of tp_optimized.c: the value returned and the queue. -/
def cq_enqueue (q : circular_queue) (item : Nat) : Int × circular_queue :=
  if q.count ≥ 1024 then (-1, q)
  else (0, ⟨q.items.set q.tail item, q.head, (q.tail + 1) % 1024, q.count + 1⟩)

/-- Function `cq_dequeue` of tp_optimized.c: the pointer returned (0 is NULL) and the queue. -/
def cq_dequeue (q : circular_queue) : Nat × circular_queue :=
  if q.count = 0 then (0, q)
  else (q.items.getD q.head 0, ⟨q.items, (q.head + 1) % 1024, q.tail, q.count - 1⟩)

/-- The queue of `tp_create` of tp.c: `head` and `tail` are NULL. -/
def tp_create : thread_pool := ⟨[], none, none⟩

/-- The queue of `tp_create` of tp_optimized.c, which `calloc` fills with zero. -/
def cq_create : circular_queue := ⟨List.replicate 1024 0, 0, 0, 0⟩

/-- Function `enqueue` of tp_optimized.c, the lock apart: the queue it leaves and whether it
closes the connection. -/
def enqueue_optimized (clfd : Nat) (q : circular_queue) : circular_queue × Bool :=
  if (cq_enqueue q clfd).1 = -1 then ((cq_enqueue q clfd).2, true)
  else ((cq_enqueue q clfd).2, false)

/-! ## The codec of compression_optimized.c -/

/-- Local variables of `compress_optimized` (compression_optimized.c): the output buffer
(`curr_byte` is its length), `total_count` and `current_byte`. -/
structure compress_optimized_state where
  new_representation : List Nat
  total_count : Nat
  current_byte : Nat
deriving DecidableEq, Repr

/-- Body of the inner loop of `compress_optimized` for one cell `c = node->code[j]`. -/
def compress_optimized_bit (s : compress_optimized_state) (c : Nat) : compress_optimized_state :=
  let bit_position := 7 - s.total_count % 8
  let current_byte := if c = 1 then (s.current_byte ||| (1 <<< bit_position)) % 256
    else s.current_byte
  let total_count := s.total_count + 1
  if total_count % 8 = 0 then ⟨s.new_representation ++ [current_byte], total_count, 0⟩
  else ⟨s.new_representation, total_count, current_byte⟩

/-- Function `compress_optimized` of compression_optimized.c on the payload `input`: the new
buffer, which is the old one for an empty message. The count of padding bits is OR-ed into the
last byte, and no byte is added for it. -/
def compress_optimized (input : List Nat) (dict : List m_node) : List Nat :=
  if input.length = 0 then input
  else
    let s := input.foldl (fun s b => (dict_at dict b).code.foldl compress_optimized_bit s)
      ⟨[], 0, 0⟩
    if s.total_count % 8 ≠ 0 then
      s.new_representation ++ [(s.current_byte ||| ((8 - s.total_count % 8) % 8)) % 256]
    else s.new_representation

/-- The C expression `(x >> (j - 1)) & 1` of `decompress_optimized`. -/
def bit_shift (x j : Nat) : Nat := (x >>> (j - 1)) &&& 1

/-- The two nested loops of `decompress_optimized` over the bits of all the bytes of the
message. `buffer` holds the `count` bits collected so far, `rep` is `new_representation`. -/
def decompress_optimized_loop (dict : List m_node) : List Nat → List Nat → List Nat → List Nat
  | [], _, rep => rep
  | b :: bits, buffer, rep =>
    match find_code dict (buffer ++ [b]) with
    | some byte => decompress_optimized_loop dict bits [] (rep ++ [byte])
    | none => decompress_optimized_loop dict bits (buffer ++ [b]) rep

/-- Function `decompress_optimized` of compression_optimized.c on the payload `input`: the new
buffer, which is the old one for an empty message. Every bit of every byte is decoded; no count
of padding bits is read. -/
def decompress_optimized (input : List Nat) (dict : List m_node) : List Nat :=
  if input.length = 0 then input
  else decompress_optimized_loop dict
    (input.flatMap (fun x => [8, 7, 6, 5, 4, 3, 2, 1].map (bit_shift x))) [] []

/-! ## The list of sessions (multiplexlist.c) -/

/-- A `file_request` of multiplexlist.h as a cell of the list of sessions: its fields, and its
link `next`, in which `none` is the null pointer. -/
structure request_cell where
  request : file_request
  next : Option Nat
deriving DecidableEq, Repr

/-- Structure `List` of multiplexlist.h, without its lock, with the requests in memory:
`cells[a]` is the request at the address `a`, and `none` marks memory that holds no request
(it was never allocated, or it was freed). In `head` and `tail`, `none` is the null pointer. -/
structure multiplex_list where
  cells : List (Option request_cell)
  head : Option Nat
  tail : Option Nat
deriving DecidableEq, Repr

/-- Function `create` of multiplexlist.c, in a memory that holds the requests `cells`. -/
def create (cells : List (Option request_cell)) : multiplex_list := ⟨cells, none, none⟩

/-- Function `add` of multiplexlist.c; `input` is the address of the request. `none`: a write
through a pointer that is null or points to no request. -/
def add (list : multiplex_list) (input : Nat) : Option multiplex_list :=
  match list.head with
  | none => some ⟨list.cells, some input, some input⟩
  | some _ =>
    match list.tail with
    | none => none
    | some tail =>
      match list.cells.getD tail none with
      | none => none
      | some cell =>
        some ⟨list.cells.set tail (some ⟨cell.request, some input⟩), list.head, some input⟩

/-- The loop `while (node->next != input) node = node->next;` of `remove_node`, from the
address `node`: the address at which it stops. `none`: it reads through a pointer that is null
or points to no request, or it never stops; `fuel` bounds the steps, and a walk of more steps
than the memory has cells is in a cycle, which it never leaves as the loop writes nothing. -/
def remove_walk (cells : List (Option request_cell)) (input : Nat) : Nat → Nat → Option Nat
  | 0, _ => none
  | fuel + 1, node =>
    match cells.getD node none with
    | none => none
    | some cell =>
      if cell.next = some input then some node
      else
        match cell.next with
        | none => none
        | some next => remove_walk cells input fuel next

/-- Function `remove_node` of multiplexlist.c; `input` is the address of the request. `none`: the
function does not return (see `remove_walk`), or reads through a pointer to no request. -/
def remove_node (list : multiplex_list) (input : Nat) : Option multiplex_list :=
  if list.head = some input ∧ list.tail = some input then
    match list.cells.getD input none with
    | none => none
    | some _ => some ⟨list.cells.set input none, none, none⟩
  else
    match list.head with
    | none => some list
    | some head =>
      match remove_walk list.cells input (list.cells.length + 1) head with
      | none => none
      | some node =>
        match list.cells.getD node none, list.cells.getD input none with
        | some cell, some removed =>
          some ⟨(list.cells.set node (some ⟨cell.request, removed.next⟩)).set input none,
            list.head, if list.tail = some input then some node else list.tail⟩
        | _, _ => none

/-- Function `find` of multiplexlist.c on the list in memory, for the session id of its
argument: the pointer it returns, the inner `none` being NULL. The outer `none`: the loop never
ends, as `curr` is never moved from a head with another session id, or it reads through a
pointer to no request. The function `find` above is this one seen on the entries. -/
def find_request (list : multiplex_list) (session_id : Nat) : Option (Option Nat) :=
  match list.head with
  | none => some none
  | some curr =>
    match list.cells.getD curr none with
    | none => none
    | some cell => if cell.request.session_id = session_id then some (some curr) else none

/-! ## The memory pool (memory_pool.c) -/

/-- Structure `pool_block` of memory_pool.h, without its link: the address of its memory and
its `in_use` flag. -/
structure pool_block where
  memory : Nat
  in_use : Nat
deriving DecidableEq, Repr

/-- Structure `memory_pool` of memory_pool.h, without its lock: each list holds the blocks of a
size class in the order of their `next` links. -/
structure memory_pool where
  small_blocks : List pool_block
  medium_blocks : List pool_block
  large_blocks : List pool_block
  allocations : Nat
  deallocations : Nat
deriving DecidableEq, Repr

/-- What `mp_alloc` returns: the memory of a block of the pool, or the result of `malloc`. -/
inductive allocation where
  | pooled : Nat → allocation
  | heap : allocation
deriving DecidableEq, Repr

/-- The loop `while (current)` of `mp_alloc` over the blocks of a class: the memory of the
first block that is not in use, and the blocks with that one marked. `none`: every block is in
use. -/
def alloc_scan : List pool_block → Option (Nat × List pool_block)
  | [] => none
  | current :: rest =>
    if current.in_use = 0 then some (current.memory, ⟨current.memory, 1⟩ :: rest)
    else (alloc_scan rest).map (fun r => (r.1, current :: r.2))

/-- Function `mp_alloc` of memory_pool.c on a pool that is not null. -/
def mp_alloc (pool : memory_pool) (size : Nat) : allocation × memory_pool :=
  if size ≤ 32 then
    match alloc_scan pool.small_blocks with
    | some r => (allocation.pooled r.1, ⟨r.2, pool.medium_blocks, pool.large_blocks,
        (pool.allocations + 1) % 2 ^ 64, pool.deallocations⟩)
    | none => (allocation.heap, pool)
  else if size ≤ 256 then
    match alloc_scan pool.medium_blocks with
    | some r => (allocation.pooled r.1, ⟨pool.small_blocks, r.2, pool.large_blocks,
        (pool.allocations + 1) % 2 ^ 64, pool.deallocations⟩)
    | none => (allocation.heap, pool)
  else if size ≤ 1024 then
    match alloc_scan pool.large_blocks with
    | some r => (allocation.pooled r.1, ⟨pool.small_blocks, pool.medium_blocks, r.2,
        (pool.allocations + 1) % 2 ^ 64, pool.deallocations⟩)
    | none => (allocation.heap, pool)
  else (allocation.heap, pool)

/-- The loop `while (current)` of `mp_free` over the blocks of a class: the blocks with the first
one whose memory is `ptr` marked free. `none`: no block has that memory. -/
def free_scan : List pool_block → Nat → Option (List pool_block)
  | [], _ => none
  | current :: rest, ptr =>
    if current.memory = ptr then some (⟨current.memory, 0⟩ :: rest)
    else (free_scan rest ptr).map (fun r => current :: r)

/-- Function `mp_free` of memory_pool.c on a pool that is not null: the pool, and whether `ptr`
is handed to `free`. The pointer 0 is NULL. -/
def mp_free (pool : memory_pool) (ptr size : Nat) : memory_pool × Bool :=
  if ptr = 0 then (pool, true)
  else if size ≤ 32 then
    match free_scan pool.small_blocks ptr with
    | some r => (⟨r, pool.medium_blocks, pool.large_blocks, pool.allocations,
        (pool.deallocations + 1) % 2 ^ 64⟩, false)
    | none => (pool, true)
  else if size ≤ 256 then
    match free_scan pool.medium_blocks ptr with
    | some r => (⟨pool.small_blocks, r, pool.large_blocks, pool.allocations,
        (pool.deallocations + 1) % 2 ^ 64⟩, false)
    | none => (pool, true)
  else if size ≤ 1024 then
    match free_scan pool.large_blocks ptr with
    | some r => (⟨pool.small_blocks, pool.medium_blocks, r, pool.allocations,
        (pool.deallocations + 1) % 2 ^ 64⟩, false)
    | none => (pool, true)
  else (pool, true)

/-! ## The pipe of a session -/

/-- The call `write(pipefd[1], o_l, 16)` on a pipe that holds the bytes `pipe`: the sixteen bytes
of memory of the two `uint64_t` are added after them. -/
def pipe_write (pipe : List Nat) (o_l : Nat × Nat) : List Nat :=
  pipe ++ (mem_bytes 8 o_l.1 ++ mem_bytes 8 o_l.2)

/-- The call `read(pipefd[0], o_l, 16)` on a pipe that holds the bytes `pipe`: the two
`uint64_t` read and the bytes left. `none`: the pipe holds no record and the call blocks. -/
def pipe_read (pipe : List Nat) : Option ((Nat × Nat) × List Nat) :=
  if pipe.length < 16 then none
  else some ((le_val (pipe.take 8), le_val ((pipe.drop 8).take 8)), pipe.drop 16)

/-- The records that `k` calls of `child_send` read one after the other from a pipe, and the
bytes left in it. `none`: one of the reads blocks. -/
def pipe_reads : Nat → List Nat → Option (List (Nat × Nat) × List Nat)
  | 0, pipe => some ([], pipe)
  | k + 1, pipe =>
    match pipe_read pipe with
    | none => none
    | some r => (pipe_reads k r.2).map (fun rest => (r.1 :: rest.1, rest.2))

/-! ## The wording of the specification, to compare the code with -/

/-- Value of a bit sequence read most significant bit first. -/
def bits_val (bs : List Bool) : Nat := bs.foldl (fun a b => 2 * a + (if b then 1 else 0)) 0

/-- Byte holding at most eight bits from its most significant bit down, the unused low bits being
zero. -/
def byte_of_bits (bs : List Bool) : Nat := bits_val bs * 2 ^ (8 - bs.length)

/-- Packing of a bit sequence into bytes, eight bits per byte, with `fuel` bounding the number of
bytes. -/
def pack_bits_aux : Nat → List Bool → List Nat
  | 0, _ => []
  | fuel + 1, bs => if bs = [] then [] else byte_of_bits (bs.take 8) :: pack_bits_aux fuel (bs.drop 8)

/-- Packing of a bit sequence into bytes, most significant bit first, the last byte being filled
with zero bits. -/
def pack_bits (bs : List Bool) : List Nat := pack_bits_aux bs.length bs

/-- The concatenation of the codes of the bytes of a payload, a cell of a code being a set bit when
it is not zero. -/
def code_bits (input : List Nat) (dict : List m_node) : List Bool :=
  input.flatMap (fun b => (dict_at dict b).code.map (fun c => decide (c ≠ 0)))

/-- The encoding as the specification words it: the packed codes followed by one byte holding the
number of padding bits. -/
def encode_spec (input : List Nat) (dict : List m_node) : List Nat :=
  pack_bits (code_bits input dict) ++ [(8 - (code_bits input dict).length % 8) % 8]

/-- A dictionary as `create_map` builds it from a prefix code: entry `q` carries the byte `q`, the
cells of a code are bits, and no code is a prefix of the code of another byte. -/
def valid_dict (dict : List m_node) : Prop :=
  (∀ q < 256, (dict_at dict q).byte = q) ∧
  (∀ q < 256, ∀ c ∈ (dict_at dict q).code, c ≤ 1) ∧
  (∀ q < 256, ∀ r < 256, q ≠ r → ¬ ((dict_at dict q).code <+: (dict_at dict r).code))

/-- The bits of a byte, most significant first, as the specification words the bit cursor. -/
def msb_bits (x : Nat) : List Nat := (List.range 8).map (fun i => x / 2 ^ (7 - i) % 2)

/-- Value of a bit sequence read most significant bit first. -/
def be_val_bits (bits : List Nat) : Nat := bits.foldl (fun acc b => 2 * acc + b) 0

/-- The table as the specification words the loader, `n` entries from byte value `v` on: eight
bits give the length, which is their value read most significant bit first, and as many bits give
the code. `none` when the bits run out. -/
def load_spec_aux : Nat → Nat → List Nat → Option (List m_node)
  | 0, _, _ => some []
  | n + 1, v, bits =>
    if bits.length < 8 then none
    else
      let len := be_val_bits (bits.take 8)
      if (bits.drop 8).length < len then none
      else (load_spec_aux n (v + 1) ((bits.drop 8).drop len)).map
        (fun t => ⟨v, (bits.drop 8).take len⟩ :: t)

/-- The table of 256 entries the specification describes for a dictionary file. -/
def load_spec (file : List Nat) : Option (List m_node) :=
  load_spec_aux 256 0 (file.flatMap msb_bits)

/-- The node a code leads to in the trie is marked as a leaf and carries the byte `v`. -/
def carries (t : trie) (w : List Nat) (v : Nat) : Prop :=
  ∃ c0 c1, trie_walk t w = trie.node c0 c1 v 1

/-- The partition as the specification words it: sub-range `i` of the `n` handed to the peers. -/
def partition_spec (offset length n : Nat) : List (Nat × Nat) :=
  (List.range n).map (fun i => (offset + i * (length / (n + 1)) + min i (length % (n + 1)),
    if i < length % (n + 1) then length / (n + 1) + 1 else length / (n + 1)))

/-- Ranges `(offset, length)` that follow one another without a gap from `start` to `stop`. -/
def contiguous : Nat → List (Nat × Nat) → Nat → Prop
  | start, [], stop => start = stop
  | start, r :: rest, stop => r.1 = start ∧ contiguous (start + r.2) rest stop

/-- The body of a directory listing as the specification words it: in the order of the
enumeration, the name and a NUL for each regular file, nothing for another entry. -/
def names_spec : List (List Nat × Bool) → List Nat
  | [] => []
  | (name, true) :: rest => name ++ [0] ++ names_spec rest
  | (_, false) :: rest => names_spec rest

/-- The body of a directory listing as the specification words it: the names of the regular
files, or one NUL when there is none. -/
def listing_spec (entries : List (List Nat × Bool)) : List Nat :=
  if entries.all (fun e => !e.2) then [0] else names_spec entries

/-- A call on an accept queue: an enqueue of a descriptor pointer, or a dequeue. -/
inductive queue_op where
  | enq : Nat → queue_op
  | deq : queue_op
deriving DecidableEq, Repr

/-- What a call on an accept queue gives back: the value an enqueue returns (0, or -1 for a queue
that is full), or the pointer a dequeue returns (0 is NULL). -/
inductive queue_event where
  | stored : Int → queue_event
  | taken : Nat → queue_event
deriving DecidableEq, Repr

/-- A sequence of calls of `enqueue` and `dequeue` of tp.c. -/
def run_linked : List queue_op → thread_pool → Option (List queue_event)
  | [], _ => some []
  | queue_op.enq clfd :: ops, tp =>
    match enqueue clfd tp with
    | none => none
    | some tp2 => (run_linked ops tp2).map (fun l => queue_event.stored 0 :: l)
  | queue_op.deq :: ops, tp =>
    match dequeue tp with
    | none => none
    | some r => (run_linked ops r.2).map (fun l => queue_event.taken r.1 :: l)

/-- A sequence of calls of `cq_enqueue` and `cq_dequeue` of tp_optimized.c. -/
def run_ring : List queue_op → circular_queue → List queue_event
  | [], _ => []
  | queue_op.enq item :: ops, q =>
    queue_event.stored (cq_enqueue q item).1 :: run_ring ops (cq_enqueue q item).2
  | queue_op.deq :: ops, q =>
    queue_event.taken (cq_dequeue q).1 :: run_ring ops (cq_dequeue q).2

/-- A first-in first-out queue as the specification words it, holding `contents` from the oldest
item to the newest: an enqueue adds at the end (or is refused with -1 when `capacity` items are
held), a dequeue takes the oldest item and gives NULL exactly when the queue is empty. -/
def fifo_spec (capacity : Option Nat) : List queue_op → List Nat → List queue_event
  | [], _ => []
  | queue_op.enq item :: ops, contents =>
    if capacity.all (fun c => decide (contents.length < c)) then
      queue_event.stored 0 :: fifo_spec capacity ops (contents ++ [item])
    else queue_event.stored (-1) :: fifo_spec capacity ops contents
  | queue_op.deq :: ops, [] => queue_event.taken 0 :: fifo_spec capacity ops []
  | queue_op.deq :: ops, item :: contents =>
    queue_event.taken item :: fifo_spec capacity ops contents

/-- The descriptors that the enqueues of a run stored, in the order of the calls. -/
def stored_of : List queue_op → List queue_event → List Nat
  | queue_op.enq item :: ops, queue_event.stored code :: events =>
    if code = 0 then item :: stored_of ops events else stored_of ops events
  | _ :: ops, _ :: events => stored_of ops events
  | _, _ => []

/-- The descriptors that the dequeues of a run returned, in the order of the calls, the null
results left out. -/
def taken_of : List queue_event → List Nat
  | [] => []
  | queue_event.taken clfd :: events =>
    if clfd = 0 then taken_of events else clfd :: taken_of events
  | queue_event.stored _ :: events => taken_of events

/-- Decoding of a bit sequence as the specification words it: the bits are collected one by one,
and each time the collected bits are the code of a byte, that byte is output and the collection
starts again. `pending` holds the bits collected so far. -/
def decode_spec (dict : List m_node) : List Nat → List Nat → List Nat
  | [], _ => []
  | b :: bits, pending =>
    match find_code dict (pending ++ [b]) with
    | some byte => byte :: decode_spec dict bits []
    | none => decode_spec dict bits (pending ++ [b])

/-- One call on the ring queue, for its effect on the queue. -/
def ring_step (q : circular_queue) : queue_op → circular_queue
  | queue_op.enq item => (cq_enqueue q item).2
  | queue_op.deq => (cq_dequeue q).2

/-- The invariant of the ring queue as the specification words it. -/
def ring_invariant (q : circular_queue) : Prop :=
  q.count ≤ 1024 ∧ q.head < 1024 ∧ q.tail < 1024 ∧ q.tail = (q.head + q.count) % 1024

/-- The blocks of the three classes of a pool. -/
def pool_blocks (pool : memory_pool) : List (List pool_block) :=
  [pool.small_blocks, pool.medium_blocks, pool.large_blocks]

/-- The class of a size: 0, 1 or 2 for the small, medium and large blocks, 3 for a size that no
class holds. -/
def size_class (size : Nat) : Nat :=
  if size ≤ 32 then 0 else if size ≤ 256 then 1 else if size ≤ 1024 then 2 else 3

/-- A pool in which the blocks of a class have memory at addresses that differ and are not
null, as `malloc` gave them to `create_block_list`. -/
def pool_wf (pool : memory_pool) : Prop :=
  ∀ blocks ∈ pool_blocks pool, (blocks.map pool_block.memory).Nodup ∧
    ∀ b ∈ blocks, b.memory ≠ 0

/-- The request at the address `a` has its link `next` set to the address `b`. -/
def linked (cells : List (Option request_cell)) (a b : Nat) : Prop :=
  ∃ cell, cells.getD a none = some cell ∧ cell.next = some b

/-- The table holds exactly the requests at the addresses `addrs`, in this order: the addresses
differ, each holds a request, `head` and `tail` point to the first and the last of them (and
are null when there is none), and each but the last is linked to the one after it. -/
def list_repr (list : multiplex_list) (addrs : List Nat) : Prop :=
  addrs.Nodup ∧ (∀ a ∈ addrs, ∃ cell, list.cells.getD a none = some cell) ∧
  list.head = addrs.head? ∧ list.tail = addrs.getLast? ∧ addrs.Chain' (linked list.cells)

/-! ## Notions used in the proofs -/

/-- Abstract view of the state of `compress`: the bytes that are complete and the bits of the byte
under construction. -/
def pack_rel (s : compress_state) (done : List Nat) (pend : List Bool) : Prop :=
  pend.length < 8 ∧
  ((pend = [] ∧ s.new_representation = done ∧ s.curr_bit = 8) ∨
   (pend ≠ [] ∧ ∃ x, s.new_representation = done ++ [x] ∧ x < 256 ∧
      s.curr_bit = 8 - pend.length ∧ x / 2 ^ (8 - pend.length) = bits_val pend))

/-- One bit more in the abstract view: the eighth bit completes a byte. -/
def abs_step (p : List Nat × List Bool) (b : Bool) : List Nat × List Bool :=
  if p.2.length = 7 then (p.1 ++ [bits_val (p.2 ++ [b])], []) else (p.1, p.2 ++ [b])

/-- The cursor that stands `p` bits into the buffer. -/
def cursor_at (p : Nat) : bit_cursor := ⟨p / 8, 8 - p % 8⟩

/-- The accumulation `code_length |= (bit << i)` over bits, `i` running down from `k - 1`. -/
def or_fold : Nat → Nat → List Nat → Nat
  | acc, _, [] => acc
  | acc, 0, _ :: _ => acc
  | acc, i + 1, b :: t => or_fold (acc ||| (b <<< i)) i t

/-- The nodes of a linked queue that holds `contents`, the first at address `k`. -/
def live_nodes (k : Nat) : List Nat → List (Option Node)
  | [] => []
  | [x] => [some ⟨x, none⟩]
  | x :: y :: r => some ⟨x, some (k + 1)⟩ :: live_nodes (k + 1) (y :: r)

/-- Nodes at the addresses from `k`, each pointing to the next address. -/
def full_nodes (k : Nat) : List Nat → List (Option Node)
  | [] => []
  | x :: r => some ⟨x, some (k + 1)⟩ :: full_nodes (k + 1) r

/-- The linked queue that holds `contents` after `k` nodes were freed. -/
def linked_repr (k : Nat) (contents : List Nat) : thread_pool :=
  ⟨List.replicate k none ++ live_nodes k contents,
   if contents = [] then none else some k,
   if contents = [] then none else some (k + contents.length - 1)⟩

/-- The ring queue `q` holds `contents`, from the oldest item to the newest. -/
def ring_rel (q : circular_queue) (contents : List Nat) : Prop :=
  q.items.length = 1024 ∧ q.head < 1024 ∧ q.tail = (q.head + contents.length) % 1024 ∧
  q.count = contents.length ∧ contents.length ≤ 1024 ∧
  ∀ i, i < contents.length → q.items.getD ((q.head + i) % 1024) 0 = contents.getD i 0

/-- The state of `compress_optimized` seen as complete bytes and pending bits. -/
def optimized_rel (s : compress_optimized_state) (done : List Nat) (pend : List Bool) : Prop :=
  pend.length < 8 ∧ s.new_representation = done ∧ s.total_count % 8 = pend.length ∧
  s.current_byte = byte_of_bits pend

/-! ## Concrete inputs -/

/-- Dictionary in which the code of `v` is `v` written on eight bits. -/
def dict8 : List m_node := (List.range 256).map (fun v => ⟨v, byte_bits v⟩)

/-- A server that holds the dictionary of eight-bit codes, publishes no file and has no session. -/
def env8 : server_env := ⟨dict8, [], ⟨fun _ => none, none⟩, [], 0, (0, 0)⟩

/-- Dictionary file that gives every byte value a code of eight bits, its own bits. -/
def id_file : List Nat := (List.range 256).flatMap (fun v => [8, v])

/-- Files of the examples: the directory `d` holds the file `a` of ten bytes `0 .. 9`, the empty
file `b` and the directory `s`. -/
def fs8 : file_system :=
  ⟨fun path => if path = [100, 47, 97] then some (List.range 10)
    else if path = [100, 47, 98] then some [] else none,
   some [([97], true), ([115], false), ([98], true)]⟩

/-- A server in which the session 1 is live, for the bytes 0 to 10 of the file `a`, and in which the
pipe of that session delivers the record `(0, 5)`. -/
def env13 : server_env := ⟨dict8, [100], fs8, [⟨1, 0, 10, [97], 0⟩], 0, (0, 5)⟩

/-- A retrieval request of session 1 for the bytes 0 to 5 of the file `a`. -/
def frame13 : List Nat :=
  [0x60, 0, 0, 0, 0, 0, 0, 0, 22, 0, 0, 0, 1, 0, 0, 0, 0, 0, 0, 0, 0, 0, 0, 0, 0, 0, 0, 0, 5, 97, 0]

/-- A server that publishes the directory `d` of `fs8` and serves no session. -/
def env15 : server_env := ⟨dict8, [100], fs8, [], 0, (0, 0)⟩

/-- A server that publishes a directory `d` in which `f` is a file of seven bytes. -/
def env17 : server_env :=
  ⟨dict8, [100], ⟨fun path => if path = [100, 47, 102] then some [1, 2, 3, 4, 5, 6, 7] else none,
    none⟩, [], 0, (0, 0)⟩

/-- A prefix code in which the byte 0 has the code `0` and every other byte `v` the nine bits
`1` and `v`. -/
def dict19 : List m_node :=
  (List.range 256).map (fun v => if v = 0 then ⟨0, [0]⟩ else ⟨v, 1 :: byte_bits v⟩)

/-- A pool of two small blocks, one medium and one large block, none in use. -/
def pool4 : memory_pool := ⟨[⟨100, 0⟩, ⟨200, 0⟩], [⟨300, 0⟩], [⟨400, 0⟩], 0, 0⟩

/-- The pool `pool4` after one allocation of a small block. -/
def pool4_one : memory_pool := ⟨[⟨100, 1⟩, ⟨200, 0⟩], [⟨300, 0⟩], [⟨400, 0⟩], 1, 0⟩

/-- A memory of two requests, of the sessions 1 and 2, the first linked to the second. -/
def cells2 : List (Option request_cell) :=
  [some ⟨⟨1, 0, 10, [97], 0⟩, some 1⟩, some ⟨⟨2, 0, 10, [97], 0⟩, none⟩]

/-- A memory of two requests, of the sessions 1 and 2, with null links. -/
def cells_apart : List (Option request_cell) :=
  [some ⟨⟨1, 0, 10, [97], 0⟩, none⟩, some ⟨⟨2, 0, 10, [97], 0⟩, none⟩]

/-! ## Theorems -/

theorem or_bit_step : ∀ k < 8, ∀ x < 256,
    or_bit k x < 256 ∧ or_bit k x / 2 ^ k = 2 * (x / 2 ^ (k + 1)) + 1 := by
  decide

theorem clear_bit_step : ∀ k < 8, ∀ x < 256,
    clear_bit k x < 256 ∧ clear_bit k x / 2 ^ k = 2 * (x / 2 ^ (k + 1)) := by
  decide

theorem bit_at_eq : ∀ j < 8, ∀ x < 256, bit_at x (j + 1) = x / 2 ^ j % 2 := by
  decide

theorem set_last_append_one (f : Nat → Nat) (l : List Nat) (x : Nat) :
    set_last f (l ++ [x]) = l ++ [f x] := by
  induction l with
  | nil => rfl
  | cons a t ih =>
    cases t with
    | nil => rfl
    | cons b t2 =>
      have h : set_last f (a :: b :: t2 ++ [x]) = a :: set_last f (b :: t2 ++ [x]) := rfl
      rw [h, ih]; rfl

theorem bits_val_append (l : List Bool) (b : Bool) :
    bits_val (l ++ [b]) = 2 * bits_val l + (if b then 1 else 0) := by
  simp [bits_val, List.foldl_append]

/-- Writing one bit: the machine step keeps the abstract view. -/
theorem write_bit_rel (k x : Nat) (c : Nat) (hk : k < 8) (hx : x < 256) :
    (if c ≠ 0 then or_bit k x else clear_bit k x) < 256 ∧
    (if c ≠ 0 then or_bit k x else clear_bit k x) / 2 ^ k
      = 2 * (x / 2 ^ (k + 1)) + (if decide (c ≠ 0) then 1 else 0) := by
  by_cases hc : c = 0
  · simp [hc]; exact clear_bit_step k hk x hx
  · simp [hc]; exact or_bit_step k hk x hx

theorem compress_bit_rel (junk : Nat → Nat) (s : compress_state) (c : Nat)
    (done : List Nat) (pend : List Bool) (h : pack_rel s done pend) :
    pack_rel (compress_bit junk s c) (abs_step (done, pend) (decide (c ≠ 0))).1
      (abs_step (done, pend) (decide (c ≠ 0))).2 := by
  obtain ⟨hlen, h⟩ := h
  rcases h with ⟨hp, hrep, hcb⟩ | ⟨hp, x, hrep, hx, hcb, hval⟩
  · subst hp
    have hj : junk s.new_representation.length % 256 < 256 := Nat.mod_lt _ (by norm_num)
    obtain ⟨h1, h2⟩ := write_bit_rel 7 _ c (by norm_num) hj
    refine ⟨by simp [abs_step], Or.inr ⟨by simp [abs_step], ?_⟩⟩
    refine ⟨if c ≠ 0 then or_bit 7 (junk s.new_representation.length % 256)
      else clear_bit 7 (junk s.new_representation.length % 256), ?_, h1, ?_, ?_⟩
    · simp only [compress_bit, hcb, hrep]
      by_cases hc : c = 0 <;> simp [hc, set_last_append_one, abs_step]
    · simp [compress_bit, hcb, abs_step]
    · have h0 : junk s.new_representation.length % 256 / 2 ^ (7 + 1) = 0 :=
        Nat.div_eq_of_lt (by simpa using hj)
      rw [h0] at h2
      have h3 : (abs_step (done, []) (decide (c ≠ 0))).2 = [decide (c ≠ 0)] := by simp [abs_step]
      rw [h3, List.length_singleton, show 8 - 1 = 7 by rfl, h2]
      simp [bits_val]
  · have hpl : 0 < pend.length := List.length_pos.mpr hp
    obtain ⟨k, hk⟩ : ∃ k, 8 - pend.length = k + 1 := ⟨7 - pend.length, by omega⟩
    obtain ⟨h1, h2⟩ := write_bit_rel k x c (by omega) hx
    have hne : s.curr_bit ≠ 8 := by omega
    have hk7 : k ≠ 7 := by omega
    have hrep2 : (compress_bit junk s c).new_representation
        = done ++ [if c ≠ 0 then or_bit k x else clear_bit k x] := by
      simp only [compress_bit, hne, if_false, hrep, hcb, hk, Nat.add_sub_cancel]
      by_cases hc : c = 0 <;> simp [hc, hk7, set_last_append_one]
    have hcb2 : (compress_bit junk s c).curr_bit = if k = 0 then 8 else k := by
      simp [compress_bit, hcb, hk]
    rw [hk] at hval
    rw [hval] at h2
    by_cases h7 : pend.length = 7
    · have hk0 : k = 0 := by omega
      subst hk0
      refine ⟨by simp [abs_step, h7], Or.inl ⟨by simp [abs_step, h7], ?_, ?_⟩⟩
      · rw [hrep2]
        simp only [abs_step, h7, if_true, bits_val_append]
        rw [← h2]; simp
      · simp [hcb2]
    · have hk0 : k ≠ 0 := by omega
      refine ⟨by simp [abs_step, h7]; omega, Or.inr ⟨by simp [abs_step, h7], ?_⟩⟩
      refine ⟨_, ?_, h1, ?_, ?_⟩
      · rw [hrep2]; simp [abs_step, h7]
      · simp only [hcb2, hk0, if_false, abs_step, h7, List.length_append, List.length_singleton]
        omega
      · simp only [abs_step, h7, if_false, List.length_append, List.length_singleton,
          bits_val_append]
        rw [show 8 - (pend.length + 1) = k by omega]
        exact h2

theorem compress_fold_rel (junk : Nat → Nat) (cells : List Nat) :
    ∀ (s : compress_state) (done : List Nat) (pend : List Bool), pack_rel s done pend →
      pack_rel (cells.foldl (compress_bit junk) s)
        ((cells.map (fun c => decide (c ≠ 0))).foldl abs_step (done, pend)).1
        ((cells.map (fun c => decide (c ≠ 0))).foldl abs_step (done, pend)).2 := by
  induction cells with
  | nil => intro s done pend h; exact h
  | cons c t ih =>
    intro s done pend h
    simp only [List.foldl_cons, List.map_cons]
    exact ih _ _ _ (compress_bit_rel junk s c done pend h)

theorem compress_fold_count (junk : Nat → Nat) (cells : List Nat) :
    ∀ s : compress_state,
      (cells.foldl (compress_bit junk) s).total_count = s.total_count + cells.length := by
  induction cells with
  | nil => intro s; rfl
  | cons c t ih =>
    intro s
    simp only [List.foldl_cons, List.length_cons, ih]
    simp only [compress_bit]; omega

theorem foldl_codes (junk : Nat → Nat) (dict : List m_node) (input : List Nat) :
    ∀ s : compress_state,
      input.foldl (fun s b => (dict_at dict b).code.foldl (compress_bit junk) s) s
        = (input.flatMap (fun b => (dict_at dict b).code)).foldl (compress_bit junk) s := by
  induction input with
  | nil => intro s; rfl
  | cons b t ih =>
    intro s
    simp only [List.foldl_cons, List.flatMap_cons, List.foldl_append, ih]

theorem code_bits_eq (input : List Nat) (dict : List m_node) :
    code_bits input dict
      = (input.flatMap (fun b => (dict_at dict b).code)).map (fun c => decide (c ≠ 0)) := by
  induction input with
  | nil => rfl
  | cons b t ih =>
    simp only [code_bits, List.flatMap_cons, List.map_append] at ih ⊢
    rw [ih]

theorem pack_bits_aux_nil (f : Nat) : pack_bits_aux f [] = [] := by
  cases f <;> simp [pack_bits_aux]

theorem pack_bits_aux_fuel : ∀ (f g : Nat) (l : List Bool), l.length ≤ f → l.length ≤ g →
    pack_bits_aux f l = pack_bits_aux g l := by
  intro f
  induction f with
  | zero =>
    intro g l hf _
    have : l = [] := List.length_eq_zero.mp (by omega)
    subst this
    rw [pack_bits_aux_nil, pack_bits_aux_nil]
  | succ f ih =>
    intro g l hf hg
    cases g with
    | zero =>
      have : l = [] := List.length_eq_zero.mp (by omega)
      subst this
      rw [pack_bits_aux_nil, pack_bits_aux_nil]
    | succ g =>
      by_cases hl : l = []
      · simp [pack_bits_aux, hl]
      · have hpos : 0 < l.length := List.length_pos.mpr hl
        simp only [pack_bits_aux, hl, if_false]
        rw [ih g (l.drop 8) (by rw [List.length_drop]; omega) (by rw [List.length_drop]; omega)]

theorem pack_bits_short (l : List Bool) (h : l.length ≤ 8) :
    pack_bits l = if l = [] then [] else [byte_of_bits l] := by
  by_cases hl : l = []
  · subst hl; rfl
  · have hpos : 0 < l.length := List.length_pos.mpr hl
    obtain ⟨n, hn⟩ : ∃ n, l.length = n + 1 := ⟨l.length - 1, by omega⟩
    simp only [pack_bits, hn, pack_bits_aux, hl, if_false]
    rw [List.take_of_length_le h, List.drop_of_length_le h, pack_bits_aux_nil]

theorem pack_bits_chunk (c l : List Bool) (h : c.length = 8) :
    pack_bits (c ++ l) = byte_of_bits c :: pack_bits l := by
  have hne : c ++ l ≠ [] := by
    intro h0
    have h1 := congrArg List.length h0
    rw [List.length_append, h] at h1
    simp at h1
  have hlen : (c ++ l).length = (7 + l.length) + 1 := by simp [h]; omega
  simp only [pack_bits, hlen, pack_bits_aux, hne, if_false]
  rw [List.take_left' h, List.drop_left' h]
  rw [pack_bits_aux_fuel (7 + l.length) l.length l (by omega) (le_refl _)]

theorem byte_of_bits_full (c : List Bool) (h : c.length = 8) : byte_of_bits c = bits_val c := by
  simp [byte_of_bits, h]

theorem abs_run_pack (bits : List Bool) :
    ∀ (done : List Nat) (pend : List Bool), pend.length < 8 →
      (bits.foldl abs_step (done, pend)).2.length < 8 ∧
      done ++ pack_bits (pend ++ bits)
        = (bits.foldl abs_step (done, pend)).1 ++
          (if (bits.foldl abs_step (done, pend)).2 = [] then []
           else [byte_of_bits (bits.foldl abs_step (done, pend)).2]) := by
  induction bits with
  | nil =>
    intro done pend hp
    simp only [List.foldl_nil, List.append_nil]
    exact ⟨hp, by rw [pack_bits_short pend (by omega)]⟩
  | cons b t ih =>
    intro done pend hp
    simp only [List.foldl_cons]
    by_cases h7 : pend.length = 7
    · have hstep : abs_step (done, pend) b = (done ++ [bits_val (pend ++ [b])], []) := by
        simp [abs_step, h7]
      rw [hstep]
      obtain ⟨h1, h2⟩ := ih (done ++ [bits_val (pend ++ [b])]) [] (by simp)
      refine ⟨h1, ?_⟩
      rw [← h2]
      have hc : (pend ++ [b]).length = 8 := by simp [h7]
      have : pend ++ b :: t = (pend ++ [b]) ++ t := by simp
      rw [this, pack_bits_chunk _ _ hc, byte_of_bits_full _ hc]
      simp
    · have hstep : abs_step (done, pend) b = (done, pend ++ [b]) := by
        simp [abs_step, h7]
      rw [hstep]
      obtain ⟨h1, h2⟩ := ih done (pend ++ [b]) (by simp; omega)
      refine ⟨h1, ?_⟩
      rw [← h2]
      simp

theorem zero_padding_last : ∀ (k : Nat) (done : List Nat) (x : Nat), k < 8 → x < 256 →
    zero_padding k (done ++ [x]) = done ++ [x / 2 ^ k * 2 ^ k] := by
  intro k
  induction k with
  | zero => intro done x _ _; simp [zero_padding]
  | succ k ih =>
    intro done x hk hx
    obtain ⟨h1, h2⟩ := clear_bit_step k (by omega) x hx
    have hne : k + 1 ≠ 8 := by omega
    simp only [zero_padding, hne, if_false, set_last_append_one]
    rw [ih done _ (by omega) h1, h2, pow_succ]
    congr 2
    ring

theorem pack_bits_length_aux : ∀ (n : Nat) (l : List Bool), l.length ≤ n →
    (pack_bits l).length = (l.length + 7) / 8 := by
  intro n
  induction n with
  | zero =>
    intro l h
    have : l = [] := List.length_eq_zero.mp (by omega)
    subst this; rfl
  | succ n ih =>
    intro l h
    by_cases h8 : l.length ≤ 8
    · rw [pack_bits_short l h8]
      by_cases hl : l = []
      · subst hl; rfl
      · have hpos : 0 < l.length := List.length_pos.mpr hl
        simp only [hl, if_false, List.length_singleton]
        omega
    · have hsplit : l = l.take 8 ++ l.drop 8 := (List.take_append_drop 8 l).symm
      have htake : (l.take 8).length = 8 := by rw [List.length_take]; omega
      have hdrop : (l.drop 8).length = l.length - 8 := List.length_drop 8 l
      have h1 := ih (l.drop 8) (by omega)
      rw [hsplit, pack_bits_chunk _ _ htake, List.length_cons, h1, ← hsplit, hdrop]
      omega

theorem pack_bits_length (l : List Bool) : (pack_bits l).length = (l.length + 7) / 8 :=
  pack_bits_length_aux l.length l (le_refl _)

/-- The buffer `compress` builds is the packed code bits followed by the padding count, whatever
the fresh bytes held. -/
theorem compress_with_eq_spec (junk : Nat → Nat) (input : List Nat) (dict : List m_node) :
    compress_with junk input dict = encode_spec input dict := by
  have hrel := compress_fold_rel junk (input.flatMap (fun b => (dict_at dict b).code))
    ⟨[], 8, 0⟩ [] [] ⟨by simp, Or.inl ⟨rfl, rfl, rfl⟩⟩
  have hcnt := compress_fold_count junk (input.flatMap (fun b => (dict_at dict b).code))
    ⟨[], 8, 0⟩
  have hpack := abs_run_pack (code_bits input dict) [] [] (by simp)
  rw [← code_bits_eq] at hrel
  simp only [compress_with, encode_spec, foldl_codes]
  have hlen : (code_bits input dict).length
      = (input.flatMap (fun b => (dict_at dict b).code)).length := by
    rw [code_bits_eq, List.length_map]
  rw [hcnt, hlen]
  simp only [Nat.zero_add]
  congr 1
  obtain ⟨h1, h2⟩ := hpack
  simp only [List.nil_append] at h2
  rw [h2]
  obtain ⟨_, hr⟩ := hrel
  rcases hr with ⟨hp, hrep, hcb⟩ | ⟨hp, x, hrep, hx, hcb, hval⟩
  · rw [hp, hcb, hrep]; simp [zero_padding]
  · have hpl : 0 < ((code_bits input dict).foldl abs_step ([], [])).2.length :=
      List.length_pos.mpr hp
    rw [hcb, hrep, zero_padding_last _ _ _ (by omega) hx, hval]
    simp [hp, byte_of_bits]

theorem byte_bits_val8 : ∀ a b c d e f g h : Bool,
    byte_bits (bits_val [a, b, c, d, e, f, g, h])
      = [a, b, c, d, e, f, g, h].map (fun b => if b then 1 else 0) := by
  decide

theorem list_eight (l : List Bool) (h : l.length = 8) :
    ∃ a b c d e f g i, l = [a, b, c, d, e, f, g, i] := by
  rcases l with _ | ⟨a, _ | ⟨b, _ | ⟨c, _ | ⟨d, _ | ⟨e, _ | ⟨f, _ | ⟨g, _ | ⟨i, _ | ⟨j, t⟩⟩⟩⟩⟩⟩⟩⟩⟩ <;>
    simp at h
  exact ⟨a, b, c, d, e, f, g, i, rfl⟩

theorem byte_bits_full (l : List Bool) (h : l.length = 8) :
    byte_bits (bits_val l) = l.map (fun b => if b then 1 else 0) := by
  obtain ⟨a, b, c, d, e, f, g, i, rfl⟩ := list_eight l h
  exact byte_bits_val8 a b c d e f g i

theorem bits_val_zeros (l : List Bool) (k : Nat) :
    bits_val (l ++ List.replicate k false) = bits_val l * 2 ^ k := by
  induction k with
  | zero => simp
  | succ k ih =>
    rw [List.replicate_succ', ← List.append_assoc, bits_val_append, ih, pow_succ]
    simp
    ring

theorem byte_bits_short (l : List Bool) (h : l.length ≤ 8) :
    byte_bits (byte_of_bits l)
      = l.map (fun b => if b then 1 else 0) ++ List.replicate (8 - l.length) 0 := by
  have h1 : byte_of_bits l = bits_val (l ++ List.replicate (8 - l.length) false) := by
    rw [bits_val_zeros]; rfl
  rw [h1, byte_bits_full _ (by simp; omega)]
  simp

theorem pack_bits_bits_aux : ∀ (n : Nat) (l : List Bool), l.length ≤ n →
    (pack_bits l).flatMap byte_bits
      = l.map (fun b => if b then 1 else 0) ++ List.replicate ((8 - l.length % 8) % 8) 0 := by
  intro n
  induction n with
  | zero =>
    intro l h
    have : l = [] := List.length_eq_zero.mp (by omega)
    subst this; rfl
  | succ n ih =>
    intro l h
    by_cases h8 : l.length ≤ 8
    · rw [pack_bits_short l h8]
      by_cases hl : l = []
      · subst hl; rfl
      · have hpos : 0 < l.length := List.length_pos.mpr hl
        simp only [hl, if_false, List.flatMap_cons, List.flatMap_nil, List.append_nil]
        rw [byte_bits_short l h8]
        congr 2
        omega
    · have hsplit : l = l.take 8 ++ l.drop 8 := (List.take_append_drop 8 l).symm
      have htake : (l.take 8).length = 8 := by rw [List.length_take]; omega
      have hdrop : (l.drop 8).length = l.length - 8 := List.length_drop 8 l
      have h1 := ih (l.drop 8) (by omega)
      have h2 : (pack_bits l).flatMap byte_bits
          = byte_bits (byte_of_bits (l.take 8)) ++ (pack_bits (l.drop 8)).flatMap byte_bits := by
        conv_lhs => rw [hsplit]
        rw [pack_bits_chunk _ _ htake, List.flatMap_cons]
      rw [h2, h1, byte_bits_short _ (by omega), htake, hdrop]
      have h3 : (8 - (l.length - 8) % 8) % 8 = (8 - l.length % 8) % 8 := by omega
      rw [h3]
      simp only [Nat.sub_self, List.replicate_zero, List.append_nil, ← List.map_take,
        ← List.map_drop, ← List.append_assoc, ← List.map_append, List.take_append_drop]

theorem pack_bits_bits (l : List Bool) :
    (pack_bits l).flatMap byte_bits
      = l.map (fun b => if b then 1 else 0) ++ List.replicate ((8 - l.length % 8) % 8) 0 :=
  pack_bits_bits_aux l.length l (le_refl _)

theorem find_unique {p : Nat → Bool} {l : List Nat} {v : Nat} (hv : v ∈ l) (hp : p v = true)
    (hu : ∀ q ∈ l, p q = true → q = v) : l.find? p = some v := by
  cases h : l.find? p with
  | none =>
    rw [List.find?_eq_none] at h
    exact absurd hp (h v hv)
  | some q =>
    have h1 := List.find?_some h
    have h2 := List.mem_of_find?_eq_some h
    rw [hu q h2 h1]

theorem find_code_full (dict : List m_node) (hd : valid_dict dict) (v : Nat) (hv : v < 256) :
    find_code dict (dict_at dict v).code = some v := by
  obtain ⟨hb, _, hpf⟩ := hd
  unfold find_code
  rw [find_unique (v := v) (List.mem_range.mpr hv) (by simp [m_node.code_l])]
  · simp [hb v hv]
  · intro q hq hpq
    rw [List.mem_range] at hq
    simp only [Bool.and_eq_true, beq_iff_eq] at hpq
    by_contra hne
    apply hpf q hq v hv hne
    rw [hpq.2]

theorem find_code_proper (dict : List m_node) (hd : valid_dict dict) (v : Nat) (hv : v < 256)
    (u x : List Nat) (hx : x ≠ []) (hux : u ++ x = (dict_at dict v).code) :
    find_code dict u = none := by
  obtain ⟨_, _, hpf⟩ := hd
  unfold find_code
  rw [Option.map_eq_none', List.find?_eq_none]
  intro q hq hpq
  rw [List.mem_range] at hq
  simp only [Bool.and_eq_true, beq_iff_eq] at hpq
  by_cases hqv : q = v
  · subst hqv
    rw [hpq.2] at hux
    exact hx (List.append_right_eq_self.mp hux)
  · apply hpf q hq v hv hqv
    rw [hpq.2]
    exact ⟨x, hux⟩

theorem decompress_loop_code (dict : List m_node) (hd : valid_dict dict) (total : Int) (v : Nat)
    (hv : v < 256) : ∀ (x u rest rep : List Nat) (c : Int), x ≠ [] →
      u ++ x = (dict_at dict v).code → c + x.length ≤ total →
      decompress_loop dict total (x ++ rest) u rep c
        = if c + x.length = total then some (rep ++ [v])
          else decompress_loop dict total rest [] (rep ++ [v]) (c + x.length) := by
  intro x
  induction x with
  | nil => intro u rest rep c h; exact absurd rfl h
  | cons b t ih =>
    intro u rest rep c _ hux hle
    by_cases ht : t = []
    · subst ht
      have hf : find_code dict (u ++ [b]) = some v := by
        rw [hux]; exact find_code_full dict hd v hv
      simp only [List.cons_append, List.nil_append, decompress_loop, hf, List.length_singleton,
        Nat.cast_one, List.append_eq]
    · have hf : find_code dict (u ++ [b]) = none :=
        find_code_proper dict hd v hv (u ++ [b]) t ht (by simpa using hux)
      have hpos : 0 < t.length := List.length_pos.mpr ht
      simp only [List.length_cons, Nat.cast_add, Nat.cast_one] at hle ⊢
      have hne : ¬ (c + 1 = total) := by omega
      simp only [List.cons_append, decompress_loop, hf, hne, if_false, List.append_eq]
      rw [ih (u ++ [b]) rest rep (c + 1) ht (by simpa using hux) (by omega)]
      have e : c + 1 + (t.length : Int) = c + ((t.length : Int) + 1) := by ring
      rw [e]

theorem decompress_loop_codes (dict : List m_node) (hd : valid_dict dict) (total : Int) :
    ∀ (input tail rep : List Nat) (c : Int), input ≠ [] → (∀ b ∈ input, b < 256) →
      c + (input.flatMap (fun b => (dict_at dict b).code)).length = total →
      decompress_loop dict total (input.flatMap (fun b => (dict_at dict b).code) ++ tail) [] rep c
        = some (rep ++ input) := by
  intro input
  induction input with
  | nil => intro tail rep c h; exact absurd rfl h
  | cons v t ih =>
    intro tail rep c _ hb hc
    have hv : v < 256 := hb v (List.mem_cons_self _ _)
    have hne : (dict_at dict v).code ≠ [] := by
      intro h0
      obtain ⟨_, _, hpf⟩ := hd
      by_cases h1 : v = 0
      · exact hpf v hv 1 (by norm_num) (by omega) (by rw [h0]; exact List.nil_prefix)
      · exact hpf v hv 0 (by norm_num) h1 (by rw [h0]; exact List.nil_prefix)
    simp only [List.flatMap_cons, List.length_append, Nat.cast_add, List.append_assoc] at hc ⊢
    rw [decompress_loop_code dict hd total v hv _ [] _ rep c hne rfl (by omega)]
    by_cases ht : t = []
    · subst ht
      simp only [List.flatMap_nil, List.length_nil, Nat.cast_zero, add_zero] at hc
      simp [hc]
    · have hpos : 0 < (t.flatMap (fun b => (dict_at dict b).code)).length := by
        obtain ⟨w, t2, rfl⟩ := List.exists_cons_of_ne_nil ht
        have hw : w < 256 := hb w (by simp)
        have hnew : (dict_at dict w).code ≠ [] := by
          intro h0
          obtain ⟨_, _, hpf⟩ := hd
          by_cases h1 : w = 0
          · exact hpf w hw 1 (by norm_num) (by omega) (by rw [h0]; exact List.nil_prefix)
          · exact hpf w hw 0 (by norm_num) h1 (by rw [h0]; exact List.nil_prefix)
        simp only [List.flatMap_cons, List.length_append]
        have := List.length_pos.mpr hnew
        omega
      have hne2 : ¬ (c + ((dict_at dict v).code.length : Int) = total) := by omega
      rw [if_neg hne2, ih tail (rep ++ [v]) _ ht (fun b hb2 => hb b (List.mem_cons_of_mem _ hb2))
        (by omega)]
      simp

theorem decompress_loop_past (dict : List m_node) (total : Int) :
    ∀ (bits buffer rep : List Nat) (c : Int), total ≤ c →
      decompress_loop dict total bits buffer rep c = none := by
  intro bits
  induction bits with
  | nil => intro buffer rep c _; rfl
  | cons b t ih =>
    intro buffer rep c hc
    have hne : ¬ (c + 1 = total) := by omega
    simp only [decompress_loop, hne, if_false]
    exact ih _ _ _ (by omega)

theorem decompress_pad_only (dict : List m_node) : decompress [0] dict = some [0] := by
  simp only [decompress, List.getLast?_singleton, List.length_singleton]
  rw [decompress_loop_past dict _ _ _ _ _ (by norm_num)]

theorem cells_of_bits (dict : List m_node) (hd : valid_dict dict) (input : List Nat)
    (hb : ∀ b ∈ input, b < 256) :
    (code_bits input dict).map (fun b => if b then 1 else 0)
      = input.flatMap (fun b => (dict_at dict b).code) := by
  induction input with
  | nil => rfl
  | cons v t ih =>
    have hv : v < 256 := hb v (List.mem_cons_self _ _)
    have ih2 := ih (fun b hb2 => hb b (List.mem_cons_of_mem _ hb2))
    simp only [code_bits, List.flatMap_cons, List.map_append] at ih2 ⊢
    rw [ih2]
    congr 1
    rw [List.map_map]
    conv_rhs => rw [← List.map_id (dict_at dict v).code]
    apply List.map_congr_left
    intro c hc
    have := hd.2.1 v hv c hc
    by_cases h0 : c = 0
    · simp [h0]
    · simp [h0]; omega

/-- Decoding the encoding of a payload that is not empty gives the payload back. -/
theorem decompress_encode_spec (dict : List m_node) (hd : valid_dict dict) (input : List Nat)
    (hne : input ≠ []) (hb : ∀ b ∈ input, b < 256) :
    decompress (encode_spec input dict) dict = some input := by
  have hcells := cells_of_bits dict hd input hb
  have hlenc : (code_bits input dict).length
      = (input.flatMap (fun b => (dict_at dict b).code)).length := by
    rw [← hcells, List.length_map]
  have hbits : (encode_spec input dict).flatMap byte_bits
      = input.flatMap (fun b => (dict_at dict b).code) ++
        (List.replicate ((8 - (code_bits input dict).length % 8) % 8) 0 ++
          byte_bits ((8 - (code_bits input dict).length % 8) % 8)) := by
    simp only [encode_spec, List.flatMap_append, List.flatMap_cons, List.flatMap_nil,
      List.append_nil, pack_bits_bits, hcells, List.append_assoc]
  have hlen : (encode_spec input dict).length = ((code_bits input dict).length + 7) / 8 + 1 := by
    simp [encode_spec, pack_bits_length]
  have hlast : (encode_spec input dict).getLast?
      = some ((8 - (code_bits input dict).length % 8) % 8) := by
    simp [encode_spec]
  simp only [decompress, hlast, hbits, hlen]
  rw [decompress_loop_codes dict hd _ input _ [] 0 hne hb]
  · simp
  · rw [← hlenc]
    push_cast
    omega

theorem cursor_next_at (p : Nat) : cursor_next (cursor_at p) = cursor_at (p + 1) := by
  unfold cursor_next cursor_at
  by_cases h : p % 8 = 7
  · have h1 : 8 - p % 8 - 1 = 0 := by omega
    simp only [h1, if_true]
    congr 1 <;> omega
  · have h1 : ¬ (8 - p % 8 - 1 = 0) := by omega
    simp only [h1, if_false]
    congr 1 <;> omega

theorem msb_bits_length (x : Nat) : (msb_bits x).length = 8 := by simp [msb_bits]

theorem file_bits_length (file : List Nat) : (file.flatMap msb_bits).length = 8 * file.length := by
  induction file with
  | nil => rfl
  | cons x t ih => simp only [List.flatMap_cons, List.length_append, msb_bits_length, ih,
      List.length_cons]; omega

theorem msb_bits_get : ∀ k < 8, ∀ x < 256, (msb_bits x).getD k 0 = bit_at x (8 - k) := by
  decide

theorem file_bits_get (file : List Nat) : ∀ (i k : Nat), k < 8 → i < file.length →
    (file.flatMap msb_bits).getD (8 * i + k) 0 = (msb_bits (file.getD i 0)).getD k 0 := by
  induction file with
  | nil => intro i k _ hi; simp at hi
  | cons x t ih =>
    intro i k hk hi
    cases i with
    | zero =>
      simp only [List.flatMap_cons, Nat.mul_zero, Nat.zero_add, List.getD_cons_zero]
      rw [List.getD_append _ _ _ _ (by rw [msb_bits_length]; exact hk)]
    | succ j =>
      simp only [List.flatMap_cons, List.getD_cons_succ]
      rw [List.getD_append_right _ _ _ _ (by rw [msb_bits_length]; omega), msb_bits_length]
      have e : 8 * (j + 1) + k - 8 = 8 * j + k := by omega
      rw [e]
      exact ih j k hk (by simpa using hi)

/-- The bit the cursor delivers is the bit of the file at its position. -/
theorem cursor_bit (file : List Nat) (hfile : ∀ b ∈ file, b < 256) (p : Nat)
    (hp : p < (file.flatMap msb_bits).length) :
    bit_at (file.getD (cursor_at p).current_byte 0) (cursor_at p).curr_byte_bit
      = (file.flatMap msb_bits).getD p 0 := by
  rw [file_bits_length] at hp
  have hi : p / 8 < file.length := by omega
  have hk : p % 8 < 8 := Nat.mod_lt _ (by norm_num)
  have hx : file.getD (p / 8) 0 < 256 := by
    rw [List.getD_eq_getElem _ _ hi]
    exact hfile _ (List.getElem_mem _)
  have e : p = 8 * (p / 8) + p % 8 := (Nat.div_add_mod p 8).symm
  conv_rhs => rw [e]
  rw [file_bits_get file _ _ hk hi, msb_bits_get _ hk _ hx]
  rfl

theorem drop_take_succ (l : List Nat) (p n : Nat) (hp : p < l.length) :
    (l.drop p).take (n + 1) = l.getD p 0 :: (l.drop (p + 1)).take n := by
  rw [List.drop_eq_getElem_cons hp, List.take_succ_cons, List.getD_eq_getElem _ _ hp]

theorem read_bits_eq (file : List Nat) (hfile : ∀ b ∈ file, b < 256) :
    ∀ (n p : Nat), p + n ≤ (file.flatMap msb_bits).length →
      read_bits file n (cursor_at p) = (((file.flatMap msb_bits).drop p).take n, cursor_at (p + n)) := by
  intro n
  induction n with
  | zero => intro p _; simp [read_bits]
  | succ n ih =>
    intro p hp
    simp only [read_bits, cursor_next_at]
    rw [ih (p + 1) (by omega), cursor_bit file hfile p (by omega), drop_take_succ _ _ _ (by omega),
      show p + 1 + n = p + (n + 1) by omega]

theorem code_size_msb : ∀ x < 256,
    code_size (msb_bits x) = be_val_bits (msb_bits x) ∧
    or_fold 0 8 (msb_bits x) = be_val_bits (msb_bits x) := by
  decide

theorem msb_bits_val8 (a b c d e f g h : Nat) (ha : a < 2) (hb : b < 2) (hc : c < 2) (hd : d < 2)
    (he : e < 2) (hf : f < 2) (hg : g < 2) (hh : h < 2) :
    be_val_bits [a, b, c, d, e, f, g, h] < 256 ∧
    msb_bits (be_val_bits [a, b, c, d, e, f, g, h]) = [a, b, c, d, e, f, g, h] := by
  simp only [msb_bits, be_val_bits, List.foldl, List.range, List.range.loop, List.map]
  norm_num
  omega

theorem nat_list_eight (l : List Nat) (h : l.length = 8) :
    ∃ a b c d e f g i, l = [a, b, c, d, e, f, g, i] := by
  rcases l with _ | ⟨a, _ | ⟨b, _ | ⟨c, _ | ⟨d, _ | ⟨e, _ | ⟨f, _ | ⟨g, _ | ⟨i, _ | ⟨j, t⟩⟩⟩⟩⟩⟩⟩⟩⟩ <;>
    simp at h
  exact ⟨a, b, c, d, e, f, g, i, rfl⟩

theorem file_bits_lt (file : List Nat) : ∀ b ∈ file.flatMap msb_bits, b < 2 := by
  intro b hb
  simp only [List.mem_flatMap, msb_bits, List.mem_map] at hb
  obtain ⟨x, _, i, _, rfl⟩ := hb
  exact Nat.mod_lt _ (by norm_num)

theorem code_size_eq (l : List Nat) (h : l.length = 8) (hl : ∀ b ∈ l, b < 2) :
    code_size l = be_val_bits l ∧ or_fold 0 8 l = be_val_bits l := by
  obtain ⟨a, b, c, d, e, f, g, i, rfl⟩ := nat_list_eight l h
  obtain ⟨h1, h2⟩ := msb_bits_val8 a b c d e f g i (hl a (by simp)) (hl b (by simp))
    (hl c (by simp)) (hl d (by simp)) (hl e (by simp)) (hl f (by simp)) (hl g (by simp))
    (hl i (by simp))
  have h3 := code_size_msb _ h1
  rw [h2] at h3
  exact h3

theorem take_drop_lt (bits : List Nat) (hb : ∀ b ∈ bits, b < 2) (p n : Nat) :
    ∀ b ∈ (bits.drop p).take n, b < 2 :=
  fun b h => hb b (List.mem_of_mem_drop (List.mem_of_mem_take h))

/-- The loop of `create_map` builds the entries the specification describes. -/
theorem create_map_loop_eq (file : List Nat) (hfile : ∀ b ∈ file, b < 256) :
    ∀ (n v p : Nat) (T : List m_node), v + n ≤ 256 →
      load_spec_aux n v ((file.flatMap msb_bits).drop p) = some T →
      create_map_loop file n v (cursor_at p) = T := by
  intro n
  induction n with
  | zero =>
    intro v p T _ h
    simp only [load_spec_aux, Option.some.injEq] at h
    rw [← h]; rfl
  | succ n ih =>
    intro v p T hv h
    simp only [load_spec_aux, List.length_drop, List.drop_drop] at h
    split at h
    · exact absurd h (by simp)
    · rename_i h8
      split at h
      · exact absurd h (by simp)
      · rename_i hlen
        obtain ⟨t, ht, rfl⟩ := Option.map_eq_some'.mp h
        have hb8 : (((file.flatMap msb_bits).drop p).take 8).length = 8 := by
          rw [List.length_take, List.length_drop]; omega
        have hsize := (code_size_eq _ hb8 (take_drop_lt _ (file_bits_lt file) p 8)).1
        simp only [create_map_loop]
        rw [read_bits_eq file hfile 8 p (by omega)]
        simp only [hsize]
        rw [read_bits_eq file hfile _ (p + 8) (by omega)]
        simp only
        rw [Nat.mod_eq_of_lt (by omega)]
        rw [ih (v + 1) _ t (by omega) ht]

theorem shift_and_one : ∀ j < 8, ∀ x < 256, (x >>> j) &&& 1 = bit_at x (j + 1) := by
  decide

theorem cursor_bit_optimized (file : List Nat) (hfile : ∀ b ∈ file, b < 256) (p : Nat)
    (hp : p < (file.flatMap msb_bits).length) :
    (file.getD (cursor_at p).current_byte 0 >>> ((cursor_at p).curr_byte_bit - 1)) &&& 1
      = (file.flatMap msb_bits).getD p 0 := by
  rw [← cursor_bit file hfile p hp]
  rw [file_bits_length] at hp
  have hi : p / 8 < file.length := by omega
  have hx : file.getD (p / 8) 0 < 256 := by
    rw [List.getD_eq_getElem _ _ hi]
    exact hfile _ (List.getElem_mem _)
  have h := shift_and_one (7 - p % 8) (by omega) _ hx
  simp only [cursor_at]
  rw [show 8 - p % 8 - 1 = 7 - p % 8 by omega, h, show 7 - p % 8 + 1 = 8 - p % 8 by omega]

theorem cursor_in_file (file : List Nat) (p : Nat) (hp : p < (file.flatMap msb_bits).length) :
    ¬ ((cursor_at p).current_byte ≥ file.length) := by
  rw [file_bits_length] at hp
  simp only [cursor_at]
  omega

theorem read_length_optimized_eq (file : List Nat) (hfile : ∀ b ∈ file, b < 256) :
    ∀ (k acc p : Nat), p + k ≤ (file.flatMap msb_bits).length →
      read_length_optimized file k acc (cursor_at p)
        = (or_fold acc k (((file.flatMap msb_bits).drop p).take k), cursor_at (p + k)) := by
  intro k
  induction k with
  | zero => intro acc p _; simp [read_length_optimized, or_fold]
  | succ k ih =>
    intro acc p hp
    simp only [read_length_optimized, cursor_in_file file p (by omega), if_false, cursor_next_at,
      cursor_bit_optimized file hfile p (by omega)]
    rw [ih _ (p + 1) (by omega), drop_take_succ _ _ _ (by omega),
      show p + 1 + k = p + (k + 1) by omega]
    rfl

theorem read_code_optimized_eq (file : List Nat) (hfile : ∀ b ∈ file, b < 256) :
    ∀ (n p : Nat), p + n ≤ (file.flatMap msb_bits).length →
      read_code_optimized file n (cursor_at p)
        = (((file.flatMap msb_bits).drop p).take n, cursor_at (p + n)) := by
  intro n
  induction n with
  | zero => intro p _; simp [read_code_optimized]
  | succ n ih =>
    intro p hp
    simp only [read_code_optimized, cursor_in_file file p (by omega), if_false, cursor_next_at,
      cursor_bit_optimized file hfile p (by omega)]
    rw [ih (p + 1) (by omega), drop_take_succ _ _ _ (by omega),
      show p + 1 + n = p + (n + 1) by omega]

/-- The loop of `create_map_optimized` stores the codes of the table of the specification and inserts
them into the trie in the order of the byte values. -/
theorem create_map_optimized_loop_eq (file : List Nat) (hfile : ∀ b ∈ file, b < 256) :
    ∀ (n v p : Nat) (T : List m_node) (map : compression_map_opt), v + n ≤ 256 →
      load_spec_aux n v ((file.flatMap msb_bits).drop p) = some T →
      create_map_optimized_loop file n v (cursor_at p) map
        = ⟨T.foldl (fun t e => insert_trie t e.code e.byte) map.root,
            map.encode_table ++ T.map m_node.code⟩ := by
  intro n
  induction n with
  | zero =>
    intro v p T map _ h
    simp only [load_spec_aux, Option.some.injEq] at h
    rw [← h]; simp [create_map_optimized_loop]
  | succ n ih =>
    intro v p T map hv h
    simp only [load_spec_aux, List.length_drop, List.drop_drop] at h
    split at h
    · exact absurd h (by simp)
    · rename_i h8
      split at h
      · exact absurd h (by simp)
      · rename_i hlen
        obtain ⟨t, ht, rfl⟩ := Option.map_eq_some'.mp h
        have hb8 : (((file.flatMap msb_bits).drop p).take 8).length = 8 := by
          rw [List.length_take, List.length_drop]; omega
        have hsize := (code_size_eq _ hb8 (take_drop_lt _ (file_bits_lt file) p 8)).2
        simp only [create_map_optimized_loop]
        rw [read_length_optimized_eq file hfile 8 0 p (by omega)]
        simp only [hsize]
        rw [read_code_optimized_eq file hfile _ (p + 8) (by omega)]
        simp only
        rw [Nat.mod_eq_of_lt (by omega), ih (v + 1) _ t _ (by omega) ht]
        simp

theorem carries_insert (w : List Nat) (v : Nat) : ∀ t : trie, carries (insert_trie t w v) w v := by
  induction w with
  | nil =>
    intro t
    cases t with
    | null => exact ⟨_, _, rfl⟩
    | node c0 c1 b l => exact ⟨_, _, rfl⟩
  | cons bit rest ih =>
    intro t
    cases t with
    | null =>
      by_cases hb : bit = 0
      · simpa [carries, insert_trie, trie_walk, hb] using ih trie.null
      · simpa [carries, insert_trie, trie_walk, hb] using ih trie.null
    | node c0 c1 b l =>
      by_cases hb : bit = 0
      · simpa [carries, insert_trie, trie_walk, hb] using ih c0
      · simpa [carries, insert_trie, trie_walk, hb] using ih c1

theorem carries_keep (w2 : List Nat) (x : Nat) :
    ∀ (t : trie) (w : List Nat) (v : Nat), (∀ c ∈ w, c < 2) → (∀ c ∈ w2, c < 2) → w2 ≠ w →
      carries t w2 x → carries (insert_trie t w v) w2 x := by
  induction w2 with
  | nil =>
    intro t w v _ _ hne hc
    obtain ⟨c0, c1, hc⟩ := hc
    simp only [trie_walk] at hc
    subst hc
    cases w with
    | nil => exact absurd rfl hne
    | cons bit rest =>
      by_cases hb : bit = 0 <;> simp [carries, insert_trie, trie_walk, hb]
  | cons b2 r2 ih =>
    intro t w v hw hw2 hne hc
    cases t with
    | null =>
      obtain ⟨c0, c1, hc⟩ := hc
      simp [trie_walk] at hc
    | node c0 c1 b l =>
      have hr2 : ∀ c ∈ r2, c < 2 := fun c h => hw2 c (List.mem_cons_of_mem _ h)
      have hb2 : b2 < 2 := hw2 b2 (List.mem_cons_self _ _)
      cases w with
      | nil => simpa [carries, insert_trie, trie_walk] using hc
      | cons bit rest =>
        have hrest : ∀ c ∈ rest, c < 2 := fun c h => hw c (List.mem_cons_of_mem _ h)
        have hbit : bit < 2 := hw bit (List.mem_cons_self _ _)
        by_cases hb : bit = 0
        · by_cases h2 : b2 = 0
          · have hne2 : r2 ≠ rest := by
              intro h; apply hne; rw [h, hb, h2]
            have h3 : carries c0 r2 x := by simpa [carries, trie_walk, h2] using hc
            simpa [carries, insert_trie, trie_walk, hb, h2] using ih c0 rest v hrest hr2 hne2 h3
          · simpa [carries, insert_trie, trie_walk, hb, h2] using hc
        · by_cases h2 : b2 = 0
          · simpa [carries, insert_trie, trie_walk, hb, h2] using hc
          · have hne2 : r2 ≠ rest := by
              intro h; apply hne; rw [h]; congr 1; omega
            have h3 : carries c1 r2 x := by simpa [carries, trie_walk, h2] using hc
            simpa [carries, insert_trie, trie_walk, hb, h2] using ih c1 rest v hrest hr2 hne2 h3

theorem carries_fold (w : List Nat) (x : Nat) (hw : ∀ c ∈ w, c < 2) :
    ∀ (L : List m_node) (t : trie), (∀ e ∈ L, (∀ c ∈ e.code, c < 2) ∧ e.code ≠ w) →
      carries t w x → carries (L.foldl (fun t e => insert_trie t e.code e.byte) t) w x := by
  intro L
  induction L with
  | nil => intro t _ h; exact h
  | cons e L ih =>
    intro t hL h
    simp only [List.foldl_cons]
    have he := hL e (List.mem_cons_self _ _)
    exact ih _ (fun e2 h2 => hL e2 (List.mem_cons_of_mem _ h2))
      (carries_keep w x t e.code e.byte he.1 hw (Ne.symm he.2) h)

theorem load_spec_aux_props : ∀ (n v : Nat) (bits : List Nat) (T : List m_node),
    (∀ b ∈ bits, b < 2) → load_spec_aux n v bits = some T →
    T.length = n ∧ (∀ i < n, (dict_at T i).byte = v + i) ∧ (∀ e ∈ T, ∀ c ∈ e.code, c < 2) := by
  intro n
  induction n with
  | zero =>
    intro v bits T _ h
    simp only [load_spec_aux, Option.some.injEq] at h
    subst h
    exact ⟨rfl, fun i hi => absurd hi (by omega), fun e he => absurd he (by simp)⟩
  | succ n ih =>
    intro v bits T hb h
    simp only [load_spec_aux] at h
    split at h
    · exact absurd h (by simp)
    · split at h
      · exact absurd h (by simp)
      · obtain ⟨t, ht, rfl⟩ := Option.map_eq_some'.mp h
        obtain ⟨h1, h2, h3⟩ := ih (v + 1) _ t
          (fun b hb2 => hb b (List.mem_of_mem_drop (List.mem_of_mem_drop hb2))) ht
        refine ⟨by simp [h1], ?_, ?_⟩
        · intro i hi
          cases i with
          | zero => simp [dict_at]
          | succ j =>
            have := h2 j (by omega)
            simp only [dict_at, List.getD_cons_succ] at this ⊢
            omega
        · intro e he
          rcases List.mem_cons.mp he with rfl | he
          · intro c hc
            exact hb c (List.mem_of_mem_drop (List.mem_of_mem_take hc))
          · exact h3 e he

theorem mem_drop_dict_at (T : List m_node) (k : Nat) (e : m_node) (he : e ∈ T.drop k) :
    ∃ u, k ≤ u ∧ u < T.length ∧ e = dict_at T u := by
  obtain ⟨i, hi, rfl⟩ := List.mem_iff_getElem.mp he
  rw [List.length_drop] at hi
  refine ⟨k + i, by omega, by omega, ?_⟩
  rw [List.getElem_drop, dict_at, List.getD_eq_getElem _ _ (by omega)]

/-- C4, amended. For every dictionary file that supplies enough bits, `create_map` builds
exactly the table the specification describes (entry `v` has byte `v`, the length read from eight
bits most significant first, and the code bits in order), the encode table of
`create_map_optimized` holds the same codes, and the node of its trie reached by the code of `v`
is a leaf that carries `v` whenever no larger byte value has the same code. -/
theorem loaders_build_spec_table (file : List Nat) (hfile : ∀ b ∈ file, b < 256) (T : List m_node)
    (h : load_spec file = some T) :
    create_map file = T ∧
    (create_map_optimized file).encode_table = T.map m_node.code ∧
    ∀ v < 256, (∀ u, v < u → u < 256 → (dict_at T u).code ≠ (dict_at T v).code) →
      carries (create_map_optimized file).root (dict_at T v).code v := by
  have h0 : load_spec_aux 256 0 ((file.flatMap msb_bits).drop 0) = some T := by
    simpa [load_spec] using h
  obtain ⟨hlen, hbyte, hcells⟩ := load_spec_aux_props 256 0 _ T (file_bits_lt file)
    (by simpa [load_spec] using h)
  have hopt := create_map_optimized_loop_eq file hfile 256 0 0 T
    ⟨trie.node trie.null trie.null 0 0, []⟩ (by norm_num) h0
  have hc0 : cursor_at 0 = ⟨0, 8⟩ := rfl
  rw [hc0] at hopt
  refine ⟨?_, ?_, ?_⟩
  · have := create_map_loop_eq file hfile 256 0 0 T (by norm_num) h0
    rw [hc0] at this
    exact this
  · simp only [create_map_optimized, hopt, List.nil_append]
  · intro v hv hlast
    simp only [create_map_optimized, hopt]
    have hvl : v < T.length := by omega
    have hsplit : T = T.take v ++ dict_at T v :: T.drop (v + 1) := by
      rw [dict_at, List.getD_eq_getElem _ _ hvl, ← List.drop_eq_getElem_cons hvl,
        List.take_append_drop]
    have hmem : dict_at T v ∈ T := by
      rw [dict_at, List.getD_eq_getElem _ _ hvl]; exact List.getElem_mem _
    have hb := hbyte v hv
    rw [Nat.zero_add] at hb
    have hfold : List.foldl (fun t e => insert_trie t e.code e.byte)
        (trie.node trie.null trie.null 0 0) T
        = List.foldl (fun t e => insert_trie t e.code e.byte)
          (insert_trie (List.foldl (fun t e => insert_trie t e.code e.byte)
            (trie.node trie.null trie.null 0 0) (T.take v)) (dict_at T v).code (dict_at T v).byte)
          (T.drop (v + 1)) := by
      conv_lhs => rw [hsplit]
      rw [List.foldl_append, List.foldl_cons]
    rw [hfold]
    apply carries_fold _ _ (hcells _ hmem)
    · intro e he
      obtain ⟨u, hu1, hu2, rfl⟩ := mem_drop_dict_at T (v + 1) e he
      have hmu : dict_at T u ∈ T := by
        rw [dict_at, List.getD_eq_getElem _ _ hu2]; exact List.getElem_mem _
      exact ⟨hcells _ hmu, hlast u (by omega) (by omega)⟩
    · have := carries_insert (dict_at T v).code (dict_at T v).byte
        (List.foldl (fun t e => insert_trie t e.code e.byte) (trie.node trie.null trie.null 0 0)
          (T.take v))
      rw [hb] at this ⊢
      exact this

theorem le_val_mem_bytes8 (a b c d e f g h : Nat) (ha : a < 256) (hb : b < 256) (hc : c < 256)
    (hd : d < 256) (he : e < 256) (hf : f < 256) (hg : g < 256) (hh : h < 256) :
    mem_bytes 8 (le_val [a, b, c, d, e, f, g, h]) = [a, b, c, d, e, f, g, h] := by
  simp only [mem_bytes, le_val, List.foldr, List.range, List.range.loop, List.map]
  norm_num
  omega

/-- The eight bytes sent for a length are its big-endian writing. -/
theorem send_u64_eq (x : Nat) : send_u64 x = be_bytes 8 x := by
  have h : ∀ y : Nat, (mem_bytes 8 y).reverse
      = [y / 256 ^ 7 % 256, y / 256 ^ 6 % 256, y / 256 ^ 5 % 256, y / 256 ^ 4 % 256,
         y / 256 ^ 3 % 256, y / 256 ^ 2 % 256, y / 256 ^ 1 % 256, y / 256 ^ 0 % 256] := by
    intro y; rfl
  have hlt : ∀ n : Nat, n % 256 < 256 := fun n => Nat.mod_lt _ (by norm_num)
  unfold send_u64 bswap_64
  rw [h, le_val_mem_bytes8 _ _ _ _ _ _ _ _ (hlt _) (hlt _) (hlt _) (hlt _) (hlt _) (hlt _) (hlt _)
    (hlt _)]
  simp only [be_bytes, List.range, List.range.loop, List.map]
  norm_num
  omega

theorem be_bytes_length (n x : Nat) : (be_bytes n x).length = n := by simp [be_bytes]

theorem be_bytes_lt (n x : Nat) : ∀ b ∈ be_bytes n x, b < 256 := by
  intro b hb
  simp only [be_bytes, List.mem_map] at hb
  obtain ⟨i, _, rfl⟩ := hb
  exact Nat.mod_lt _ (by norm_num)

/-- The length read from eight bytes of the stream is their big-endian value. -/
theorem read_u64_eq (len : List Nat) (hlen : len.length = 8) (hb : ∀ b ∈ len, b < 256) :
    bswap_64 (le_val len) = be_val len := by
  obtain ⟨a, b, c, d, e, f, g, i, rfl⟩ := nat_list_eight len hlen
  unfold bswap_64
  rw [le_val_mem_bytes8 a b c d e f g i (hb a (by simp)) (hb b (by simp)) (hb c (by simp))
    (hb d (by simp)) (hb e (by simp)) (hb f (by simp)) (hb g (by simp)) (hb i (by simp))]
  simp only [le_val, be_val, List.reverse_cons, List.reverse_nil, List.nil_append, List.cons_append,
    List.foldr, List.foldl]
  ring

theorem be_val_be_bytes (x : Nat) (hx : x < 2 ^ 64) : be_val (be_bytes 8 x) = x := by
  simp only [be_bytes, be_val, List.range, List.range.loop, List.map, List.foldl]
  norm_num
  omega

/-- A complete frame whose type is a request type with a body is read as its header fields, its
body and the rest of the stream. -/
theorem read_description_frame (h : Nat) (len body rest : List Nat) (hh : h < 256)
    (ht : h / 16 = 0 ∨ h / 16 = 2 ∨ h / 16 = 4 ∨ h / 16 = 6) (hlen : len.length = 8)
    (hb : ∀ b ∈ len, b < 256) (hbody : body.length = be_val len) :
    read_description (h :: (len ++ body ++ rest))
      = description.full ⟨⟨h / 16, h / 8 % 2, h / 4 % 2⟩, body⟩ rest ∧
    read_description_optimized (h :: (len ++ body ++ rest))
      = description.full ⟨⟨h / 16, h / 8 % 2, h / 4 % 2⟩, body⟩ rest := by
  have h16 : h / 16 % 16 = h / 16 := Nat.mod_eq_of_lt (by omega)
  have hcond : ¬ (h / 16 = 8 ∨ (h / 16 ≠ 0 ∧ h / 16 ≠ 2 ∧ h / 16 ≠ 4 ∧ h / 16 ≠ 6 ∧ h / 16 ≠ 8)) := by
    omega
  have htake : (len ++ body ++ rest).take 8 = len := by
    rw [List.append_assoc, List.take_left' hlen]
  have hdrop : (len ++ body ++ rest).drop 8 = body ++ rest := by
    rw [List.append_assoc, List.drop_left' hlen]
  have hl8 : ¬ ((len ++ body ++ rest).length < 8) := by
    simp only [List.length_append, hlen]; omega
  have hlb : ¬ ((body ++ rest).length < be_val len) := by
    simp only [List.length_append, hbody]; omega
  have hr := read_u64_eq len hlen hb
  constructor
  · simp only [read_description, Nat.shiftRight_eq_div_pow, Nat.reducePow, h16, hcond, if_false,
      hl8, htake, hdrop, hr, hlb]
    rw [← hbody, List.take_left, List.drop_left]
  · simp only [read_description_optimized, Nat.shiftRight_eq_div_pow, Nat.reducePow, h16, hcond,
      if_false, hl8, htake, hdrop, hr, hlb, Nat.and_one_is_mod]
    rw [← hbody, List.take_left, List.drop_left]

theorem read_description_bare (h : Nat) (rest : List Nat) (hh : h < 256)
    (ht : h / 16 ≠ 0 ∧ h / 16 ≠ 2 ∧ h / 16 ≠ 4 ∧ h / 16 ≠ 6 ∧ h / 16 ≠ 8) :
    read_description (h :: rest) = description.bare (h / 16) rest ∧
    read_description_optimized (h :: rest) = description.bare (h / 16) rest := by
  have h16 : h / 16 % 16 = h / 16 := Nat.mod_eq_of_lt (by omega)
  have hcond : (h / 16 = 8 ∨ (h / 16 ≠ 0 ∧ h / 16 ≠ 2 ∧ h / 16 ≠ 4 ∧ h / 16 ≠ 6 ∧ h / 16 ≠ 8)) :=
    Or.inr ht
  constructor
  · simp only [read_description, Nat.shiftRight_eq_div_pow, Nat.reducePow, h16, hcond, if_true]
  · simp only [read_description_optimized, Nat.shiftRight_eq_div_pow, Nat.reducePow, h16, hcond,
      if_true]

theorem error_send_eq : error_send = [0xF0, 0, 0, 0, 0, 0, 0, 0, 0] := by decide

/-- An unknown type is answered by the error frame and the end of the connection, in the three
servers. -/
theorem unknown_type_step (env : server_env) (h : Nat) (rest : List Nat) (hh : h < 256)
    (ht : h / 16 ≠ 0 ∧ h / 16 ≠ 2 ∧ h / 16 ≠ 4 ∧ h / 16 ≠ 6 ∧ h / 16 ≠ 8) :
    client_handling env false (h :: rest)
      = some ⟨[0xF0, 0, 0, 0, 0, 0, 0, 0, 0], rest, true, true, false, [], 0, false⟩ ∧
    client_handling_optimized env false (h :: rest)
      = some ⟨[0xF0, 0, 0, 0, 0, 0, 0, 0, 0], rest, true, true, false, [], 0, false⟩ ∧
    thread_worker_opt env false (h :: rest)
      = some ⟨[0xF0, 0, 0, 0, 0, 0, 0, 0, 0], rest, true, true, false, [], 0, false⟩ := by
  obtain ⟨h1, h2⟩ := read_description_bare h rest hh ht
  have h8 : ¬ (h / 16 = 8) := ht.2.2.2.2
  refine ⟨?_, ?_, ?_⟩
  · simp [client_handling, get_description, h1, decompress_description, ht, error_send_eq]
  · simp [client_handling_optimized, get_description_optimized, h2, decompress_description, ht,
      error_send_eq]
  · simp [thread_worker_opt, get_description, h1, decompress_description, h8, error_send_eq]

theorem decompress_isSome (body : List Nat) (dict : List m_node) (hne : body ≠ []) :
    ∃ b, decompress body dict = some b := by
  unfold decompress
  cases hl : body.getLast? with
  | none => exact absurd (List.getLast?_eq_none_iff.mp hl) hne
  | some pad =>
    simp only
    split
    · exact ⟨_, rfl⟩
    · exact ⟨_, rfl⟩

theorem dict8_at (q : Nat) (hq : q < 256) : dict_at dict8 q = ⟨q, byte_bits q⟩ := by
  unfold dict_at dict8
  rw [List.getD_eq_getElem _ _ (by simpa using hq)]
  simp

theorem byte_bits_inj : ∀ q < 256, be_val_bits (byte_bits q) = q := by decide

theorem byte_bits_le : ∀ q < 256, ∀ c ∈ byte_bits q, c ≤ 1 := by decide

theorem byte_bits_length (q : Nat) : (byte_bits q).length = 8 := by simp [byte_bits]

/-- The dictionary of eight-bit codes is a valid dictionary. -/
theorem dict8_valid : valid_dict dict8 := by
  refine ⟨?_, ?_, ?_⟩
  · intro q hq; rw [dict8_at q hq]
  · intro q hq; rw [dict8_at q hq]; exact byte_bits_le q hq
  · intro q hq r hr hne hp
    rw [dict8_at q hq, dict8_at r hr] at hp
    have heq : byte_bits q = byte_bits r :=
      List.IsPrefix.eq_of_length hp (by rw [byte_bits_length, byte_bits_length])
    apply hne
    rw [← byte_bits_inj q hq, ← byte_bits_inj r hr, heq]

theorem id_file_bytes : ∀ b ∈ id_file, b < 256 := by decide!

theorem id_file_table : load_spec id_file = some dict8 := by decide!

theorem loaders_build_spec_table_witness :
    (∀ b ∈ id_file, b < 256) ∧ load_spec id_file = some dict8 ∧ create_map id_file = dict8 ∧
    (create_map_optimized id_file).encode_table = dict8.map m_node.code ∧
    carries (create_map_optimized id_file).root (dict_at dict8 65).code 65 :=
  ⟨id_file_bytes, id_file_table,
    (loaders_build_spec_table id_file id_file_bytes dict8 id_file_table).1,
    (loaders_build_spec_table id_file id_file_bytes dict8 id_file_table).2.1,
    (loaders_build_spec_table id_file id_file_bytes dict8 id_file_table).2.2 65 (by decide)
      (fun u hu1 hu2 heq => dict8_valid.2.2 u hu2 65 (by decide) (by omega)
        (by rw [heq]))⟩

/-- C4 fails. The file of 256 zero bytes supplies enough bits: every code has length 0. The node
of the trie of `create_map_optimized` reached by the code of byte 0, the root, carries 255 and not
0. -/
theorem trie_leaf_shared_code :
    load_spec (List.replicate 256 0) ≠ none ∧
    (dict_at (create_map (List.replicate 256 0)) 0).code = [] ∧
    trie_walk (create_map_optimized (List.replicate 256 0)).root
      (dict_at (create_map (List.replicate 256 0)) 0).code
        = trie.node trie.null trie.null 255 1 := by
  decide!

theorem compress_with_nil (junk : Nat → Nat) (dict : List m_node) :
    compress_with junk [] dict = [0] := by
  simp [compress_with, zero_padding]

/-- C1. Compressing the empty payload and decompressing the result leaves the one byte 00, of
length 1, and not the empty payload: `decompress` never meets its count of zero significant bits
and returns without touching the message. For every payload that is not empty and every valid
dictionary, `compress` followed by `decompress` gives the payload back, whatever the fresh bytes
of `realloc` held. -/
theorem compress_decompress_roundtrip :
    (∀ (junk : Nat → Nat) (dict : List m_node),
      decompress (compress_with junk [] dict) dict = some [0]) ∧
    (∀ (junk : Nat → Nat) (dict : List m_node) (P : List Nat), valid_dict dict → P ≠ [] →
      (∀ b ∈ P, b < 256) → decompress (compress_with junk P dict) dict = some P) := by
  constructor
  · intro junk dict
    rw [compress_with_nil]
    exact decompress_pad_only dict
  · intro junk dict P hd hne hb
    rw [compress_with_eq_spec]
    exact decompress_encode_spec dict hd P hne hb

theorem compress_decompress_roundtrip_witness :
    valid_dict dict8 ∧ [104, 105] ≠ ([] : List Nat) ∧ (∀ b ∈ [104, 105], b < 256) ∧
    decompress (compress_with (fun _ => 255) [104, 105] dict8) dict8 = some [104, 105] :=
  ⟨dict8_valid, by decide, by decide,
    compress_decompress_roundtrip.2 (fun _ => 255) dict8 [104, 105] dict8_valid (by decide)
      (by decide)⟩

/-- C2. For every payload and dictionary, and whatever the fresh bytes of `realloc` held,
`compress` outputs the codes of the payload bytes packed most significant bit first, the low bits
of the last data byte being zero, followed by one byte holding `(8 - bits mod 8) mod 8`; the
output has `ceil(bits / 8) + 1` bytes, at least one, and the padding count is at most 7. -/
theorem compress_output_layout (junk : Nat → Nat) (P : List Nat) (dict : List m_node) :
    compress_with junk P dict
      = pack_bits (code_bits P dict) ++ [(8 - (code_bits P dict).length % 8) % 8] ∧
    (compress_with junk P dict).length = ((code_bits P dict).length + 7) / 8 + 1 ∧
    1 ≤ (compress_with junk P dict).length ∧
    (8 - (code_bits P dict).length % 8) % 8 ≤ 7 := by
  have h := compress_with_eq_spec junk P dict
  refine ⟨h, ?_, ?_, by omega⟩
  · rw [h]; simp [encode_spec, pack_bits_length]
  · rw [h]; simp [encode_spec]

theorem get_description_frame (dict : List m_node) (h : Nat) (len body rest : List Nat)
    (hh : h < 256) (ht : h / 16 = 0 ∨ h / 16 = 2 ∨ h / 16 = 4 ∨ h / 16 = 6)
    (hlen : len.length = 8) (hb : ∀ b ∈ len, b < 256) (hbody : body.length = be_val len) :
    get_description (h :: (len ++ body ++ rest)) dict
      = decompress_description
          (description.full ⟨⟨h / 16, h / 8 % 2, h / 4 % 2⟩, body⟩ rest) dict ∧
    get_description_optimized (h :: (len ++ body ++ rest)) dict
      = decompress_description
          (description.full ⟨⟨h / 16, h / 8 % 2, h / 4 % 2⟩, body⟩ rest) dict := by
  obtain ⟨h1, h2⟩ := read_description_frame h len body rest hh ht hlen hb hbody
  exact ⟨by rw [get_description, h1], by rw [get_description_optimized, h2]⟩

/-- C5. For every header byte `h` whose high nibble is 0, 2, 4 or 6, followed by eight length
bytes and a body of that big-endian length, both readers parse `type = h / 16`, `compression =`
bit 3 of `h`, `requires_compression =` bit 2 of `h`, take the next eight bytes as the big-endian
length and the body after them; `get_description` and `get_description_optimized` then differ
from this only by the decompression step, and two header bytes that agree outside their two low
bits give the same result. -/
theorem header_byte_parse (dict : List m_node) (h : Nat) (len body rest : List Nat)
    (hh : h < 256) (ht : h / 16 = 0 ∨ h / 16 = 2 ∨ h / 16 = 4 ∨ h / 16 = 6)
    (hlen : len.length = 8) (hb : ∀ b ∈ len, b < 256) (hbody : body.length = be_val len) :
    read_description (h :: (len ++ body ++ rest))
      = description.full ⟨⟨h / 16, h / 8 % 2, h / 4 % 2⟩, body⟩ rest ∧
    read_description_optimized (h :: (len ++ body ++ rest))
      = description.full ⟨⟨h / 16, h / 8 % 2, h / 4 % 2⟩, body⟩ rest ∧
    get_description (h :: (len ++ body ++ rest)) dict
      = decompress_description
          (description.full ⟨⟨h / 16, h / 8 % 2, h / 4 % 2⟩, body⟩ rest) dict ∧
    get_description_optimized (h :: (len ++ body ++ rest)) dict
      = decompress_description
          (description.full ⟨⟨h / 16, h / 8 % 2, h / 4 % 2⟩, body⟩ rest) dict ∧
    (∀ h2, h2 / 4 = h / 4 →
      get_description (h2 :: (len ++ body ++ rest)) dict
        = get_description (h :: (len ++ body ++ rest)) dict ∧
      get_description_optimized (h2 :: (len ++ body ++ rest)) dict
        = get_description_optimized (h :: (len ++ body ++ rest)) dict) := by
  obtain ⟨h1, h2⟩ := read_description_frame h len body rest hh ht hlen hb hbody
  obtain ⟨h3, h4⟩ := get_description_frame dict h len body rest hh ht hlen hb hbody
  refine ⟨h1, h2, h3, h4, ?_⟩
  intro k hk
  have e1 : k / 16 = h / 16 := by omega
  have e2 : k / 8 % 2 = h / 8 % 2 := by omega
  have e3 : k / 4 % 2 = h / 4 % 2 := by omega
  obtain ⟨h5, h6⟩ := get_description_frame dict k len body rest (by omega) (by omega) hlen hb hbody
  rw [h3, h4, h5, h6, e1, e2, e3]
  exact ⟨rfl, rfl⟩

theorem header_byte_parse_witness :
    (0x4F : Nat) < 256 ∧
    read_description (0x4F :: ([0, 0, 0, 0, 0, 0, 0, 2] ++ [97, 0] ++ [1]))
      = description.full ⟨⟨4, 1, 1⟩, [97, 0]⟩ [1] :=
  ⟨by decide, (header_byte_parse dict8 0x4F [0, 0, 0, 0, 0, 0, 0, 2] [97, 0] [1] (by decide)
    (by decide) (by decide) (by decide) (by decide)).1⟩

theorem echo_eq (m : message) (dict : List m_node) :
    echo m dict = (if m.main.requires_compression = 1 then 0x18 else 0x10) ::
      (be_bytes 8 (if m.main.requires_compression = 1 ∧ m.main.compression = 0 then
          compress m.buffer dict else m.buffer).length ++
        (if m.main.requires_compression = 1 ∧ m.main.compression = 0 then
          compress m.buffer dict else m.buffer)) ∧
    echo_optimized m dict = echo m dict := by
  constructor
  · simp only [echo, send_u64_eq]
    rfl
  · rfl

theorem echo_overruns_false (m : message) (dict : List m_node)
    (h : m.main.requires_compression ≠ 1 ∨ m.main.compression ≠ 0) :
    echo_overruns m dict = false := by
  unfold echo_overruns
  rw [decide_eq_false_iff_not]
  rintro ⟨h1, h2, _⟩
  rcases h with h | h
  · exact h h1
  · exact h h2

theorem step_echo (env : server_env) (input : List Nat) (m : message) (rest : List Nat)
    (ht : m.main.type = 0) (ho : echo_overruns m env.dict = false) :
    (get_description input env.dict = description.full m rest →
      client_handling env false input
        = some ⟨echo m env.dict, rest, false, false, false, [], 0, false⟩ ∧
      thread_worker_opt env false input
        = some ⟨echo m env.dict, rest, false, false, false, [], 0, false⟩) ∧
    (get_description_optimized input env.dict = description.full m rest →
      client_handling_optimized env false input
        = some ⟨echo m env.dict, rest, false, false, false, [], 0, false⟩) := by
  refine ⟨fun hd => ⟨?_, ?_⟩, fun hd => ?_⟩
  · unfold client_handling
    rw [hd]
    simp [ht, ho]
  · unfold thread_worker_opt
    rw [hd]
    simp [ht, ho]
  · unfold client_handling_optimized
    rw [hd]
    simp [ht, ho, (echo_eq m env.dict).2]

/-- C6. For every echo request with `requires_compression = 0` and `compressed = 0` (header
byte 0 to 3) and every body `P` whose length fits the length field, each of the three servers,
when not shut down, sends exactly `10`, the length of `P` on eight bytes big-endian, then `P`,
reads exactly the frame, and keeps the connection open. -/
theorem echo_plain_reply (env : server_env) (h : Nat) (P rest : List Nat) (hh : h < 4)
    (hP : P.length < 2 ^ 64) :
    client_handling env false (h :: (be_bytes 8 P.length ++ P ++ rest))
      = some ⟨0x10 :: (be_bytes 8 P.length ++ P), rest, false, false, false, [], 0, false⟩ ∧
    client_handling_optimized env false (h :: (be_bytes 8 P.length ++ P ++ rest))
      = some ⟨0x10 :: (be_bytes 8 P.length ++ P), rest, false, false, false, [], 0, false⟩ ∧
    thread_worker_opt env false (h :: (be_bytes 8 P.length ++ P ++ rest))
      = some ⟨0x10 :: (be_bytes 8 P.length ++ P), rest, false, false, false, [], 0, false⟩ := by
  obtain ⟨h1, h2⟩ := get_description_frame env.dict h (be_bytes 8 P.length) P rest (by omega)
    (by omega) (be_bytes_length 8 _) (be_bytes_lt 8 _) (be_val_be_bytes _ hP).symm
  have e1 : h / 16 = 0 := by omega
  have e2 : h / 8 % 2 = 0 := by omega
  have e3 : h / 4 % 2 = 0 := by omega
  rw [e1, e2, e3] at h1 h2
  have he := (echo_eq ⟨⟨0, 0, 0⟩, P⟩ env.dict).1
  simp only [Nat.zero_ne_one, if_false, false_and] at he
  have hd : decompress_description (description.full ⟨⟨0, 0, 0⟩, P⟩ rest) env.dict
      = description.full ⟨⟨0, 0, 0⟩, P⟩ rest := by
    simp [decompress_description]
  rw [hd] at h1 h2
  obtain ⟨s1, s2⟩ := step_echo env (h :: (be_bytes 8 P.length ++ P ++ rest)) ⟨⟨0, 0, 0⟩, P⟩ rest rfl
    (echo_overruns_false _ _ (Or.inl Nat.zero_ne_one))
  rw [← he]
  exact ⟨(s1 h1).1, s2 h2, (s1 h1).2⟩

theorem echo_plain_reply_witness :
    (0 : Nat) < 4 ∧ [104, 101, 108, 108, 111].length < 2 ^ 64 ∧
    client_handling env8 false [0, 0, 0, 0, 0, 0, 0, 0, 5, 104, 101, 108, 108, 111]
      = some ⟨[0x10, 0, 0, 0, 0, 0, 0, 0, 5, 104, 101, 108, 108, 111], [], false, false, false,
          [], 0, false⟩ :=
  ⟨by decide, by decide,
    (echo_plain_reply env8 0 [104, 101, 108, 108, 111] [] (by decide) (by decide)).1⟩

/-- C7. The echo of the empty payload with `requires_compression = 1` is the frame
`18 00..01 00`, whose body `00` decodes with `decompress` to `00` and not to the empty payload.
For every payload `P` that is not empty and every valid dictionary, `echo` and `echo_optimized`
send `18`, the length of the reply body, and a body that `decompress` turns back into `P`. -/
theorem echo_compressed_reply :
    (∀ dict : List m_node,
      echo ⟨⟨0, 0, 1⟩, []⟩ dict = [0x18, 0, 0, 0, 0, 0, 0, 0, 1, 0] ∧
      decompress [0] dict = some [0]) ∧
    (∀ (dict : List m_node) (P : List Nat), valid_dict dict → P ≠ [] → (∀ b ∈ P, b < 256) →
      echo ⟨⟨0, 0, 1⟩, P⟩ dict
        = 0x18 :: (be_bytes 8 (compress P dict).length ++ compress P dict) ∧
      echo_optimized ⟨⟨0, 0, 1⟩, P⟩ dict
        = 0x18 :: (be_bytes 8 (compress P dict).length ++ compress P dict) ∧
      decompress (compress P dict) dict = some P) := by
  constructor
  · intro dict
    refine ⟨?_, decompress_pad_only dict⟩
    have he := (echo_eq ⟨⟨0, 0, 1⟩, []⟩ dict).1
    simp only [and_self, if_true, compress, compress_with_nil] at he
    rw [he]
    decide
  · intro dict P hd hne hb
    have he := (echo_eq ⟨⟨0, 0, 1⟩, P⟩ dict).1
    have he2 := (echo_eq ⟨⟨0, 0, 1⟩, P⟩ dict).2
    simp only [and_self, if_true] at he
    refine ⟨he, by rw [he2, he], ?_⟩
    rw [compress, compress_with_eq_spec]
    exact decompress_encode_spec dict hd P hne hb

theorem echo_compressed_reply_witness :
    valid_dict dict8 ∧ [104, 105] ≠ ([] : List Nat) ∧ (∀ b ∈ [104, 105], b < 256) ∧
    decompress (compress [104, 105] dict8) dict8 = some [104, 105] :=
  ⟨dict8_valid, by decide, by decide,
    (echo_compressed_reply.2 dict8 [104, 105] dict8_valid (by decide) (by decide)).2.2⟩

theorem decompress_description_full (m : message) (rest : List Nat) (dict : List m_node) :
    decompress_description (description.full m rest) dict
      = if m.main.compression = 1 ∧ ¬ (m.main.type = 0 ∧ m.main.requires_compression = 1) then
          decompressed m rest dict
        else description.full m rest := by
  simp only [decompress_description]
  by_cases hc : m.main.compression = 1 <;> by_cases ht : m.main.type = 0 <;>
    by_cases hr : m.main.requires_compression = 1 <;> simp [hc, ht, hr]

/-- C8. For every complete request frame of type 0, 2, 4 or 6, `get_description` hands on the
result of `decompress` on the body exactly when `compressed = 1` and not (`type = 0` and
`requires_compression = 1`), and the body as received otherwise; `decompress` returns a body for
every body that is not empty. An echo with both flags set is answered with `18`, the length and
the body as received; an echo with `compressed = 1` and `requires_compression = 0` is answered
with `10`, the length and the decoded body. -/
theorem compressed_request_dispatch (env : server_env) (h : Nat) (len body rest : List Nat)
    (hh : h < 256) (ht : h / 16 = 0 ∨ h / 16 = 2 ∨ h / 16 = 4 ∨ h / 16 = 6)
    (hlen : len.length = 8) (hb : ∀ b ∈ len, b < 256) (hbody : body.length = be_val len) :
    get_description (h :: (len ++ body ++ rest)) env.dict
      = (if h / 8 % 2 = 1 ∧ ¬ (h / 16 = 0 ∧ h / 4 % 2 = 1) then
          decompressed ⟨⟨h / 16, h / 8 % 2, h / 4 % 2⟩, body⟩ rest env.dict
        else description.full ⟨⟨h / 16, h / 8 % 2, h / 4 % 2⟩, body⟩ rest) ∧
    (body ≠ [] → ∃ b, decompress body env.dict = some b) ∧
    (h / 16 = 0 → h / 8 % 2 = 1 → h / 4 % 2 = 1 →
      client_handling env false (h :: (len ++ body ++ rest))
        = some ⟨0x18 :: (be_bytes 8 body.length ++ body), rest, false, false, false, [], 0,
            false⟩) ∧
    (h / 16 = 0 → h / 8 % 2 = 1 → h / 4 % 2 = 0 → ∀ b, decompress body env.dict = some b →
      client_handling env false (h :: (len ++ body ++ rest))
        = some ⟨0x10 :: (be_bytes 8 b.length ++ b), rest, false, false, false, [], 0,
            false⟩) := by
  obtain ⟨h1, _⟩ := get_description_frame env.dict h len body rest hh ht hlen hb hbody
  rw [decompress_description_full] at h1
  refine ⟨h1, fun hne => decompress_isSome body env.dict hne, ?_, ?_⟩
  · intro e1 e2 e3
    rw [e1, e2, e3] at h1
    simp only [and_self, not_true_eq_false, and_false, if_false] at h1
    have he := (echo_eq ⟨⟨0, 1, 1⟩, body⟩ env.dict).1
    simp only [if_true, Nat.one_ne_zero, and_false, if_false] at he
    rw [← he]
    exact ((step_echo env _ ⟨⟨0, 1, 1⟩, body⟩ rest rfl
      (echo_overruns_false _ _ (Or.inr Nat.one_ne_zero))).1 h1).1
  · intro e1 e2 e3 b hd
    rw [e1, e2, e3] at h1
    simp only [Nat.zero_ne_one, and_false, not_false_eq_true, and_self, if_true, decompressed,
      hd] at h1
    have he := (echo_eq ⟨⟨0, 1, 0⟩, b⟩ env.dict).1
    simp only [Nat.zero_ne_one, if_false, false_and] at he
    rw [← he]
    exact ((step_echo env _ ⟨⟨0, 1, 0⟩, b⟩ rest rfl
      (echo_overruns_false _ _ (Or.inl Nat.zero_ne_one))).1 h1).1

theorem compressed_request_dispatch_witness :
    client_handling env8 false [0x0C, 0, 0, 0, 0, 0, 0, 0, 2, 0xAB, 0x04]
      = some ⟨[0x18, 0, 0, 0, 0, 0, 0, 0, 2, 0xAB, 0x04], [], false, false, false, [], 0, false⟩ :=
  (compressed_request_dispatch env8 0x0C [0, 0, 0, 0, 0, 0, 0, 2] [0xAB, 0x04] [] (by decide)
    (by decide) (by decide) (by decide) (by decide)).2.2.1 (by decide) (by decide) (by decide)

theorem parent_send_valid (compressed : Nat) (directory : List Nat) (input : file_request)
    (dict : List m_node) (fs : file_system) (content : List Nat)
    (hp : path_rejected input.file_name = false)
    (hl : fs.lookup (join_path directory input.file_name) = some content)
    (hv : input.offset + input.length ≤ content.length) (hs : content.length < 2 ^ 64) :
    parent_send compressed directory input dict fs =
      ⟨file_reply compressed (range_buffer input.session_id (parent_records input).2
        (input.length / (input.num_connect + 1)) content) dict, (parent_records input).1, 0⟩ := by
  unfold parent_send
  rw [hp, hl]
  simp only [Bool.false_eq_true, if_false]
  rw [Nat.mod_eq_of_lt (by omega), if_neg (by omega)]

/-- C10. For every header byte whose high nibble is not 0, 2, 4, 6 or 8, each of the three
servers, when not shut down, reads that byte only, sends the nine bytes
`F0 00 00 00 00 00 00 00 00` of `error_send`, closes the socket and leaves the loop of the
connection. -/
theorem unknown_type_error_frame (env : server_env) (h : Nat) (rest : List Nat) (hh : h < 256)
    (ht : h / 16 ≠ 0 ∧ h / 16 ≠ 2 ∧ h / 16 ≠ 4 ∧ h / 16 ≠ 6 ∧ h / 16 ≠ 8) :
    error_send = [0xF0, 0, 0, 0, 0, 0, 0, 0, 0] ∧
    client_handling env false (h :: rest)
      = some ⟨[0xF0, 0, 0, 0, 0, 0, 0, 0, 0], rest, true, true, false, [], 0, false⟩ ∧
    client_handling_optimized env false (h :: rest)
      = some ⟨[0xF0, 0, 0, 0, 0, 0, 0, 0, 0], rest, true, true, false, [], 0, false⟩ ∧
    thread_worker_opt env false (h :: rest)
      = some ⟨[0xF0, 0, 0, 0, 0, 0, 0, 0, 0], rest, true, true, false, [], 0, false⟩ :=
  ⟨error_send_eq, unknown_type_step env h rest hh ht⟩

theorem unknown_type_error_frame_witness :
    client_handling env8 false [0xA0, 0, 0, 0, 0, 0, 0, 0, 0]
      = some ⟨[0xF0, 0, 0, 0, 0, 0, 0, 0, 0], [0, 0, 0, 0, 0, 0, 0, 0], true, true, false, [], 0,
          false⟩ :=
  (unknown_type_error_frame env8 0xA0 [0, 0, 0, 0, 0, 0, 0, 0] (by decide) (by decide)).2.1

theorem write_records_eq : ∀ (n off len : Nat), off + n * len < 2 ^ 64 →
    write_records n off len = ((List.range n).map (fun i => (off + i * len, len)), off + n * len) := by
  intro n
  induction n with
  | zero => intro off len _; simp [write_records]
  | succ n ih =>
    intro off len h
    have e : (n + 1) * len = n * len + len := by ring
    rw [e] at h
    have hlt : off + len < 2 ^ 64 := by omega
    simp only [write_records]
    rw [Nat.mod_eq_of_lt hlt, ih (off + len) len (by omega), List.range_succ_eq_map]
    simp only [List.map_cons, List.map_map]
    refine Prod.ext ?_ ?_
    · simp only [Nat.zero_mul, Nat.add_zero]
      congr 1
      apply List.map_congr_left
      intro i _
      simp only [Function.comp, Nat.succ_eq_add_one]
      congr 1
      ring
    · simp only; rw [e]; omega

theorem partition_arith (length n : Nat) :
    (n + 1) * (length / (n + 1)) + length % (n + 1) = length ∧ length % (n + 1) ≤ n ∧
    length % (n + 1) * (length / (n + 1)) ≤ n * (length / (n + 1)) := by
  have h1 := Nat.div_add_mod length (n + 1)
  have h2 : length % (n + 1) < n + 1 := Nat.mod_lt length (Nat.succ_pos n)
  exact ⟨h1, by omega, Nat.mul_le_mul_right _ (by omega)⟩

theorem parent_records_eq (input : file_request) (h : input.offset + input.length < 2 ^ 64) :
    parent_records input = (partition_spec input.offset input.length input.num_connect,
      input.offset + input.length - input.length / (input.num_connect + 1)) := by
  obtain ⟨sid, off, len, name, n⟩ := input
  simp only at h ⊢
  obtain ⟨h1, h2, h3⟩ := partition_arith len n
  simp only [parent_records, partition_spec]
  generalize hq : len / (n + 1) = q at *
  generalize hr : len % (n + 1) = r at *
  have e1 : (n + 1) * q = n * q + q := by ring
  have e2 : r * (q + 1) = r * q + r := by ring
  have e3 : (n - r) * q = n * q - r * q := Nat.sub_mul n r q
  rw [e1] at h1
  by_cases hn : n > 0
  · rw [if_pos hn]
    have hq1 : (q + 1) % 2 ^ 64 = q + 1 := Nat.mod_eq_of_lt (by
      have : q ≤ n * q := Nat.le_mul_of_pos_left q hn
      omega)
    rw [hq1, write_records_eq r off (q + 1) (by omega)]
    simp only
    rw [write_records_eq (n - r) (off + r * (q + 1)) q (by omega)]
    simp only
    refine Prod.ext ?_ ?_
    · simp only
      have en : n = r + (n - r) := by omega
      conv_rhs => rw [en, List.range_add, List.map_append, List.map_map]
      congr 1
      · apply List.map_congr_left
        intro i hi
        have hi := List.mem_range.1 hi
        rw [if_pos hi, Nat.min_eq_left (le_of_lt hi)]
        congr 1
        ring
      · apply List.map_congr_left
        intro j _
        simp only [Function.comp]
        rw [if_neg (by omega), Nat.min_eq_right (by omega)]
        congr 1
        ring
    · simp only; omega
  · have : n = 0 := by omega
    subst this
    rw [if_neg hn]
    simp at h1
    simp
    omega

theorem write_records_chain : ∀ (n off len : Nat) (tail : List (Nat × Nat)) (stop : Nat),
    off + n * len < 2 ^ 64 → contiguous (off + n * len) tail stop →
    contiguous off ((write_records n off len).1 ++ tail) stop := by
  intro n
  induction n with
  | zero => intro off len tail stop _ h; simpa [write_records] using h
  | succ n ih =>
    intro off len tail stop h hc
    have e : (n + 1) * len = n * len + len := by ring
    rw [e] at h hc
    simp only [write_records, List.cons_append, contiguous, true_and]
    rw [Nat.mod_eq_of_lt (by omega)]
    exact ih (off + len) len tail stop (by omega) (by
      rw [show off + len + n * len = off + (n * len + len) by omega]
      exact hc)

theorem parent_records_chain (input : file_request) (h : input.offset + input.length < 2 ^ 64) :
    contiguous input.offset ((parent_records input).1 ++
      [((parent_records input).2, input.length / (input.num_connect + 1))])
      (input.offset + input.length) := by
  obtain ⟨sid, off, len, name, n⟩ := input
  simp only at h ⊢
  obtain ⟨h1, h2, h3⟩ := partition_arith len n
  simp only [parent_records]
  generalize hq : len / (n + 1) = q at *
  generalize hr : len % (n + 1) = r at *
  have e1 : (n + 1) * q = n * q + q := by ring
  have e2 : r * (q + 1) = r * q + r := by ring
  have e3 : (n - r) * q = n * q - r * q := Nat.sub_mul n r q
  rw [e1] at h1
  by_cases hn : n > 0
  · rw [if_pos hn]
    have hq1 : (q + 1) % 2 ^ 64 = q + 1 := Nat.mod_eq_of_lt (by
      have : q ≤ n * q := Nat.le_mul_of_pos_left q hn
      omega)
    rw [hq1]
    simp only [List.append_assoc]
    apply write_records_chain r off (q + 1) _ _ (by omega)
    rw [write_records_eq r off (q + 1) (by omega)]
    simp only
    apply write_records_chain (n - r) _ q _ _ (by omega)
    rw [write_records_eq (n - r) _ q (by omega)]
    simp only [contiguous, true_and]
    omega
  · have : n = 0 := by omega
    subst this
    rw [if_neg hn]
    simp at h1
    simp [contiguous]
    omega

theorem contiguous_props : ∀ (rs : List (Nat × Nat)) (start stop : Nat), contiguous start rs stop →
    start + (rs.map Prod.snd).sum = stop ∧
    rs.Pairwise (fun a b => a.1 + a.2 ≤ b.1) ∧
    (∀ x ∈ rs, start ≤ x.1 ∧ x.1 + x.2 ≤ stop) ∧
    (∀ p, start ≤ p → p < stop → ∃ x ∈ rs, x.1 ≤ p ∧ p < x.1 + x.2) := by
  intro rs
  induction rs with
  | nil =>
    intro start stop h
    simp only [contiguous] at h
    subst h
    refine ⟨by simp, List.Pairwise.nil, by simp, ?_⟩
    intro p h1 h2; omega
  | cons r rest ih =>
    intro start stop h
    simp only [contiguous] at h
    obtain ⟨h0, hc⟩ := h
    obtain ⟨i1, i2, i3, i4⟩ := ih _ _ hc
    refine ⟨?_, ?_, ?_, ?_⟩
    · simp only [List.map_cons, List.sum_cons]; omega
    · refine List.Pairwise.cons ?_ i2
      intro b hb
      have := i3 b hb
      omega
    · intro x hx
      rcases List.mem_cons.1 hx with rfl | hx
      · omega
      · have := i3 x hx; omega
    · intro p hp1 hp2
      by_cases hp : p < start + r.2
      · exact ⟨r, List.mem_cons_self _ _, by omega, by omega⟩
      · obtain ⟨x, hx, hx2⟩ := i4 p (by omega) hp2
        exact ⟨x, List.mem_cons_of_mem _ hx, hx2⟩

theorem read_file_inside (content : List Nat) (off len : Nat) (h : off + len ≤ content.length) :
    read_file content off len = (content.drop off).take len ∧
    (read_file content off len).length = len := by
  have hl : ((content.drop off).take len).length = len := by
    rw [List.length_take, List.length_drop]; omega
  unfold read_file
  rw [hl]
  simp [hl]

/-- C11. The request with offset 1 and length 2^64 - 1 on a file of ten bytes has
`offset + length = 2^64 > 10`, yet `parent_send` does not send the error frame: its test adds the
two numbers in 64 bits, the sum wraps to 0, and the function goes on to build the reply `0x70`.
For every request whose sum does not wrap, `offset > s` or `offset + length > s` gives the error
frame, no record on the pipe and no file bytes. -/
theorem parent_send_range_check :
    (1 + (2 ^ 64 - 1) > (List.range 10).length ∧
      (parent_send 0 [100] ⟨1, 1, 2 ^ 64 - 1, [97], 0⟩ dict8 fs8).sent.head? = some 0b01110000 ∧
      (parent_send 0 [100] ⟨1, 1, 2 ^ 64 - 1, [97], 0⟩ dict8 fs8).sent ≠ error_send) ∧
    (∀ (compressed : Nat) (directory : List Nat) (input : file_request) (dict : List m_node)
      (fs : file_system) (content : List Nat),
      fs.lookup (join_path directory input.file_name) = some content →
      input.offset + input.length < 2 ^ 64 →
      (input.offset > content.length ∨ input.offset + input.length > content.length) →
      parent_send compressed directory input dict fs = ⟨error_send, [], 0⟩) := by
  have hs : (parent_send 0 [100] ⟨1, 1, 2 ^ 64 - 1, [97], 0⟩ dict8 fs8).sent.head?
      = some 0b01110000 := by
    unfold parent_send
    rw [if_neg (by decide)]
    have hl : fs8.lookup (join_path [100] [97]) = some (List.range 10) := by decide
    simp only [hl]
    rw [if_neg (by simp)]
    simp [file_reply]
  refine ⟨⟨by simp, hs, ?_⟩, ?_⟩
  · intro h
    rw [h] at hs
    simp [error_send] at hs
  · intro compressed directory input dict fs content hl hw hv
    unfold parent_send
    rw [hl]
    simp only
    rw [Nat.mod_eq_of_lt hw, if_pos hv]
    split <;> rfl

theorem parent_send_range_check_witness :
    fs8.lookup (join_path [100] [97]) = some (List.range 10) ∧ 4 + 7 < 2 ^ 64 ∧
    (4 > (List.range 10).length ∨ 4 + 7 > (List.range 10).length) ∧
    parent_send 0 [100] ⟨1, 4, 7, [97], 0⟩ dict8 fs8 = ⟨error_send, [], 0⟩ :=
  ⟨by decide, by decide, by decide,
    parent_send_range_check.2 0 [100] ⟨1, 4, 7, [97], 0⟩ dict8 fs8 (List.range 10) (by decide)
      (by decide) (by decide)⟩

/-- C12. For every request that passes validation (`offset + length` within the file) and every
value `n` of `num_connect` that `parent_send` reads, the records it writes to the pipe followed by
the range it serves itself follow one another without a gap from `offset` to `offset + length`;
their lengths sum to `length`, each ends where or before every later one starts, and a position
lies in one of them exactly when it lies in `[offset, offset + length)`. -/
theorem parent_send_ranges_partition (compressed : Nat) (directory : List Nat)
    (input : file_request) (dict : List m_node) (fs : file_system) (content : List Nat)
    (hp : path_rejected input.file_name = false)
    (hl : fs.lookup (join_path directory input.file_name) = some content)
    (hv : input.offset + input.length ≤ content.length) (hs : content.length < 2 ^ 64) :
    (parent_send compressed directory input dict fs).sent
      = file_reply compressed (range_buffer input.session_id
          (input.offset + input.length - input.length / (input.num_connect + 1))
          (input.length / (input.num_connect + 1)) content) dict ∧
    ((parent_send compressed directory input dict fs).written).length = input.num_connect ∧
    contiguous input.offset ((parent_send compressed directory input dict fs).written ++
      [(input.offset + input.length - input.length / (input.num_connect + 1),
        input.length / (input.num_connect + 1))]) (input.offset + input.length) ∧
    (((parent_send compressed directory input dict fs).written ++
      [(input.offset + input.length - input.length / (input.num_connect + 1),
        input.length / (input.num_connect + 1))]).map Prod.snd).sum = input.length ∧
    ((parent_send compressed directory input dict fs).written ++
      [(input.offset + input.length - input.length / (input.num_connect + 1),
        input.length / (input.num_connect + 1))]).Pairwise (fun a b => a.1 + a.2 ≤ b.1) ∧
    (∀ p, (∃ x ∈ (parent_send compressed directory input dict fs).written ++
      [(input.offset + input.length - input.length / (input.num_connect + 1),
        input.length / (input.num_connect + 1))], x.1 ≤ p ∧ p < x.1 + x.2) ↔
      (input.offset ≤ p ∧ p < input.offset + input.length)) := by
  rw [parent_send_valid compressed directory input dict fs content hp hl hv hs]
  have hc := parent_records_chain input (by omega)
  have he := parent_records_eq input (by omega)
  have h2 : (parent_records input).2
      = input.offset + input.length - input.length / (input.num_connect + 1) := by rw [he]
  rw [h2] at hc
  obtain ⟨c1, c2, c3, c4⟩ := contiguous_props _ _ _ hc
  dsimp only
  refine ⟨by rw [h2], ?_, hc, by omega, c2, ?_⟩
  · rw [he]
    simp [partition_spec]
  · intro p
    constructor
    · rintro ⟨x, hx, h1, h2⟩
      have := c3 x hx
      omega
    · rintro ⟨h1, h2⟩
      exact c4 p h1 h2

theorem parent_send_ranges_partition_witness :
    path_rejected [97] = false ∧ fs8.lookup (join_path [100] [97]) = some (List.range 10) ∧
    2 + 7 ≤ (List.range 10).length ∧ (List.range 10).length < 2 ^ 64 ∧
    (parent_send 0 [100] ⟨1, 2, 7, [97], 2⟩ dict8 fs8).sent
      = file_reply 0 (range_buffer 1 7 2 (List.range 10)) dict8 ∧
    ((parent_send 0 [100] ⟨1, 2, 7, [97], 2⟩ dict8 fs8).written).length = 2 ∧
    contiguous 2 ((parent_send 0 [100] ⟨1, 2, 7, [97], 2⟩ dict8 fs8).written ++ [(7, 2)]) 9 ∧
    (((parent_send 0 [100] ⟨1, 2, 7, [97], 2⟩ dict8 fs8).written ++ [(7, 2)]).map
      Prod.snd).sum = 7 ∧
    ((parent_send 0 [100] ⟨1, 2, 7, [97], 2⟩ dict8 fs8).written ++
      [((7 : Nat), (2 : Nat))]).Pairwise (fun a b => a.1 + a.2 ≤ b.1) ∧
    (∀ p, (∃ x ∈ (parent_send 0 [100] ⟨1, 2, 7, [97], 2⟩ dict8 fs8).written ++ [(7, 2)],
      x.1 ≤ p ∧ p < x.1 + x.2) ↔ (2 ≤ p ∧ p < 9)) :=
  ⟨by decide, by decide, by decide, by decide,
    parent_send_ranges_partition 0 [100] ⟨1, 2, 7, [97], 2⟩ dict8 fs8 (List.range 10) (by decide)
      (by decide) (by decide) (by decide)⟩

/-- C20. For every request that passes validation, with `n = num_connect`, `q = length / (n + 1)`
and `r = length % (n + 1)`: `parent_send` writes exactly `n` records to the pipe, record `i` being
`(offset + i * q + min i r, if i < r then q + 1 else q)`, in ascending order of offset, and the
reply it sends itself carries the one range `(offset + length - q, q)` with the `q` bytes of the
file at those positions. -/
theorem parent_send_records (compressed : Nat) (directory : List Nat)
    (input : file_request) (dict : List m_node) (fs : file_system) (content : List Nat)
    (hp : path_rejected input.file_name = false)
    (hl : fs.lookup (join_path directory input.file_name) = some content)
    (hv : input.offset + input.length ≤ content.length) (hs : content.length < 2 ^ 64) :
    (parent_send compressed directory input dict fs).written
      = (List.range input.num_connect).map (fun i =>
          (input.offset + i * (input.length / (input.num_connect + 1))
            + min i (input.length % (input.num_connect + 1)),
           if i < input.length % (input.num_connect + 1)
             then input.length / (input.num_connect + 1) + 1
             else input.length / (input.num_connect + 1))) ∧
    ((parent_send compressed directory input dict fs).written).length = input.num_connect ∧
    ((parent_send compressed directory input dict fs).written).Pairwise
      (fun a b => a.1 ≤ b.1) ∧
    (parent_send compressed directory input dict fs).sent
      = file_reply compressed (range_buffer input.session_id
          (input.offset + input.length - input.length / (input.num_connect + 1))
          (input.length / (input.num_connect + 1)) content) dict ∧
    read_file content (input.offset + input.length - input.length / (input.num_connect + 1))
        (input.length / (input.num_connect + 1))
      = (content.drop (input.offset + input.length - input.length / (input.num_connect + 1))).take
          (input.length / (input.num_connect + 1)) ∧
    ((content.drop (input.offset + input.length - input.length / (input.num_connect + 1))).take
      (input.length / (input.num_connect + 1))).length = input.length / (input.num_connect + 1) := by
  rw [parent_send_valid compressed directory input dict fs content hp hl hv hs]
  have hc := parent_records_chain input (by omega)
  have he := parent_records_eq input (by omega)
  have h2 : (parent_records input).2
      = input.offset + input.length - input.length / (input.num_connect + 1) := by rw [he]
  have h1 : (parent_records input).1
      = partition_spec input.offset input.length input.num_connect := by rw [he]
  obtain ⟨c1, c2, c3, c4⟩ := contiguous_props _ _ _ hc
  have hq : input.length / (input.num_connect + 1) ≤ input.length := Nat.div_le_self _ _
  have hr := read_file_inside content
    (input.offset + input.length - input.length / (input.num_connect + 1))
    (input.length / (input.num_connect + 1)) (by omega)
  dsimp only
  refine ⟨by rw [h1]; rfl, by rw [h1]; simp [partition_spec], ?_, by rw [h2], hr.1, ?_⟩
  · refine List.Pairwise.imp ?_ (List.pairwise_append.1 c2).1
    intro a b h
    omega
  · rw [← hr.1]; exact hr.2

theorem parent_send_records_witness :
    path_rejected [97] = false ∧ fs8.lookup (join_path [100] [97]) = some (List.range 10) ∧
    2 + 7 ≤ (List.range 10).length ∧ (List.range 10).length < 2 ^ 64 ∧
    (parent_send 0 [100] ⟨1, 2, 7, [97], 2⟩ dict8 fs8).written = [(2, 3), (5, 2)] ∧
    (parent_send 0 [100] ⟨1, 2, 7, [97], 2⟩ dict8 fs8).sent
      = file_reply 0 (range_buffer 1 7 2 (List.range 10)) dict8 ∧
    read_file (List.range 10) 7 2 = [7, 8] :=
  have h := parent_send_records 0 [100] ⟨1, 2, 7, [97], 2⟩ dict8 fs8 (List.range 10) (by decide)
    (by decide) (by decide) (by decide)
  ⟨by decide, by decide, by decide, by decide, h.1, h.2.2.2.1, h.2.2.2.2.1⟩

theorem find_head (curr : file_request) (others : List file_request) (req : file_request)
    (h : curr.session_id = req.session_id) : find (curr :: others) req = some (some curr) := by
  simp [find, h]

/-- C13. In `thread_worker_opt` (server_optimized.c) a type-6 request whose session id is that of
the live session 1 but whose length differs is served as a peer of that session: the peer count is
incremented, the pipe is read and a reply `0x70` is sent, no error frame. `client_handling` (tp.c)
and `client_handling_optimized` (tp_optimized.c) answer every such request with the error frame,
increment nothing and read nothing from the pipe. -/
theorem session_mismatch_reply :
    (thread_worker_opt env13 false frame13
      = some ⟨[0x70, 0, 0, 0, 0, 0, 0, 0, 25, 0, 0, 0, 1, 0, 0, 0, 0, 0, 0, 0, 0,
          0, 0, 0, 0, 0, 0, 0, 5, 0, 1, 2, 3, 4], [], false, false, false, [], 1, true⟩) ∧
    (∀ (env : server_env) (input rest : List Nat) (msg : message) (req curr : file_request)
      (others : List file_request),
      get_description input env.dict = description.full msg rest →
      get_description_optimized input env.dict = description.full msg rest →
      msg.main.type = 6 → dissect_file_request msg = some req →
      env.requests_list = curr :: others → curr.session_id = req.session_id →
      (req.file_name ≠ curr.file_name ∨ req.length ≠ curr.length ∨ req.offset ≠ curr.offset) →
      client_handling env false input
        = some ⟨error_send, rest, false, true, false, [], 0, false⟩ ∧
      client_handling_optimized env false input
        = some ⟨error_send, rest, true, true, false, [], 0, false⟩ ∧
      ∃ r : step_result, thread_worker_opt env false input = some r ∧ r.incremented = true ∧
        r.sent = (child_send msg.main.requires_compression env.directory curr env.dict env.fs
          env.record).sent) := by
  constructor
  · decide
  · intro env input rest msg req curr others hg ho ht hd hl hs hm
    have hf := find_head curr others req hs
    refine ⟨?_, ?_, ?_⟩
    · unfold client_handling
      rw [hg]
      simp only [Bool.false_eq_true, if_false, ht, hd, hl, hf]
      simp [hm]
    · unfold client_handling_optimized
      rw [ho]
      simp only [Bool.false_eq_true, if_false, ht, hd, hl, hf]
      simp [hm]
    · unfold thread_worker_opt
      rw [hg]
      simp only [Bool.false_eq_true, if_false, ht, hd, hl, hf]
      simp

theorem session_mismatch_reply_witness :
    client_handling env13 false frame13
      = some ⟨[0xF0, 0, 0, 0, 0, 0, 0, 0, 0], [], false, true, false, [], 0, false⟩ ∧
    client_handling_optimized env13 false frame13
      = some ⟨[0xF0, 0, 0, 0, 0, 0, 0, 0, 0], [], true, true, false, [], 0, false⟩ :=
  have h := session_mismatch_reply.2 env13 frame13 [] ⟨⟨6, 0, 0⟩, frame13.drop 9⟩
    ⟨1, 0, 5, [97], 0⟩ ⟨1, 0, 10, [97], 0⟩ [] (by decide) (by decide) (by decide) (by decide)
    (by decide) (by decide) (by decide)
  ⟨h.1, h.2.1⟩

theorem path_rejected_iff (name : List Nat) :
    path_rejected name = true ↔ ([46, 46] <:+: name ∨ 47 ∈ name) := by
  simp [path_rejected]

theorem file_reply_ne_error (compressed : Nat) (buffer : List Nat) (dict : List m_node) :
    file_reply compressed buffer dict ≠ error_send := by
  unfold file_reply error_send
  split <;> simp

/-- C14. For every directory and every file name a client supplies: when the name holds `..` or
`/`, `file_size_response`, `parent_send` and `child_send` send the error frame whatever the files
are (no file is looked up, and `child_send` reads no record); otherwise the three look up the file
at `directory ++ "/" ++ name` and nothing else: their result is the same for two file systems that
agree at that path, it is the error frame when the path names no file, and when it names one,
`file_size_response` sends the frame of its size, `parent_send` and `child_send` the frame of the
bytes of their range (for a range within the file), none of them the error frame. -/
theorem path_validation (directory name : List Nat) (input : message) (req : file_request)
    (dict : List m_node) (compressed : Nat) (record : Nat × Nat)
    (hn : c_string input.buffer = some name) (hr : req.file_name = name) :
    (([46, 46] <:+: name ∨ 47 ∈ name) → ∀ fs : file_system,
      file_size_response input directory dict fs = some ⟨error_send, false⟩ ∧
      parent_send compressed directory req dict fs = ⟨error_send, [], 0⟩ ∧
      child_send compressed directory req dict fs record = ⟨error_send, [], 0⟩) ∧
    (¬ ([46, 46] <:+: name ∨ 47 ∈ name) →
      (∀ fs fs2 : file_system,
        fs.lookup (directory ++ [47] ++ name) = fs2.lookup (directory ++ [47] ++ name) →
        file_size_response input directory dict fs = file_size_response input directory dict fs2 ∧
        parent_send compressed directory req dict fs
          = parent_send compressed directory req dict fs2 ∧
        child_send compressed directory req dict fs record
          = child_send compressed directory req dict fs2 record) ∧
      (∀ fs : file_system, fs.lookup (directory ++ [47] ++ name) = none →
        file_size_response input directory dict fs = some ⟨error_send, false⟩ ∧
        parent_send compressed directory req dict fs = ⟨error_send, [], 0⟩ ∧
        child_send compressed directory req dict fs record = ⟨error_send, [], 1⟩) ∧
      (∀ (fs : file_system) (content : List Nat),
        fs.lookup (directory ++ [47] ++ name) = some content →
        (∃ r, file_size_response input directory dict fs = some r ∧ r.sent ≠ error_send ∧
          (input.main.requires_compression ≠ 1 →
            r.sent = 0x50 :: (be_bytes 8 8 ++ be_bytes 8 content.length))) ∧
        (req.offset + req.length ≤ content.length → content.length < 2 ^ 64 →
          (parent_send compressed directory req dict fs).sent
            = file_reply compressed (range_buffer req.session_id (parent_records req).2
                (req.length / (req.num_connect + 1)) content) dict ∧
          (parent_send compressed directory req dict fs).sent ≠ error_send) ∧
        (record.1 + record.2 ≤ content.length → content.length < 2 ^ 64 →
          (child_send compressed directory req dict fs record).sent
            = file_reply compressed (range_buffer req.session_id record.1 record.2 content)
                dict) ∧
        (child_send compressed directory req dict fs record).sent ≠ error_send)) := by
  constructor
  · intro h fs
    have hp := (path_rejected_iff name).2 h
    unfold file_size_response parent_send child_send
    rw [hn, hr]
    simp [hp]
  · intro h
    have hp : path_rejected name = false := by
      rw [← Bool.not_eq_true, path_rejected_iff]; exact h
    refine ⟨?_, ?_, ?_⟩
    · intro fs fs2 he
      unfold file_size_response parent_send child_send
      rw [hn, hr]
      simp only [hp, join_path, he]
      simp
    · intro fs he
      unfold file_size_response parent_send child_send
      rw [hn, hr]
      simp only [hp, join_path, he]
      simp
    · intro fs content he
      have hc : (child_send compressed directory req dict fs record).sent
          = file_reply compressed (range_buffer req.session_id record.1 record.2 content)
              dict := by
        unfold child_send
        rw [hr]
        simp only [hp, join_path, he, Bool.false_eq_true, if_false]
      refine ⟨?_, ?_, fun _ _ => hc, ?_⟩
      · unfold file_size_response
        rw [hn]
        simp only [hp, join_path, he, Bool.false_eq_true, if_false]
        by_cases hrc : input.main.requires_compression = 1
        · rw [if_pos hrc]
          exact ⟨_, rfl, by simp [error_send], fun hx => absurd hrc hx⟩
        · rw [if_neg hrc]
          refine ⟨_, rfl, by simp [error_send], fun _ => ?_⟩
          simp only [send_u64_eq]
          rfl
      · intro hv hs
        have hpv := parent_send_valid compressed directory req dict fs content (by rw [hr]; exact hp)
          (by rw [hr]; exact he) hv hs
        rw [hpv]
        exact ⟨rfl, file_reply_ne_error _ _ _⟩
      · rw [hc]
        exact file_reply_ne_error _ _ _

theorem path_validation_witness :
    (file_size_response ⟨⟨4, 0, 0⟩, [46, 46, 47, 97, 0]⟩ [100] dict8 fs8
        = some ⟨error_send, false⟩ ∧
      parent_send 0 [100] ⟨1, 0, 5, [46, 46, 47, 97], 0⟩ dict8 fs8 = ⟨error_send, [], 0⟩ ∧
      child_send 0 [100] ⟨1, 0, 5, [46, 46, 47, 97], 0⟩ dict8 fs8 (0, 5) = ⟨error_send, [], 0⟩) ∧
    (∃ r, file_size_response ⟨⟨4, 0, 0⟩, [97, 0]⟩ [100] dict8 fs8 = some r ∧
      r.sent ≠ error_send ∧
      ((0 : Nat) ≠ 1 → r.sent = 0x50 :: (be_bytes 8 8 ++ be_bytes 8 (List.range 10).length))) ∧
    ((parent_send 0 [100] ⟨1, 0, 5, [97], 0⟩ dict8 fs8).sent
        = file_reply 0 (range_buffer 1 (parent_records ⟨1, 0, 5, [97], 0⟩).2 (5 / (0 + 1))
            (List.range 10)) dict8 ∧
      (parent_send 0 [100] ⟨1, 0, 5, [97], 0⟩ dict8 fs8).sent ≠ error_send) ∧
    (child_send 0 [100] ⟨1, 0, 5, [97], 0⟩ dict8 fs8 (0, 5)).sent
      = file_reply 0 (range_buffer 1 0 5 (List.range 10)) dict8 ∧
    (child_send 0 [100] ⟨1, 0, 5, [97], 0⟩ dict8 fs8 (0, 5)).sent ≠ error_send :=
  have h := ((path_validation [100] [97] ⟨⟨4, 0, 0⟩, [97, 0]⟩ ⟨1, 0, 5, [97], 0⟩ dict8 0 (0, 5)
    (by decide) (by decide)).2 (by decide)).2.2 fs8 (List.range 10) (by decide)
  ⟨(path_validation [100] [46, 46, 47, 97] ⟨⟨4, 0, 0⟩, [46, 46, 47, 97, 0]⟩
      ⟨1, 0, 5, [46, 46, 47, 97], 0⟩ dict8 0 (0, 5) (by decide) (by decide)).1 (by decide) fs8,
    h.1, h.2.1 (by decide) (by decide), h.2.2.1 (by decide) (by decide), h.2.2.2⟩

theorem le_val_mem_bytes4 (a b c d : Nat) (ha : a < 256) (hb : b < 256) (hc : c < 256)
    (hd : d < 256) : mem_bytes 4 (le_val [a, b, c, d]) = [a, b, c, d] := by
  simp only [mem_bytes, le_val, List.foldr, List.range, List.range.loop, List.map]
  norm_num
  omega

/-- The four bytes sent for a session id are its big-endian writing. -/
theorem send_u32_eq (x : Nat) : send_u32 x = be_bytes 4 x := by
  have h : ∀ y : Nat, (mem_bytes 4 y).reverse
      = [y / 256 ^ 3 % 256, y / 256 ^ 2 % 256, y / 256 ^ 1 % 256, y / 256 ^ 0 % 256] := by
    intro y; rfl
  have hlt : ∀ n : Nat, n % 256 < 256 := fun n => Nat.mod_lt _ (by norm_num)
  unfold send_u32 bswap_32
  rw [h, le_val_mem_bytes4 _ _ _ _ (hlt _) (hlt _) (hlt _) (hlt _)]
  simp only [be_bytes, List.range, List.range.loop, List.map]
  norm_num
  omega

/-- The session id read from the four bytes `be_bytes 4 x` is `x`. -/
theorem read_u32_be (x : Nat) (hx : x < 2 ^ 32) : bswap_32 (le_val (be_bytes 4 x)) = x := by
  have hlt : ∀ n : Nat, n % 256 < 256 := fun n => Nat.mod_lt _ (by norm_num)
  have e : be_bytes 4 x = [x / 256 ^ 3 % 256, x / 256 ^ 2 % 256, x / 256 ^ 1 % 256,
      x / 256 ^ 0 % 256] := rfl
  unfold bswap_32
  rw [e, le_val_mem_bytes4 _ _ _ _ (hlt _) (hlt _) (hlt _) (hlt _)]
  simp only [le_val, List.reverse_cons, List.reverse_nil, List.nil_append, List.cons_append,
    List.foldr]
  norm_num
  omega

/-- The number read from the eight bytes `be_bytes 8 x` is `x`. -/
theorem read_u64_be (x : Nat) (hx : x < 2 ^ 64) : bswap_64 (le_val (be_bytes 8 x)) = x := by
  rw [read_u64_eq _ (be_bytes_length 8 x) (be_bytes_lt 8 x), be_val_be_bytes x hx]

theorem c_string_name (name rest : List Nat) (h0 : 0 ∉ name) :
    c_string (name ++ 0 :: rest) = some name := by
  unfold c_string
  rw [if_pos (by simp)]
  congr 1
  have h1 : ∀ b ∈ name, (fun b => decide (b ≠ 0)) b = true := by
    intro b hb
    have : b ≠ 0 := fun h => h0 (h ▸ hb)
    simpa using this
  rw [List.takeWhile_append_of_pos h1]
  simp

/-- The request payload the specification words is dissected into its four parts. -/
theorem dissect_file_request_eq (main : header) (sid off len : Nat) (name : List Nat)
    (hs : sid < 2 ^ 32) (ho : off < 2 ^ 64) (hl : len < 2 ^ 64) (h0 : 0 ∉ name) :
    dissect_file_request
        ⟨main, be_bytes 4 sid ++ be_bytes 8 off ++ be_bytes 8 len ++ name ++ [0]⟩
      = some ⟨sid, off, len, name, 0⟩ := by
  have l4 := be_bytes_length 4 sid
  have l8o := be_bytes_length 8 off
  have l8l := be_bytes_length 8 len
  unfold dissect_file_request
  simp only [List.append_assoc]
  rw [if_neg (by simp only [List.length_append]; omega)]
  have d20 : (be_bytes 4 sid ++ (be_bytes 8 off ++ (be_bytes 8 len ++ (name ++ [0])))).drop 20
      = name ++ [0] := by
    rw [← List.append_assoc, ← List.append_assoc]
    exact List.drop_left' (by simp only [List.length_append]; omega)
  have t4 : (be_bytes 4 sid ++ (be_bytes 8 off ++ (be_bytes 8 len ++ (name ++ [0])))).take 4
      = be_bytes 4 sid := List.take_left' l4
  have d4 : (be_bytes 4 sid ++ (be_bytes 8 off ++ (be_bytes 8 len ++ (name ++ [0])))).drop 4
      = be_bytes 8 off ++ (be_bytes 8 len ++ (name ++ [0])) := List.drop_left' l4
  have d12 : (be_bytes 4 sid ++ (be_bytes 8 off ++ (be_bytes 8 len ++ (name ++ [0])))).drop 12
      = be_bytes 8 len ++ (name ++ [0]) := by
    rw [← List.append_assoc]
    exact List.drop_left' (by simp only [List.length_append]; omega)
  rw [d20, t4, d4, d12, List.take_left' l8o, List.take_left' l8l, c_string_name name [] h0,
    read_u32_be sid hs, read_u64_be off ho, read_u64_be len hl]

/-- The buffer of a range that lies within the file: the prefix of twenty bytes and the bytes of
the file at the positions of the range. -/
theorem range_buffer_eq (sid off len : Nat) (content : List Nat) (h : off + len ≤ content.length) :
    range_buffer sid off len content
      = be_bytes 4 sid ++ be_bytes 8 off ++ be_bytes 8 len ++ (content.drop off).take len ∧
    (range_buffer sid off len content).length = 20 + len ∧
    ((content.drop off).take len).length = len := by
  obtain ⟨h1, h2⟩ := read_file_inside content off len h
  have e : range_buffer sid off len content
      = be_bytes 4 sid ++ be_bytes 8 off ++ be_bytes 8 len ++ (content.drop off).take len := by
    unfold range_buffer
    rw [send_u32_eq, send_u64_eq, send_u64_eq, h1]
  refine ⟨e, ?_, by rw [← h1]; exact h2⟩
  rw [e]
  simp only [List.length_append, be_bytes_length]
  rw [← h1, h2]

/-- A retrieval request whose session is not in the list is served by `parent_send`. -/
theorem step_parent (env : server_env) (input rest : List Nat) (msg : message)
    (req : file_request) (hd : get_description input env.dict = description.full msg rest)
    (ht : msg.main.type = 6) (hq : dissect_file_request msg = some req)
    (hf : env.requests_list = []) :
    client_handling env false input
      = some ⟨(parent_send msg.main.requires_compression env.directory
          { req with num_connect := env.joined } env.dict env.fs).sent, rest, false, false, false,
          (parent_send msg.main.requires_compression env.directory
            { req with num_connect := env.joined } env.dict env.fs).written,
          (parent_send msg.main.requires_compression env.directory
            { req with num_connect := env.joined } env.dict env.fs).reads, false⟩ ∧
    thread_worker_opt env false input
      = some ⟨(parent_send msg.main.requires_compression env.directory
          { req with num_connect := env.joined } env.dict env.fs).sent, rest, false, false, false,
          (parent_send msg.main.requires_compression env.directory
            { req with num_connect := env.joined } env.dict env.fs).written,
          (parent_send msg.main.requires_compression env.directory
            { req with num_connect := env.joined } env.dict env.fs).reads, false⟩ := by
  constructor
  · unfold client_handling
    rw [hd]
    simp [ht, hq, hf, find]
  · unfold thread_worker_opt
    rw [hd]
    simp [ht, hq, hf, find]

theorem parent_records_alone (input : file_request) (h : input.num_connect = 0) :
    parent_records input = ([], input.offset) := by
  simp [parent_records, h]

/-- The frame of a retrieval request, as the specification words it, is read as a message of
type 6 without compression. -/
theorem get_description_request (dict : List m_node) (sid off len : Nat) (name rest : List Nat)
    (hnl : 21 + name.length < 2 ^ 64) :
    get_description (0x60 :: (be_bytes 8 (21 + name.length) ++
        (be_bytes 4 sid ++ be_bytes 8 off ++ be_bytes 8 len ++ name ++ [0]) ++ rest)) dict
      = description.full ⟨⟨6, 0, 0⟩,
          be_bytes 4 sid ++ be_bytes 8 off ++ be_bytes 8 len ++ name ++ [0]⟩ rest := by
  have hg := (get_description_frame dict 0x60 (be_bytes 8 (21 + name.length))
    (be_bytes 4 sid ++ be_bytes 8 off ++ be_bytes 8 len ++ name ++ [0]) rest (by decide)
    (by decide) (be_bytes_length _ _) (be_bytes_lt _ _) (by
      rw [be_val_be_bytes _ hnl]
      simp only [List.length_append, be_bytes_length, List.length_singleton]
      omega)).1
  rw [hg, decompress_description_full]
  simp

/-- C15. A retrieval request `0x60`, length, `BE32(sid) ++ BE64(off) ++ BE64(len) ++ name ++ NUL`
of a session that no other client has joined, for a range within the file, is answered by
`client_handling` and by `thread_worker_opt` with `0x70`, `BE64(20 + len)`, the prefix
`BE32(sid) ++ BE64(off) ++ BE64(len)` and the `len` bytes of the file from `off`. More generally,
without compression `parent_send` sends this frame for the range `(offset + length - q, q)` it
serves, and `child_send` sends it for the range of the record it reads from the pipe. -/
theorem retrieval_reply_layout :
    (∀ (env : server_env) (sid off len : Nat) (name rest content : List Nat),
      sid < 2 ^ 32 → 0 ∉ name → 21 + name.length < 2 ^ 64 → path_rejected name = false →
      env.fs.lookup (join_path env.directory name) = some content →
      off + len ≤ content.length → content.length < 2 ^ 64 →
      env.requests_list = [] → env.joined = 0 →
      client_handling env false (0x60 :: (be_bytes 8 (21 + name.length) ++
          (be_bytes 4 sid ++ be_bytes 8 off ++ be_bytes 8 len ++ name ++ [0]) ++ rest))
        = some ⟨0x70 :: (be_bytes 8 (20 + len) ++ (be_bytes 4 sid ++ be_bytes 8 off ++
            be_bytes 8 len ++ (content.drop off).take len)), rest, false, false, false, [], 0,
            false⟩ ∧
      thread_worker_opt env false (0x60 :: (be_bytes 8 (21 + name.length) ++
          (be_bytes 4 sid ++ be_bytes 8 off ++ be_bytes 8 len ++ name ++ [0]) ++ rest))
        = some ⟨0x70 :: (be_bytes 8 (20 + len) ++ (be_bytes 4 sid ++ be_bytes 8 off ++
            be_bytes 8 len ++ (content.drop off).take len)), rest, false, false, false, [], 0,
            false⟩ ∧
      ((content.drop off).take len).length = len) ∧
    (∀ (directory : List Nat) (input : file_request) (dict : List m_node) (fs : file_system)
      (content : List Nat), path_rejected input.file_name = false →
      fs.lookup (join_path directory input.file_name) = some content →
      input.offset + input.length ≤ content.length → content.length < 2 ^ 64 →
      (parent_send 0 directory input dict fs).sent
        = 0x70 :: (be_bytes 8 (20 + input.length / (input.num_connect + 1)) ++
            (be_bytes 4 input.session_id ++
             be_bytes 8 (input.offset + input.length - input.length / (input.num_connect + 1)) ++
             be_bytes 8 (input.length / (input.num_connect + 1)) ++
             (content.drop (input.offset + input.length
               - input.length / (input.num_connect + 1))).take
               (input.length / (input.num_connect + 1)))) ∧
      ((content.drop (input.offset + input.length - input.length / (input.num_connect + 1))).take
        (input.length / (input.num_connect + 1))).length
        = input.length / (input.num_connect + 1)) ∧
    (∀ (directory : List Nat) (input : file_request) (dict : List m_node) (fs : file_system)
      (content : List Nat) (sub_off sub_len : Nat), path_rejected input.file_name = false →
      fs.lookup (join_path directory input.file_name) = some content →
      sub_off + sub_len ≤ content.length → content.length < 2 ^ 64 →
      (child_send 0 directory input dict fs (sub_off, sub_len)).sent
        = 0x70 :: (be_bytes 8 (20 + sub_len) ++ (be_bytes 4 input.session_id ++
            be_bytes 8 sub_off ++ be_bytes 8 sub_len ++ (content.drop sub_off).take sub_len)) ∧
      ((content.drop sub_off).take sub_len).length = sub_len) := by
  refine ⟨?_, ?_, ?_⟩
  · intro env sid off len name rest content hs h0 hnl hp hl hv hc he hj
    have hg := get_description_request env.dict sid off len name rest hnl
    have hq := dissect_file_request_eq ⟨6, 0, 0⟩ sid off len name hs (by omega) (by omega) h0
    obtain ⟨s1, s2⟩ := step_parent env _ rest _ _ hg rfl hq he
    have hv2 := parent_send_valid 0 env.directory ⟨sid, off, len, name, env.joined⟩ env.dict
      env.fs content hp hl hv hc
    obtain ⟨r1, r2, r3⟩ := range_buffer_eq sid off len content hv
    have hrec := parent_records_alone ⟨sid, off, len, name, env.joined⟩ hj
    have hsent : parent_send 0 env.directory ⟨sid, off, len, name, env.joined⟩ env.dict env.fs
        = ⟨0x70 :: (be_bytes 8 (20 + len) ++ (be_bytes 4 sid ++ be_bytes 8 off ++
            be_bytes 8 len ++ (content.drop off).take len)), [], 0⟩ := by
      rw [hv2, hrec]
      simp only [hj, Nat.zero_add, Nat.div_one]
      rw [file_reply, if_neg (by decide), r2, send_u64_eq, r1]
      rfl
    rw [hsent] at s1 s2
    exact ⟨s1, s2, r3⟩
  · intro directory input dict fs content hp hl hv hc
    have hv2 := parent_send_valid 0 directory input dict fs content hp hl hv hc
    have he := parent_records_eq input (by omega)
    have hq : input.length / (input.num_connect + 1) ≤ input.length := Nat.div_le_self _ _
    obtain ⟨r1, r2, r3⟩ := range_buffer_eq input.session_id
      (input.offset + input.length - input.length / (input.num_connect + 1))
      (input.length / (input.num_connect + 1)) content (by omega)
    rw [hv2, he]
    dsimp only
    rw [file_reply, if_neg (by decide), r2, send_u64_eq, r1]
    exact ⟨rfl, r3⟩
  · intro directory input dict fs content sub_off sub_len hp hl hv hc
    obtain ⟨r1, r2, r3⟩ := range_buffer_eq input.session_id sub_off sub_len content hv
    unfold child_send
    rw [hp, hl]
    simp only [Bool.false_eq_true, if_false]
    rw [file_reply, if_neg (by decide), r2, send_u64_eq, r1]
    exact ⟨rfl, r3⟩

theorem retrieval_reply_layout_witness :
    client_handling env15 false [0x60, 0, 0, 0, 0, 0, 0, 0, 22, 0, 0, 0, 1, 0, 0, 0, 0, 0, 0, 0, 2,
        0, 0, 0, 0, 0, 0, 0, 3, 97, 0]
      = some ⟨[0x70, 0, 0, 0, 0, 0, 0, 0, 23, 0, 0, 0, 1, 0, 0, 0, 0, 0, 0, 0, 2,
          0, 0, 0, 0, 0, 0, 0, 3, 2, 3, 4], [], false, false, false, [], 0, false⟩ ∧
    (child_send 0 [100] ⟨1, 0, 10, [97], 1⟩ dict8 fs8 (5, 5)).sent
      = [0x70, 0, 0, 0, 0, 0, 0, 0, 25, 0, 0, 0, 1, 0, 0, 0, 0, 0, 0, 0, 5,
          0, 0, 0, 0, 0, 0, 0, 5, 5, 6, 7, 8, 9] ∧
    (parent_send 0 [100] ⟨1, 0, 10, [97], 1⟩ dict8 fs8).sent
      = [0x70, 0, 0, 0, 0, 0, 0, 0, 25, 0, 0, 0, 1, 0, 0, 0, 0, 0, 0, 0, 5,
          0, 0, 0, 0, 0, 0, 0, 5, 5, 6, 7, 8, 9] :=
  ⟨(retrieval_reply_layout.1 env15 1 2 3 [97] [] (List.range 10) (by decide) (by decide)
      (by decide) (by decide) (by decide) (by decide) (by decide) rfl rfl).1,
    (retrieval_reply_layout.2.2 [100] ⟨1, 0, 10, [97], 1⟩ dict8 fs8 (List.range 10) 5 5
      (by decide) (by decide) (by decide) (by decide)).1,
    (retrieval_reply_layout.2.1 [100] ⟨1, 0, 10, [97], 1⟩ dict8 fs8 (List.range 10)
      (by decide) (by decide) (by decide) (by decide)).1⟩

theorem names_spec_eq (entries : List (List Nat × Bool)) :
    (entries.filter (fun e => e.2)).flatMap (fun e => e.1 ++ [0]) = names_spec entries := by
  induction entries with
  | nil => rfl
  | cons e rest ih =>
    obtain ⟨name, reg⟩ := e
    cases reg
    · simpa [names_spec, List.filter] using ih
    · simp only [List.filter, names_spec, List.flatMap_cons, ih]

theorem filter_regular_nil (entries : List (List Nat × Bool)) :
    (entries.filter (fun e => e.2)).length = 0 ↔ entries.all (fun e => !e.2) = true := by
  induction entries with
  | nil => simp
  | cons e rest ih =>
    obtain ⟨name, reg⟩ := e
    cases reg
    · simp [List.filter]
    · simp [List.filter]

theorem names_spec_nil (entries : List (List Nat × Bool)) :
    (names_spec entries).length = 0 ↔ entries.all (fun e => !e.2) = true := by
  induction entries with
  | nil => simp [names_spec]
  | cons e rest ih =>
    obtain ⟨name, reg⟩ := e
    cases reg
    · simpa [names_spec] using ih
    · simp [names_spec]

theorem directory_names_eq (entries : List (List Nat × Bool)) :
    directory_names entries = listing_spec entries ∧
    directory_names_optimized entries = listing_spec entries := by
  constructor
  · unfold directory_names listing_spec
    simp only [names_spec_eq]
    by_cases h : entries.all (fun e => !e.2) = true
    · rw [if_pos ((filter_regular_nil entries).2 h), if_pos h]
    · rw [if_neg (fun h2 => h ((filter_regular_nil entries).1 h2)), if_neg h]
  · unfold directory_names_optimized listing_spec
    simp only [names_spec_eq]
    by_cases h : entries.all (fun e => !e.2) = true
    · rw [if_pos ((names_spec_nil entries).2 h), if_pos h]
    · rw [if_neg (fun h2 => h ((names_spec_nil entries).1 h2)), if_neg h]

theorem step_directory (env : server_env) (input : List Nat) (m : message) (rest : List Nat)
    (ht : m.main.type = 2) :
    (get_description input env.dict = description.full m rest →
      client_handling env false input
        = some ⟨directory_send m env.dict env.fs, rest, false, false, false, [], 0, false⟩ ∧
      thread_worker_opt env false input
        = some ⟨directory_send m env.dict env.fs, rest, false, false, false, [], 0, false⟩) ∧
    (get_description_optimized input env.dict = description.full m rest →
      client_handling_optimized env false input
        = (directory_send_optimized m env.fs).map
            (fun sent => ⟨sent, rest, false, false, false, [], 0, false⟩)) := by
  refine ⟨fun hd => ⟨?_, ?_⟩, fun hd => ?_⟩
  · unfold client_handling
    rw [hd]
    simp [ht]
  · unfold thread_worker_opt
    rw [hd]
    simp [ht]
  · unfold client_handling_optimized
    rw [hd]
    simp [ht]

/-- C16. For every enumeration `entries` of the published directory, the body of the listing that
`directory_send` and `directory_send_optimized` build is, in the order of the enumeration, the
name and a NUL for each regular file and nothing for another entry, or the one byte 00 when no
entry is a regular file; and a listing request without compression (header `20` to `23`) is
answered by each of the three servers with `30`, the length of that body on eight bytes
big-endian, and the body. -/
theorem directory_listing_reply (env : server_env) (entries : List (List Nat × Bool))
    (h : Nat) (P rest : List Nat) (hl : env.fs.listing = some entries)
    (hh : 0x20 ≤ h ∧ h < 0x24) (hP : P.length < 2 ^ 64) :
    directory_names entries = listing_spec entries ∧
    directory_names_optimized entries = listing_spec entries ∧
    client_handling env false (h :: (be_bytes 8 P.length ++ P ++ rest))
      = some ⟨0x30 :: (be_bytes 8 (listing_spec entries).length ++ listing_spec entries), rest,
          false, false, false, [], 0, false⟩ ∧
    client_handling_optimized env false (h :: (be_bytes 8 P.length ++ P ++ rest))
      = some ⟨0x30 :: (be_bytes 8 (listing_spec entries).length ++ listing_spec entries), rest,
          false, false, false, [], 0, false⟩ ∧
    thread_worker_opt env false (h :: (be_bytes 8 P.length ++ P ++ rest))
      = some ⟨0x30 :: (be_bytes 8 (listing_spec entries).length ++ listing_spec entries), rest,
          false, false, false, [], 0, false⟩ := by
  obtain ⟨n1, n2⟩ := directory_names_eq entries
  obtain ⟨h1, h2⟩ := get_description_frame env.dict h (be_bytes 8 P.length) P rest (by omega)
    (by omega) (be_bytes_length 8 _) (be_bytes_lt 8 _) (be_val_be_bytes _ hP).symm
  have e1 : h / 16 = 2 := by omega
  have e2 : h / 8 % 2 = 0 := by omega
  have e3 : h / 4 % 2 = 0 := by omega
  rw [e1, e2, e3] at h1 h2
  have hd : decompress_description (description.full ⟨⟨2, 0, 0⟩, P⟩ rest) env.dict
      = description.full ⟨⟨2, 0, 0⟩, P⟩ rest := by
    simp [decompress_description]
  rw [hd] at h1 h2
  obtain ⟨s1, s2⟩ := step_directory env (h :: (be_bytes 8 P.length ++ P ++ rest)) ⟨⟨2, 0, 0⟩, P⟩
    rest rfl
  have d1 : directory_send ⟨⟨2, 0, 0⟩, P⟩ env.dict env.fs
      = 0x30 :: (be_bytes 8 (listing_spec entries).length ++ listing_spec entries) := by
    unfold directory_send
    rw [hl]
    simp only [n1, Nat.zero_ne_one, if_false, send_u64_eq]
    rfl
  have d2 : directory_send_optimized ⟨⟨2, 0, 0⟩, P⟩ env.fs
      = some (0x30 :: (be_bytes 8 (listing_spec entries).length ++ listing_spec entries)) := by
    unfold directory_send_optimized
    rw [hl]
    simp only [n2, Nat.zero_ne_one, if_false, send_u64_eq]
    rfl
  refine ⟨n1, n2, ?_, ?_, ?_⟩
  · rw [(s1 h1).1, d1]
  · rw [s2 h2, d2]; rfl
  · rw [(s1 h1).2, d1]

theorem directory_listing_reply_witness :
    fs8.listing = some [([97], true), ([115], false), ([98], true)] ∧
    client_handling env15 false [0x20, 0, 0, 0, 0, 0, 0, 0, 0]
      = some ⟨[0x30, 0, 0, 0, 0, 0, 0, 0, 4, 97, 0, 98, 0], [], false, false, false, [], 0,
          false⟩ :=
  ⟨rfl, (directory_listing_reply env15 [([97], true), ([115], false), ([98], true)] 0x20 [] [] rfl
    (by decide) (by decide)).2.2.1⟩

theorem step_file_size (env : server_env) (input : List Nat) (m : message) (rest : List Nat)
    (ht : m.main.type = 4) (hd : get_description input env.dict = description.full m rest) :
    (∀ sent, file_size_response m env.directory env.dict env.fs = some ⟨sent, false⟩ →
      client_handling env false input
        = some ⟨sent, rest, false, false, false, [], 0, false⟩ ∧
      thread_worker_opt env false input
        = some ⟨sent, rest, false, false, false, [], 0, false⟩) ∧
    (∀ sent, file_size_response m env.directory env.dict env.fs = some ⟨sent, true⟩ →
      client_handling env false input = none ∧ thread_worker_opt env false input = none) := by
  refine ⟨fun sent hf => ⟨?_, ?_⟩, fun sent hf => ⟨?_, ?_⟩⟩
  · unfold client_handling
    rw [hd]
    simp [ht, hf]
  · unfold thread_worker_opt
    rw [hd]
    simp [ht, hf]
  · unfold client_handling
    rw [hd]
    simp [ht, hf]
  · unfold thread_worker_opt
    rw [hd]
    simp [ht, hf]

/-- The frame of a file size request without compression is read as a message of type 4 whose
payload is the name and its NUL. -/
theorem get_description_size_request (dict : List m_node) (h : Nat) (name rest : List Nat)
    (hh : 0x40 ≤ h ∧ h < 0x44) (hnl : name.length + 1 < 2 ^ 64) :
    get_description (h :: (be_bytes 8 (name.length + 1) ++ (name ++ [0]) ++ rest)) dict
      = description.full ⟨⟨4, 0, 0⟩, name ++ [0]⟩ rest := by
  have hg := (get_description_frame dict h (be_bytes 8 (name.length + 1)) (name ++ [0]) rest
    (by omega) (by omega) (be_bytes_length _ _) (be_bytes_lt _ _) (by
      rw [be_val_be_bytes _ hnl]; simp)).1
  have e1 : h / 16 = 4 := by omega
  have e2 : h / 8 % 2 = 0 := by omega
  have e3 : h / 4 % 2 = 0 := by omega
  rw [e1, e2, e3] at hg
  rw [hg, decompress_description_full]
  simp

/-- C17. A file size request without compression (header `40` to `43`) whose payload is a name
without `..` and `/` followed by a NUL is handed by `get_description` to `file_size_response` as
the message of type 4 with that payload. When the file exists and has `s` bytes,
`file_size_response` sends exactly the 17 bytes `50`, `BE64(8)`, `BE64(s)`, from which `s` is read
back; it then frees `path` a second time, so that the turn of `client_handling` and of
`thread_worker_opt` does not end after the reply. When the open of the name fails, it sends the
error frame and the turn ends with the connection open. -/
theorem file_size_reply (env : server_env) (h : Nat) (name rest : List Nat)
    (hh : 0x40 ≤ h ∧ h < 0x44) (h0 : 0 ∉ name) (hnl : name.length + 1 < 2 ^ 64)
    (hp : path_rejected name = false) :
    get_description (h :: (be_bytes 8 (name.length + 1) ++ (name ++ [0]) ++ rest)) env.dict
      = description.full ⟨⟨4, 0, 0⟩, name ++ [0]⟩ rest ∧
    (∀ content : List Nat, env.fs.lookup (join_path env.directory name) = some content →
      content.length < 2 ^ 64 →
      file_size_response ⟨⟨4, 0, 0⟩, name ++ [0]⟩ env.directory env.dict env.fs
        = some ⟨0x50 :: (be_bytes 8 8 ++ be_bytes 8 content.length), true⟩ ∧
      client_handling env false (h :: (be_bytes 8 (name.length + 1) ++ (name ++ [0]) ++ rest))
        = none ∧
      thread_worker_opt env false (h :: (be_bytes 8 (name.length + 1) ++ (name ++ [0]) ++ rest))
        = none ∧
      (0x50 :: (be_bytes 8 8 ++ be_bytes 8 content.length)).length = 17 ∧
      be_bytes 8 8 = [0, 0, 0, 0, 0, 0, 0, 8] ∧
      be_val (be_bytes 8 content.length) = content.length) ∧
    (env.fs.lookup (join_path env.directory name) = none →
      file_size_response ⟨⟨4, 0, 0⟩, name ++ [0]⟩ env.directory env.dict env.fs
        = some ⟨error_send, false⟩ ∧
      client_handling env false (h :: (be_bytes 8 (name.length + 1) ++ (name ++ [0]) ++ rest))
        = some ⟨error_send, rest, false, false, false, [], 0, false⟩ ∧
      thread_worker_opt env false (h :: (be_bytes 8 (name.length + 1) ++ (name ++ [0]) ++ rest))
        = some ⟨error_send, rest, false, false, false, [], 0, false⟩) := by
  have hg := get_description_size_request env.dict h name rest hh hnl
  obtain ⟨s1, s2⟩ := step_file_size env _ ⟨⟨4, 0, 0⟩, name ++ [0]⟩ rest rfl hg
  have hc : c_string (name ++ [0]) = some name := c_string_name name [] h0
  refine ⟨hg, ?_, ?_⟩
  · intro content hl hs
    have hf : file_size_response ⟨⟨4, 0, 0⟩, name ++ [0]⟩ env.directory env.dict env.fs
        = some ⟨0x50 :: (be_bytes 8 8 ++ be_bytes 8 content.length), true⟩ := by
      unfold file_size_response
      simp only [hc, hp, hl, Bool.false_eq_true, if_false, Nat.zero_ne_one, send_u64_eq]
      rfl
    refine ⟨hf, (s2 _ hf).1, (s2 _ hf).2, ?_, by decide, be_val_be_bytes _ hs⟩
    simp [be_bytes_length]
  · intro hl
    have hf : file_size_response ⟨⟨4, 0, 0⟩, name ++ [0]⟩ env.directory env.dict env.fs
        = some ⟨error_send, false⟩ := by
      unfold file_size_response
      simp only [hc, hp, hl, Bool.false_eq_true, if_false]
    exact ⟨hf, (s1 _ hf).1, (s1 _ hf).2⟩

theorem file_size_reply_witness :
    ((0x40 : Nat) ≤ 0x40 ∧ (0x40 : Nat) < 0x44) ∧ path_rejected [102] = false ∧
    (file_size_response ⟨⟨4, 0, 0⟩, [102] ++ [0]⟩ env17.directory env17.dict env17.fs
        = some ⟨[0x50, 0, 0, 0, 0, 0, 0, 0, 8, 0, 0, 0, 0, 0, 0, 0, 7], true⟩ ∧
      client_handling env17 false [0x40, 0, 0, 0, 0, 0, 0, 0, 2, 102, 0] = none) ∧
    (file_size_response ⟨⟨4, 0, 0⟩, [103] ++ [0]⟩ env17.directory env17.dict env17.fs
        = some ⟨[0xF0, 0, 0, 0, 0, 0, 0, 0, 0], false⟩ ∧
      client_handling env17 false [0x40, 0, 0, 0, 0, 0, 0, 0, 2, 103, 0]
        = some ⟨[0xF0, 0, 0, 0, 0, 0, 0, 0, 0], [], false, false, false, [], 0, false⟩) :=
  ⟨by decide, by decide,
    ⟨((file_size_reply env17 0x40 [102] [] (by decide) (by decide) (by decide) (by decide)).2.1
        [1, 2, 3, 4, 5, 6, 7] (by decide) (by decide)).1,
      ((file_size_reply env17 0x40 [102] [] (by decide) (by decide) (by decide) (by decide)).2.1
        [1, 2, 3, 4, 5, 6, 7] (by decide) (by decide)).2.1⟩,
    ⟨((file_size_reply env17 0x40 [103] [] (by decide) (by decide) (by decide) (by decide)).2.2
        (by decide)).1,
      ((file_size_reply env17 0x40 [103] [] (by decide) (by decide) (by decide) (by decide)).2.2
        (by decide)).2.1⟩⟩

theorem full_nodes_length : ∀ (l : List Nat) (k : Nat), (full_nodes k l).length = l.length := by
  intro l
  induction l with
  | nil => intro k; rfl
  | cons x r ih => intro k; simp [full_nodes, ih]

theorem live_nodes_snoc : ∀ (l : List Nat) (k y : Nat),
    live_nodes k (l ++ [y]) = full_nodes k l ++ [some ⟨y, none⟩] := by
  intro l
  induction l with
  | nil => intro k y; rfl
  | cons x r ih =>
    intro k y
    cases r with
    | nil => rfl
    | cons z r2 =>
      have := ih (k + 1) y
      simp only [List.cons_append, live_nodes, full_nodes, List.append_eq] at this ⊢
      rw [this]

theorem full_nodes_snoc : ∀ (l : List Nat) (k y : Nat),
    full_nodes k (l ++ [y]) = full_nodes k l ++ [some ⟨y, some (k + l.length + 1)⟩] := by
  intro l
  induction l with
  | nil => intro k y; rfl
  | cons x r ih =>
    intro k y
    simp only [List.cons_append, full_nodes, List.append_eq, ih, List.length_cons]
    rw [show k + 1 + r.length + 1 = k + (r.length + 1) + 1 by omega]

theorem list_at_length {α : Type} (pre : List α) (a b d : α) (post : List α) :
    (pre ++ a :: post).getD pre.length d = a ∧
    (pre ++ a :: post).set pre.length b = pre ++ b :: post := by
  induction pre with
  | nil => exact ⟨rfl, rfl⟩
  | cons x r ih =>
    obtain ⟨h1, h2⟩ := ih
    refine ⟨?_, ?_⟩
    · simpa using h1
    · simp only [List.cons_append, List.length_cons, List.set_cons_succ, h2]

theorem enqueue_repr (k : Nat) (l : List Nat) (x : Nat) :
    enqueue x (linked_repr k l) = some (linked_repr k (l ++ [x])) := by
  rcases List.eq_nil_or_concat l with rfl | ⟨l2, y, h⟩
  · simp [enqueue, linked_repr, live_nodes]
  · rw [List.concat_eq_append] at h
    subst h
    have hne : l2 ++ [y] ≠ [] := by simp
    have hne2 : l2 ++ [y] ++ [x] ≠ [] := by simp
    have hl : (List.replicate k (none : Option Node) ++ full_nodes k l2).length
        = k + (l2 ++ [y]).length - 1 := by
      simp [full_nodes_length]
    have e : List.replicate k (none : Option Node) ++ live_nodes k (l2 ++ [y])
          ++ [some ⟨x, none⟩]
        = (List.replicate k none ++ full_nodes k l2) ++ some ⟨y, none⟩ :: [some ⟨x, none⟩] := by
      rw [live_nodes_snoc]; simp
    obtain ⟨g1, g2⟩ := list_at_length (List.replicate k (none : Option Node) ++ full_nodes k l2)
      (some ⟨y, none⟩) (some ⟨y, some (k + (l2 ++ [y]).length)⟩) none [some ⟨x, none⟩]
    rw [hl] at g1 g2
    unfold enqueue linked_repr
    simp only [if_neg hne, if_neg hne2]
    have hlen : (List.replicate k (none : Option Node) ++ live_nodes k (l2 ++ [y])).length
        = k + (l2 ++ [y]).length := by
      simp [live_nodes_snoc, full_nodes_length]
    rw [e, g1]
    simp only
    rw [hlen, g2, live_nodes_snoc, full_nodes_snoc]
    simp
    omega

theorem dequeue_repr_nil (k : Nat) :
    dequeue (linked_repr k []) = some (0, linked_repr k []) := by
  simp [dequeue, linked_repr]

theorem dequeue_repr_cons (k x : Nat) (l : List Nat) :
    dequeue (linked_repr k (x :: l)) = some (x, linked_repr (k + 1) l) := by
  cases l with
  | nil =>
    obtain ⟨g1, g2⟩ := list_at_length (List.replicate k (none : Option Node))
      (some ⟨x, none⟩) none none []
    simp only [List.length_replicate] at g1 g2
    unfold dequeue linked_repr
    simp only [live_nodes, if_neg (List.cons_ne_nil x []), g1, g2]
    simp [List.replicate_succ']
  | cons y r =>
    obtain ⟨g1, g2⟩ := list_at_length (List.replicate k (none : Option Node))
      (some ⟨x, some (k + 1)⟩) none none (live_nodes (k + 1) (y :: r))
    simp only [List.length_replicate] at g1 g2
    unfold dequeue linked_repr
    simp only [live_nodes, if_neg (List.cons_ne_nil _ _), g1, g2]
    simp [List.replicate_succ']
    omega

theorem run_linked_eq : ∀ (ops : List queue_op) (k : Nat) (l : List Nat),
    run_linked ops (linked_repr k l) = some (fifo_spec none ops l) := by
  intro ops
  induction ops with
  | nil => intro k l; rfl
  | cons op ops ih =>
    intro k l
    cases op with
    | enq x =>
      simp only [run_linked, enqueue_repr, ih, fifo_spec, Option.all_none, if_true, Option.map_some']
    | deq =>
      cases l with
      | nil => simp only [run_linked, dequeue_repr_nil, ih, fifo_spec, Option.map_some']
      | cons y r => simp only [run_linked, dequeue_repr_cons, ih, fifo_spec, Option.map_some']

theorem getD_set_same {α : Type} : ∀ (l : List α) (i : Nat) (a d : α), i < l.length →
    (l.set i a).getD i d = a := by
  intro l i a d h
  simp [List.getD_eq_getElem?_getD, List.getElem?_set, h]

theorem getD_set_other {α : Type} (l : List α) (i j : Nat) (a d : α) (h : i ≠ j) :
    (l.set i a).getD j d = l.getD j d := by
  simp [List.getD_eq_getElem?_getD, List.getElem?_set, h]

theorem ring_rel_create : ring_rel cq_create [] := by
  refine ⟨List.length_replicate _ _, Nat.succ_pos _, rfl, rfl, Nat.zero_le _, ?_⟩
  intro i hi
  simp at hi

theorem ring_enqueue (q : circular_queue) (l : List Nat) (x : Nat) (h : ring_rel q l)
    (hl : l.length < 1024) :
    (cq_enqueue q x).1 = 0 ∧ ring_rel (cq_enqueue q x).2 (l ++ [x]) := by
  obtain ⟨h1, h2, h3, h4, h5, h6⟩ := h
  have hc : ¬ q.count ≥ 1024 := by omega
  unfold cq_enqueue
  rw [if_neg hc]
  refine ⟨rfl, ?_, h2, ?_, ?_, ?_, ?_⟩
  · simp [h1]
  · simp only [List.length_append, List.length_singleton]; omega
  · simp only [List.length_append, List.length_singleton]; omega
  · simp only [List.length_append, List.length_singleton]; omega
  · intro i hi
    simp only [List.length_append, List.length_singleton] at hi
    by_cases hlast : i = l.length
    · subst hlast
      rw [← h3]
      simp only
      rw [getD_set_same _ _ _ _ (by omega)]
      simp [List.getD_eq_getElem?_getD]
    · have hi2 : i < l.length := by omega
      simp only
      rw [getD_set_other _ _ _ _ _ (by omega), h6 i hi2]
      simp [List.getD_eq_getElem?_getD, List.getElem?_append_left hi2]

theorem ring_enqueue_full (q : circular_queue) (l : List Nat) (x : Nat) (h : ring_rel q l)
    (hl : ¬ l.length < 1024) : cq_enqueue q x = (-1, q) := by
  obtain ⟨h1, h2, h3, h4, h5, h6⟩ := h
  unfold cq_enqueue
  rw [if_pos (by omega)]

theorem ring_dequeue_nil (q : circular_queue) (h : ring_rel q []) : cq_dequeue q = (0, q) := by
  obtain ⟨h1, h2, h3, h4, h5, h6⟩ := h
  unfold cq_dequeue
  rw [if_pos (by simpa using h4)]

theorem ring_dequeue_cons (q : circular_queue) (x : Nat) (l : List Nat)
    (h : ring_rel q (x :: l)) : (cq_dequeue q).1 = x ∧ ring_rel (cq_dequeue q).2 l := by
  obtain ⟨h1, h2, h3, h4, h5, h6⟩ := h
  simp only [List.length_cons] at h3 h4 h5 h6
  unfold cq_dequeue
  rw [if_neg (by omega)]
  refine ⟨?_, h1, ?_, ?_, ?_, ?_, ?_⟩
  · have := h6 0 (by omega)
    simpa [Nat.mod_eq_of_lt h2] using this
  · exact Nat.mod_lt _ (by norm_num)
  · simp only; omega
  · simp only; omega
  · omega
  · intro i hi
    have := h6 (i + 1) (by omega)
    simp only
    rw [show ((q.head + 1) % 1024 + i) % 1024 = (q.head + (i + 1)) % 1024 by omega, this]
    simp [List.getD_eq_getElem?_getD]

theorem run_ring_eq : ∀ (ops : List queue_op) (q : circular_queue) (l : List Nat),
    ring_rel q l → run_ring ops q = fifo_spec (some 1024) ops l := by
  intro ops
  induction ops with
  | nil => intro q l _; rfl
  | cons op ops ih =>
    intro q l h
    cases op with
    | enq x =>
      by_cases hl : l.length < 1024
      · obtain ⟨e1, e2⟩ := ring_enqueue q l x h hl
        simp only [run_ring, fifo_spec, Option.all_some, decide_eq_true_eq, if_pos hl, e1,
          ih _ _ e2]
      · have e := ring_enqueue_full q l x h hl
        simp only [run_ring, fifo_spec, Option.all_some, decide_eq_true_eq, if_neg hl, e,
          ih _ _ h]
    | deq =>
      cases l with
      | nil =>
        have e := ring_dequeue_nil q h
        simp only [run_ring, fifo_spec, e, ih _ _ h]
      | cons y r =>
        obtain ⟨e1, e2⟩ := ring_dequeue_cons q y r h
        simp only [run_ring, fifo_spec, e1, ih _ _ e2]

theorem fifo_spec_order (capacity : Option Nat) : ∀ (ops : List queue_op) (contents : List Nat),
    (∀ x ∈ contents, x ≠ 0) → (∀ x, queue_op.enq x ∈ ops → x ≠ 0) →
    ∃ rest, contents ++ stored_of ops (fifo_spec capacity ops contents)
      = taken_of (fifo_spec capacity ops contents) ++ rest := by
  intro ops
  induction ops with
  | nil => intro contents _ _; exact ⟨contents, by simp [fifo_spec, stored_of, taken_of]⟩
  | cons op ops ih =>
    intro contents hc ho
    have ho2 : ∀ x, queue_op.enq x ∈ ops → x ≠ 0 := fun x hx => ho x (List.mem_cons_of_mem _ hx)
    cases op with
    | enq x =>
      have hx : x ≠ 0 := ho x (List.mem_cons_self _ _)
      by_cases hl : capacity.all (fun c => decide (contents.length < c)) = true
      · obtain ⟨rest, hr⟩ := ih (contents ++ [x]) (by
          intro z hz
          rcases List.mem_append.1 hz with hz | hz
          · exact hc z hz
          · simp at hz; omega) ho2
        refine ⟨rest, ?_⟩
        simp only [fifo_spec, if_pos hl, stored_of, taken_of, if_true]
        rw [← hr]; simp
      · obtain ⟨rest, hr⟩ := ih contents hc ho2
        refine ⟨rest, ?_⟩
        simp only [fifo_spec, if_neg hl, stored_of, taken_of]
        rw [if_neg (by decide), hr]
    | deq =>
      cases contents with
      | nil =>
        obtain ⟨rest, hr⟩ := ih [] hc ho2
        refine ⟨rest, ?_⟩
        simp only [fifo_spec, stored_of, taken_of, if_true]
        exact hr
      | cons y r =>
        have hy : y ≠ 0 := hc y (List.mem_cons_self _ _)
        obtain ⟨rest, hr⟩ := ih r (fun z hz => hc z (List.mem_cons_of_mem _ hz)) ho2
        refine ⟨rest, ?_⟩
        simp only [fifo_spec, stored_of, taken_of, if_neg hy, List.cons_append]
        rw [hr]

/-- C18. For every sequence of enqueues of descriptor pointers that are not null and of dequeues,
the linked queue of tp.c and the ring queue of tp_optimized.c, from the state `tp_create` leaves
them in, return at every call what a first-in first-out queue returns: a dequeue gives the
oldest descriptor held and NULL exactly when none is held, an enqueue on the ring is refused
with -1 exactly when 1024 descriptors are held; and the descriptors the dequeues return are, in
order, the first of the descriptors the enqueues stored. -/
theorem accept_queues_fifo (ops : List queue_op) (h : ∀ x, queue_op.enq x ∈ ops → x ≠ 0) :
    run_linked ops tp_create = some (fifo_spec none ops []) ∧
    run_ring ops cq_create = fifo_spec (some 1024) ops [] ∧
    taken_of (fifo_spec none ops []) <+: stored_of ops (fifo_spec none ops []) ∧
    taken_of (run_ring ops cq_create) <+: stored_of ops (run_ring ops cq_create) := by
  have e2 := run_ring_eq ops cq_create [] ring_rel_create
  refine ⟨run_linked_eq ops 0 [], e2, ?_, ?_⟩
  · obtain ⟨rest, hr⟩ := fifo_spec_order none ops [] (by simp) h
    exact ⟨rest, by simpa using hr.symm⟩
  · rw [e2]
    obtain ⟨rest, hr⟩ := fifo_spec_order (some 1024) ops [] (by simp) h
    exact ⟨rest, by simpa using hr.symm⟩

theorem accept_queues_fifo_witness :
    run_linked [queue_op.enq 5, queue_op.enq 6, queue_op.deq, queue_op.deq, queue_op.deq,
        queue_op.enq 7, queue_op.deq] tp_create
      = some [queue_event.stored 0, queue_event.stored 0, queue_event.taken 5, queue_event.taken 6,
          queue_event.taken 0, queue_event.stored 0, queue_event.taken 7] ∧
    run_ring [queue_op.enq 5, queue_op.enq 6, queue_op.deq, queue_op.deq, queue_op.deq,
        queue_op.enq 7, queue_op.deq] cq_create
      = [queue_event.stored 0, queue_event.stored 0, queue_event.taken 5, queue_event.taken 6,
          queue_event.taken 0, queue_event.stored 0, queue_event.taken 7] :=
  have h := accept_queues_fifo [queue_op.enq 5, queue_op.enq 6, queue_op.deq, queue_op.deq,
    queue_op.deq, queue_op.enq 7, queue_op.deq] (by intro x hx; simp at hx; omega)
  ⟨h.1, h.2.1⟩

theorem dict19_at (q : Nat) (hq : q < 256) :
    dict_at dict19 q = if q = 0 then ⟨0, [0]⟩ else ⟨q, 1 :: byte_bits q⟩ := by
  unfold dict_at dict19
  rw [List.getD_eq_getElem _ _ (by simpa using hq)]
  simp

/-- The dictionary `dict19` is a valid dictionary. -/
theorem dict19_valid : valid_dict dict19 := by
  refine ⟨?_, ?_, ?_⟩
  · intro q hq
    rw [dict19_at q hq]
    by_cases h : q = 0
    · simp [h]
    · simp [h]
  · intro q hq c hc
    rw [dict19_at q hq] at hc
    by_cases h : q = 0
    · simp [h] at hc; omega
    · simp only [h, if_false, List.mem_cons] at hc
      rcases hc with rfl | hc
      · omega
      · exact byte_bits_le q hq c hc
  · intro q hq r hr hne hp
    rw [dict19_at q hq, dict19_at r hr] at hp
    by_cases h1 : q = 0 <;> by_cases h2 : r = 0
    · omega
    · simp [h1, h2] at hp
    · simp only [h1, h2, if_false, if_true] at hp
      have := hp.length_le
      simp [byte_bits_length] at this
    · simp only [h1, h2, if_false] at hp
      have heq : (1 :: byte_bits q) = 1 :: byte_bits r :=
        List.IsPrefix.eq_of_length hp (by simp [byte_bits_length])
      apply hne
      have h3 : byte_bits q = byte_bits r := by simpa using heq
      rw [← byte_bits_inj q hq, ← byte_bits_inj r hr, h3]

theorem bits_val_lt (l : List Bool) : bits_val l < 2 ^ l.length := by
  induction l using List.reverseRecOn with
  | nil => simp [bits_val]
  | append_singleton l b ih =>
    rw [bits_val_append, List.length_append, List.length_singleton, pow_succ]
    cases b <;> simp <;> omega

theorem or_high_bit : ∀ n < 8, ∀ m < 256, m < 2 ^ n →
    ((m * 2 ^ (8 - n)) ||| (1 <<< (7 - n))) % 256 = (2 * m + 1) * 2 ^ (7 - n) := by
  decide

theorem compress_optimized_bit_rel (s : compress_optimized_state) (c : Nat) (hc : c ≤ 1)
    (done : List Nat) (pend : List Bool) (h : optimized_rel s done pend) :
    optimized_rel (compress_optimized_bit s c) (abs_step (done, pend) (decide (c ≠ 0))).1
      (abs_step (done, pend) (decide (c ≠ 0))).2 := by
  obtain ⟨hlen, hrep, hcount, hcur⟩ := h
  have hv := bits_val_lt pend
  have hv2 : bits_val pend < 256 :=
    lt_of_lt_of_le hv (by
      calc 2 ^ pend.length ≤ 2 ^ 8 := Nat.pow_le_pow_right (by norm_num) (by omega)
        _ = 256 := by norm_num)
  have hor := or_high_bit pend.length hlen (bits_val pend) hv2 hv
  have hnew : (if c = 1 then (s.current_byte ||| (1 <<< (7 - s.total_count % 8))) % 256
      else s.current_byte)
      = (2 * bits_val pend + (if decide (c ≠ 0) then 1 else 0)) * 2 ^ (7 - pend.length) := by
    rw [hcount, hcur]
    by_cases h1 : c = 1
    · rw [if_pos h1]
      unfold byte_of_bits
      rw [hor]
      simp [h1]
    · have h0 : c = 0 := by omega
      rw [if_neg h1]
      unfold byte_of_bits
      simp only [h0, ne_eq, not_true_eq_false, decide_False, Bool.false_eq_true, if_false,
        Nat.add_zero]
      rw [show 8 - pend.length = (7 - pend.length) + 1 by omega, pow_succ]
      ring
  by_cases h7 : pend.length = 7
  · have hm : (s.total_count + 1) % 8 = 0 := by omega
    simp only [compress_optimized_bit, hm, if_true, abs_step, h7]
    refine ⟨by simp, ?_, by simpa using hm, by simp [byte_of_bits, bits_val]⟩
    simp only at hnew
    rw [hnew, hrep, bits_val_append, h7]
    simp
  · have hm : (s.total_count + 1) % 8 ≠ 0 := by omega
    simp only [compress_optimized_bit, hm, if_false, abs_step, h7]
    refine ⟨by simp; omega, hrep, by simp; omega, ?_⟩
    simp only at hnew
    rw [hnew]
    unfold byte_of_bits
    rw [bits_val_append, List.length_append, List.length_singleton]
    rw [show 8 - (pend.length + 1) = 7 - pend.length by omega]

theorem compress_optimized_fold_rel (cells : List Nat) (hc : ∀ c ∈ cells, c ≤ 1) :
    ∀ (s : compress_optimized_state) (done : List Nat) (pend : List Bool),
      optimized_rel s done pend →
      optimized_rel (cells.foldl compress_optimized_bit s)
        ((cells.map (fun c => decide (c ≠ 0))).foldl abs_step (done, pend)).1
        ((cells.map (fun c => decide (c ≠ 0))).foldl abs_step (done, pend)).2 := by
  induction cells with
  | nil => intro s done pend h; exact h
  | cons c t ih =>
    intro s done pend h
    simp only [List.foldl_cons, List.map_cons]
    exact ih (fun x hx => hc x (List.mem_cons_of_mem _ hx)) _ _ _
      (compress_optimized_bit_rel s c (hc c (List.mem_cons_self _ _)) done pend h)

theorem compress_optimized_fold_count (cells : List Nat) :
    ∀ s : compress_optimized_state,
      (cells.foldl compress_optimized_bit s).total_count = s.total_count + cells.length := by
  induction cells with
  | nil => intro s; rfl
  | cons c t ih =>
    intro s
    simp only [List.foldl_cons, List.length_cons, ih]
    simp only [compress_optimized_bit]
    split <;> simp <;> omega

theorem foldl_codes_optimized (dict : List m_node) (input : List Nat) :
    ∀ s : compress_optimized_state,
      input.foldl (fun s b => (dict_at dict b).code.foldl compress_optimized_bit s) s
        = (input.flatMap (fun b => (dict_at dict b).code)).foldl compress_optimized_bit s := by
  induction input with
  | nil => intro s; rfl
  | cons b t ih =>
    intro s
    simp only [List.foldl_cons, List.flatMap_cons, List.foldl_append, ih]

theorem cells_le_one (dict : List m_node) (hd : valid_dict dict) (input : List Nat)
    (hb : ∀ b ∈ input, b < 256) :
    ∀ c ∈ input.flatMap (fun b => (dict_at dict b).code), c ≤ 1 := by
  intro c hc
  rw [List.mem_flatMap] at hc
  obtain ⟨b, hb1, hb2⟩ := hc
  exact hd.2.1 b (hb b hb1) c hb2

/-- When the codes of the payload fill whole bytes, `compress_optimized` outputs the packed
codes and nothing else. -/
theorem compress_optimized_aligned (dict : List m_node) (hd : valid_dict dict) (input : List Nat)
    (hne : input ≠ []) (hb : ∀ b ∈ input, b < 256)
    (h8 : (code_bits input dict).length % 8 = 0) :
    compress_optimized input dict = pack_bits (code_bits input dict) := by
  have hrel := compress_optimized_fold_rel (input.flatMap (fun b => (dict_at dict b).code))
    (cells_le_one dict hd input hb) ⟨[], 0, 0⟩ [] []
    ⟨by simp, rfl, rfl, by simp [byte_of_bits, bits_val]⟩
  have hcount := compress_optimized_fold_count (input.flatMap (fun b => (dict_at dict b).code))
    ⟨[], 0, 0⟩
  rw [← code_bits_eq] at hrel
  obtain ⟨_, hpack⟩ := abs_run_pack (code_bits input dict) [] [] (by simp)
  obtain ⟨r1, r2, r3, r4⟩ := hrel
  have hlen : (code_bits input dict).length
      = (input.flatMap (fun b => (dict_at dict b).code)).length := by
    rw [code_bits_eq, List.length_map]
  have hl0 : input.length ≠ 0 := fun h => hne (List.length_eq_zero.mp h)
  unfold compress_optimized
  rw [if_neg hl0, foldl_codes_optimized]
  simp only
  rw [hcount] at r3
  simp only [Nat.zero_add] at r3 hcount
  rw [hcount, ← hlen, h8]
  simp only [ne_eq, not_true_eq_false, if_false]
  rw [← hlen, h8] at r3
  have hp : ((code_bits input dict).foldl abs_step ([], [])).2 = [] :=
    List.length_eq_zero.mp r3.symm
  rw [hp] at hpack
  simp only [List.nil_append, if_true, List.append_nil] at hpack
  rw [r2, hpack]

theorem byte_of_bits_lt (l : List Bool) (h : l.length ≤ 8) : byte_of_bits l < 256 := by
  have hv := bits_val_lt l
  unfold byte_of_bits
  calc bits_val l * 2 ^ (8 - l.length) < 2 ^ l.length * 2 ^ (8 - l.length) :=
        Nat.mul_lt_mul_of_pos_right hv (Nat.pow_pos (by norm_num))
    _ = 2 ^ (l.length + (8 - l.length)) := (pow_add 2 _ _).symm
    _ = 256 := by rw [show l.length + (8 - l.length) = 8 by omega]; norm_num

theorem pack_bits_aux_lt : ∀ (f : Nat) (l : List Bool), ∀ b ∈ pack_bits_aux f l, b < 256 := by
  intro f
  induction f with
  | zero => intro l b hb; simp [pack_bits_aux] at hb
  | succ f ih =>
    intro l b hb
    simp only [pack_bits_aux] at hb
    by_cases hl : l = []
    · simp [hl] at hb
    · rw [if_neg hl, List.mem_cons] at hb
      rcases hb with rfl | hb
      · exact byte_of_bits_lt _ (by rw [List.length_take]; omega)
      · exact ih _ b hb

theorem pack_bits_lt (l : List Bool) : ∀ b ∈ pack_bits l, b < 256 :=
  pack_bits_aux_lt l.length l

theorem bit_shift_eq : ∀ x < 256, [8, 7, 6, 5, 4, 3, 2, 1].map (bit_shift x) = byte_bits x := by
  decide

theorem flatMap_bit_shift (l : List Nat) (h : ∀ b ∈ l, b < 256) :
    l.flatMap (fun x => [8, 7, 6, 5, 4, 3, 2, 1].map (bit_shift x)) = l.flatMap byte_bits := by
  induction l with
  | nil => rfl
  | cons a t ih =>
    simp only [List.flatMap_cons]
    rw [bit_shift_eq a (h a (List.mem_cons_self _ _)),
      ih (fun b hb => h b (List.mem_cons_of_mem _ hb))]

theorem decompress_optimized_loop_code (dict : List m_node) (hd : valid_dict dict) (v : Nat)
    (hv : v < 256) : ∀ (x u rest rep : List Nat), x ≠ [] → u ++ x = (dict_at dict v).code →
      decompress_optimized_loop dict (x ++ rest) u rep
        = decompress_optimized_loop dict rest [] (rep ++ [v]) := by
  intro x
  induction x with
  | nil => intro u rest rep h; exact absurd rfl h
  | cons b t ih =>
    intro u rest rep _ hux
    by_cases ht : t = []
    · subst ht
      have hf : find_code dict (u ++ [b]) = some v := by
        rw [hux]; exact find_code_full dict hd v hv
      simp only [List.cons_append, List.nil_append, decompress_optimized_loop, hf,
        List.append_eq]
    · have hf : find_code dict (u ++ [b]) = none :=
        find_code_proper dict hd v hv (u ++ [b]) t ht (by simpa using hux)
      simp only [List.cons_append, decompress_optimized_loop, hf, List.append_eq]
      exact ih (u ++ [b]) rest rep ht (by simpa using hux)

theorem decompress_optimized_loop_codes (dict : List m_node) (hd : valid_dict dict) :
    ∀ (input rest rep : List Nat), (∀ b ∈ input, b < 256) →
      decompress_optimized_loop dict (input.flatMap (fun b => (dict_at dict b).code) ++ rest)
        [] rep = decompress_optimized_loop dict rest [] (rep ++ input) := by
  intro input
  induction input with
  | nil => intro rest rep _; simp
  | cons v t ih =>
    intro rest rep hb
    have hv : v < 256 := hb v (List.mem_cons_self _ _)
    have hne : (dict_at dict v).code ≠ [] := by
      intro h0
      obtain ⟨_, _, hpf⟩ := hd
      by_cases h1 : v = 0
      · exact hpf v hv 1 (by norm_num) (by omega) (by rw [h0]; exact List.nil_prefix)
      · exact hpf v hv 0 (by norm_num) h1 (by rw [h0]; exact List.nil_prefix)
    simp only [List.flatMap_cons, List.append_assoc]
    rw [decompress_optimized_loop_code dict hd v hv _ [] _ rep hne rfl,
      ih rest (rep ++ [v]) (fun b hb2 => hb b (List.mem_cons_of_mem _ hb2))]
    simp

/-- C19. With the prefix code `dict19`, in which the byte 0 has the one-bit code `0`, the payload
of the one byte 0 is compressed by `compress_optimized` to the byte `07` (the count 7 of padding
bits OR-ed into the byte) and `decompress_optimized` gives five bytes 0 back for it, not the
payload: it decodes the padding as data. For every valid dictionary and every payload whose codes
fill whole bytes, as with the eight-bit codes `create_map_optimized` falls back to,
`compress_optimized` followed by `decompress_optimized` gives the payload back. -/
theorem optimized_roundtrip :
    (valid_dict dict19 ∧ compress_optimized [0] dict19 = [7] ∧
      decompress_optimized (compress_optimized [0] dict19) dict19 = [0, 0, 0, 0, 0]) ∧
    (∀ (dict : List m_node) (P : List Nat), valid_dict dict → P ≠ [] → (∀ b ∈ P, b < 256) →
      (code_bits P dict).length % 8 = 0 →
      decompress_optimized (compress_optimized P dict) dict = P) := by
  refine ⟨⟨dict19_valid, by decide, by decide⟩, ?_⟩
  intro dict P hd hne hb h8
  rw [compress_optimized_aligned dict hd P hne hb h8]
  have hcells := cells_of_bits dict hd P hb
  have hbits : (pack_bits (code_bits P dict)).flatMap byte_bits
      = P.flatMap (fun b => (dict_at dict b).code) ++ [] := by
    rw [pack_bits_bits, hcells, h8]
    rfl
  have hpos : (code_bits P dict).length ≠ 0 := by
    cases P with
    | nil => exact absurd rfl hne
    | cons v t =>
      have hv : v < 256 := hb v (List.mem_cons_self _ _)
      have hc : (dict_at dict v).code ≠ [] := by
        intro h0
        obtain ⟨_, _, hpf⟩ := hd
        by_cases h1 : v = 0
        · exact hpf v hv 1 (by norm_num) (by omega) (by rw [h0]; exact List.nil_prefix)
        · exact hpf v hv 0 (by norm_num) h1 (by rw [h0]; exact List.nil_prefix)
      have := List.length_pos.mpr hc
      simp only [code_bits, List.flatMap_cons, List.length_append, List.length_map]
      omega
  have hlen : (pack_bits (code_bits P dict)).length ≠ 0 := by
    rw [pack_bits_length]; omega
  unfold decompress_optimized
  rw [if_neg hlen, flatMap_bit_shift _ (pack_bits_lt _), hbits,
    decompress_optimized_loop_codes dict hd P [] [] hb]
  simp [decompress_optimized_loop]

theorem optimized_roundtrip_witness :
    valid_dict dict8 ∧ [65, 66, 67] ≠ ([] : List Nat) ∧ (∀ b ∈ [65, 66, 67], b < 256) ∧
    (code_bits [65, 66, 67] dict8).length % 8 = 0 ∧
    decompress_optimized (compress_optimized [65, 66, 67] dict8) dict8 = [65, 66, 67] :=
  ⟨dict8_valid, by decide, by decide, by decide,
    optimized_roundtrip.2 dict8 [65, 66, 67] dict8_valid (by decide) (by decide) (by decide)⟩

/-- With `k` bits left to the count, one at least and no more than the bits at hand, the loops
of `decompress` return the decoding of exactly the next `k` bits. -/
theorem decompress_loop_take (dict : List m_node) : ∀ (bits buffer rep : List Nat) (k : Nat)
    (c : Int), 0 < k → k ≤ bits.length →
    decompress_loop dict (c + k) bits buffer rep c
      = some (rep ++ decode_spec dict (bits.take k) buffer) := by
  intro bits
  induction bits with
  | nil => intro buffer rep k c h1 h2; simp at h2; omega
  | cons b rest ih =>
    intro buffer rep k c h1 h2
    obtain ⟨k, rfl⟩ : ∃ j, k = j + 1 := ⟨k - 1, by omega⟩
    simp only [List.length_cons] at h2
    by_cases hk : k = 0
    · subst hk
      cases hf : find_code dict (buffer ++ [b]) <;>
        simp [decompress_loop, decode_spec, hf]
    · have hne : ¬ (c + 1 = c + ((k + 1 : Nat) : Int)) := by push_cast; omega
      have e : c + ((k + 1 : Nat) : Int) = (c + 1) + (k : Int) := by push_cast; ring
      cases hf : find_code dict (buffer ++ [b]) with
      | none =>
        simp only [decompress_loop, hf, hne, if_false, List.take_succ_cons, decode_spec]
        rw [e, ih _ _ k (c + 1) (by omega) (by omega)]
      | some byte =>
        simp only [decompress_loop, hf, hne, if_false, List.take_succ_cons, decode_spec]
        rw [e, ih _ _ k (c + 1) (by omega) (by omega)]
        simp

theorem byte_bits_msb : ∀ x < 256, byte_bits x = msb_bits x := by decide

theorem flatMap_byte_bits_length (body : List Nat) :
    (body.flatMap byte_bits).length = 8 * body.length := by
  induction body with
  | nil => rfl
  | cons a t ih => simp only [List.flatMap_cons, List.length_append, byte_bits_length, ih,
      List.length_cons]; omega

/-- An encoded input of two bytes or more whose last byte is at most 7 is replaced by the
decoding of its significant bits, which are taken from the bytes before the last. -/
theorem decompress_body (dict : List m_node) (body : List Nat) (pad : Nat) (hne : body ≠ [])
    (hp : pad ≤ 7) :
    decompress (body ++ [pad]) dict
      = some (decode_spec dict ((body.flatMap byte_bits).take (8 * body.length - pad)) []) := by
  have hl : 0 < body.length := List.length_pos.mpr hne
  have hlen := flatMap_byte_bits_length body
  have hlast : (body ++ [pad]).getLast? = some pad := by simp
  have htot : (((body ++ [pad]).length : Int) - 1) * 8 - (pad : Int)
      = 0 + ((8 * body.length - pad : Nat) : Int) := by
    simp only [List.length_append, List.length_singleton]
    push_cast
    omega
  unfold decompress
  simp only [hlast]
  rw [htot, decompress_loop_take dict _ [] [] (8 * body.length - pad) 0 (by omega) (by
    simp only [List.flatMap_append, List.length_append, hlen]; omega)]
  simp only [List.nil_append, List.flatMap_append]
  rw [List.take_append_of_le_length (by rw [hlen]; omega)]

/-- C21. The encoded input of the one byte 00 (zero significant bits) is left by `decompress` as
the byte 00, of length 1, and not replaced by the empty payload: the count `curr_bits` is 1 at
its first test against `total_bits = 0`. For every encoded input of `n >= 2` bytes whose last byte
`pad` is at most 7, `decompress` replaces the message by the decoding of exactly the first
`8 (n - 1) - pad` bits of the bytes before the last, each byte read from its most significant
bit. -/
theorem decompress_significant_bits :
    (∀ dict : List m_node, decompress [0] dict = some [0]) ∧
    (∀ (dict : List m_node) (body : List Nat) (pad : Nat), body ≠ [] → pad ≤ 7 →
      decompress (body ++ [pad]) dict
        = some (decode_spec dict ((body.flatMap byte_bits).take (8 * body.length - pad)) []) ∧
      8 * body.length - pad ≤ (body.flatMap byte_bits).length ∧
      ((∀ x ∈ body, x < 256) → body.flatMap byte_bits = body.flatMap msb_bits)) := by
  refine ⟨decompress_pad_only, ?_⟩
  intro dict body pad hne hp
  refine ⟨decompress_body dict body pad hne hp, by rw [flatMap_byte_bits_length]; omega, ?_⟩
  intro hx
  induction body with
  | nil => rfl
  | cons a t ih =>
    simp only [List.flatMap_cons]
    rw [byte_bits_msb a (hx a (List.mem_cons_self _ _))]
    by_cases ht : t = []
    · subst ht; rfl
    · rw [ih ht (fun x h => hx x (List.mem_cons_of_mem _ h))]

theorem decompress_significant_bits_witness :
    [0x41, 0x42] ≠ ([] : List Nat) ∧ 4 ≤ 7 ∧
    decompress ([0x41, 0x42] ++ [4]) dict8 = some [0x41] :=
  ⟨by decide, by decide,
    (decompress_significant_bits.2 dict8 [0x41, 0x42] 4 (by decide) (by decide)).1.trans
      (by decide)⟩

/-- C27. For every payload that is not empty and every valid dictionary (entry `q` carries the
byte `q`, its code is a sequence of bits, and no code is a prefix of another, so that every code
has a bit at least), `compress` followed by `decompress` gives the payload back, whatever the
fresh bytes of `realloc` held: the count of significant bits that `decompress` computes from the
length and the last byte is the number of code bits `compress` wrote, and the loops of
`decompress` return at the last bit of the last code, whatever bits follow it. -/
theorem roundtrip_bit_count (junk : Nat → Nat) (dict : List m_node) (P : List Nat)
    (hd : valid_dict dict) (hne : P ≠ []) (hb : ∀ b ∈ P, b < 256) :
    decompress (compress_with junk P dict) dict = some P ∧
    (compress_with junk P dict).getLast?
      = some ((8 - (P.flatMap (fun b => (dict_at dict b).code)).length % 8) % 8) ∧
    8 * ((compress_with junk P dict).length - 1)
        - (8 - (P.flatMap (fun b => (dict_at dict b).code)).length % 8) % 8
      = (P.flatMap (fun b => (dict_at dict b).code)).length ∧
    (∀ tail : List Nat,
      decompress_loop dict ((P.flatMap (fun b => (dict_at dict b).code)).length : Int)
        (P.flatMap (fun b => (dict_at dict b).code) ++ tail) [] [] 0 = some P) := by
  have hlenc : (code_bits P dict).length
      = (P.flatMap (fun b => (dict_at dict b).code)).length := by
    rw [← cells_of_bits dict hd P hb, List.length_map]
  have hs := compress_with_eq_spec junk P dict
  refine ⟨?_, ?_, ?_, ?_⟩
  · rw [hs]; exact decompress_encode_spec dict hd P hne hb
  · rw [hs, ← hlenc]; simp [encode_spec]
  · rw [hs, ← hlenc]
    simp only [encode_spec, List.length_append, pack_bits_length, List.length_singleton]
    omega
  · intro tail
    have := decompress_loop_codes dict hd
      ((P.flatMap (fun b => (dict_at dict b).code)).length : Int) P tail [] 0 hne hb (by simp)
    simpa using this

theorem roundtrip_bit_count_witness :
    decompress (compress_with (fun _ => 255) [104, 105, 33] dict19) dict19
      = some [104, 105, 33] :=
  (roundtrip_bit_count (fun _ => 255) dict19 [104, 105, 33] dict19_valid (by decide)
    (by decide)).1

/-- The call of `decompress` on an empty body reads outside the buffer. -/
theorem decompressed_empty (main : header) (rest : List Nat) (dict : List m_node) :
    decompressed ⟨main, []⟩ rest dict = description.fault := by
  simp [decompressed, decompress]

/-- C29. A frame with `compressed = 1` and length 0, of type 2, 4 or 6 or an echo that asks for
no compressed reply, does reach `decompress`: `get_description` has no test of the length
before the call, and `decompress` reads the byte at index `length - 1` of a buffer that holds
none. For a frame with a body of one byte or more that `get_description` hands to `decompress`,
the call returns a message. -/
theorem empty_compressed_body :
    (∀ (dict : List m_node) (h : Nat) (rest : List Nat), h < 256 →
      (h / 16 = 0 ∨ h / 16 = 2 ∨ h / 16 = 4 ∨ h / 16 = 6) → h / 8 % 2 = 1 →
      ¬ (h / 16 = 0 ∧ h / 4 % 2 = 1) →
      get_description (h :: (be_bytes 8 0 ++ [] ++ rest)) dict = description.fault) ∧
    (∀ (dict : List m_node) (h : Nat) (len body rest : List Nat), h < 256 →
      (h / 16 = 0 ∨ h / 16 = 2 ∨ h / 16 = 4 ∨ h / 16 = 6) → len.length = 8 →
      (∀ b ∈ len, b < 256) → body.length = be_val len → body ≠ [] →
      ∃ m, get_description (h :: (len ++ body ++ rest)) dict = description.full m rest) := by
  constructor
  · intro dict h rest hh ht hc hr
    have h1 := (get_description_frame dict h (be_bytes 8 0) [] rest hh ht (be_bytes_length 8 0)
      (be_bytes_lt 8 0) (by decide)).1
    rw [h1, decompress_description_full, if_pos ⟨hc, hr⟩]
    exact decompressed_empty _ rest dict
  · intro dict h len body rest hh ht hlen hb hbody hne
    have h1 := (get_description_frame dict h len body rest hh ht hlen hb hbody).1
    rw [h1, decompress_description_full]
    split
    · obtain ⟨b, hb2⟩ := decompress_isSome body dict hne
      exact ⟨⟨⟨h / 16, h / 8 % 2, h / 4 % 2⟩, b⟩, by simp [decompressed, hb2]⟩
    · exact ⟨_, rfl⟩

theorem empty_compressed_body_witness :
    get_description [0x28, 0, 0, 0, 0, 0, 0, 0, 0] dict8 = description.fault ∧
    client_handling env8 false [0x28, 0, 0, 0, 0, 0, 0, 0, 0] = none :=
  ⟨empty_compressed_body.1 dict8 0x28 [] (by decide) (by decide) (by decide) (by decide),
    by decide⟩

theorem ring_invariant_step (q : circular_queue) (op : queue_op) (h : ring_invariant q) :
    ring_invariant (ring_step q op) := by
  obtain ⟨h1, h2, h3, h4⟩ := h
  cases op with
  | enq item =>
    simp only [ring_step, cq_enqueue]
    by_cases hc : q.count ≥ 1024
    · rw [if_pos hc]; exact ⟨h1, h2, h3, h4⟩
    · rw [if_neg hc]
      refine ⟨?_, h2, ?_, ?_⟩
      · simp only; omega
      · exact Nat.mod_lt _ (by norm_num)
      · simp only; omega
  | deq =>
    simp only [ring_step, cq_dequeue]
    by_cases hc : q.count = 0
    · rw [if_pos hc]; exact ⟨h1, h2, h3, h4⟩
    · rw [if_neg hc]
      refine ⟨?_, ?_, h3, ?_⟩
      · simp only; omega
      · exact Nat.mod_lt _ (by norm_num)
      · simp only; omega

theorem ring_invariant_run : ∀ (ops : List queue_op) (q : circular_queue), ring_invariant q →
    ring_invariant (ops.foldl ring_step q) := by
  intro ops
  induction ops with
  | nil => intro q h; exact h
  | cons op ops ih => intro q h; exact ih _ (ring_invariant_step q op h)

/-- C26. The ring queue of tp_optimized.c satisfies `count <= 1024`, `head < 1024`,
`tail < 1024` and `tail = (head + count) mod 1024` in the state `tp_create` leaves it in, and
every `cq_enqueue` and `cq_dequeue` keeps these, hence every sequence of calls; `cq_enqueue` on a
queue with `count = 1024` returns -1 and leaves the queue as it is, and `enqueue` then closes the
connection; `cq_dequeue` on a queue with `count = 0` returns NULL and leaves the queue as it
is. -/
theorem ring_queue_invariant :
    ring_invariant cq_create ∧
    (∀ (q : circular_queue) (item : Nat), ring_invariant q →
      ring_invariant (cq_enqueue q item).2 ∧ ring_invariant (cq_dequeue q).2) ∧
    (∀ ops : List queue_op, ring_invariant (ops.foldl ring_step cq_create)) ∧
    (∀ (q : circular_queue) (item : Nat), q.count = 1024 →
      cq_enqueue q item = (-1, q) ∧ enqueue_optimized item q = (q, true)) ∧
    (∀ (q : circular_queue) (item : Nat), q.count < 1024 →
      (cq_enqueue q item).1 = 0 ∧ (enqueue_optimized item q).2 = false) ∧
    (∀ q : circular_queue, q.count = 0 → cq_dequeue q = (0, q)) := by
  have h0 : ring_invariant cq_create := ⟨by decide, by decide, by decide, by decide⟩
  refine ⟨h0, ?_, fun ops => ring_invariant_run ops _ h0, ?_, ?_, ?_⟩
  · intro q item h
    exact ⟨ring_invariant_step q (queue_op.enq item) h, ring_invariant_step q queue_op.deq h⟩
  · intro q item hc
    have e : cq_enqueue q item = (-1, q) := by
      unfold cq_enqueue; rw [if_pos (by omega)]
    refine ⟨e, ?_⟩
    unfold enqueue_optimized
    rw [e]; rfl
  · intro q item hc
    have e : cq_enqueue q item
        = (0, ⟨q.items.set q.tail item, q.head, (q.tail + 1) % 1024, q.count + 1⟩) := by
      unfold cq_enqueue; rw [if_neg (by omega)]
    refine ⟨by rw [e], ?_⟩
    unfold enqueue_optimized
    rw [e]; rfl
  · intro q hc
    unfold cq_dequeue; rw [if_pos hc]

theorem ring_queue_invariant_witness :
    ring_invariant cq_create ∧ ring_invariant (cq_enqueue cq_create 5).2 ∧
    (cq_enqueue cq_create 5).2.count = 1 ∧ (cq_enqueue cq_create 5).2.tail = 1 :=
  ⟨ring_queue_invariant.1, (ring_queue_invariant.2.1 cq_create 5 ring_queue_invariant.1).1,
    rfl, rfl⟩

theorem alloc_scan_some : ∀ (blocks : List pool_block) (p : Nat) (marked : List pool_block),
    alloc_scan blocks = some (p, marked) →
    ∃ pre post, blocks = pre ++ ⟨p, 0⟩ :: post ∧ (∀ b ∈ pre, b.in_use ≠ 0) ∧
      marked = pre ++ ⟨p, 1⟩ :: post := by
  intro blocks
  induction blocks with
  | nil => intro p marked h; simp [alloc_scan] at h
  | cons c rest ih =>
    intro p marked h
    simp only [alloc_scan] at h
    by_cases hc : c.in_use = 0
    · rw [if_pos hc] at h
      simp only [Option.some.injEq, Prod.mk.injEq] at h
      obtain ⟨h1, h2⟩ := h
      refine ⟨[], rest, ?_, by simp, by rw [← h2, h1]; rfl⟩
      obtain ⟨m, u⟩ := c
      simp only at hc h1
      subst hc; subst h1; rfl
    · rw [if_neg hc] at h
      cases hs : alloc_scan rest with
      | none => rw [hs] at h; simp at h
      | some r =>
        rw [hs] at h
        simp only [Option.map_some', Option.some.injEq, Prod.mk.injEq] at h
        obtain ⟨h1, h2⟩ := h
        obtain ⟨pre, post, e1, e2, e3⟩ := ih r.1 r.2 (by rw [hs])
        refine ⟨c :: pre, post, by rw [e1, h1]; rfl, ?_, by rw [← h2, e3, h1]; rfl⟩
        intro b hb
        rcases List.mem_cons.1 hb with rfl | hb
        · exact hc
        · exact e2 b hb

theorem free_scan_marked : ∀ (pre post : List pool_block) (p u : Nat),
    (∀ b ∈ pre, b.memory ≠ p) →
    free_scan (pre ++ ⟨p, u⟩ :: post) p = some (pre ++ ⟨p, 0⟩ :: post) := by
  intro pre
  induction pre with
  | nil => intro post p u _; simp [free_scan]
  | cons c rest ih =>
    intro post p u h
    have hc : c.memory ≠ p := h c (List.mem_cons_self _ _)
    simp only [List.cons_append, free_scan, if_neg hc, List.append_eq,
      ih post p u (fun b hb => h b (List.mem_cons_of_mem _ hb)), Option.map_some']

theorem nodup_pre (pre post : List pool_block) (p u : Nat)
    (h : ((pre ++ ⟨p, u⟩ :: post).map pool_block.memory).Nodup) : ∀ b ∈ pre, b.memory ≠ p := by
  intro b hb e
  rw [List.map_append, List.map_cons, List.nodup_append] at h
  exact h.2.2 (List.mem_map_of_mem _ hb) (by rw [e]; exact List.mem_cons_self _ _)

theorem scan_roundtrip (blocks : List pool_block) (hn : (blocks.map pool_block.memory).Nodup)
    (p : Nat) (marked : List pool_block) (h : alloc_scan blocks = some (p, marked)) :
    ∃ pre post, blocks = pre ++ ⟨p, 0⟩ :: post ∧ (∀ b ∈ pre, b.in_use ≠ 0) ∧
      marked = pre ++ ⟨p, 1⟩ :: post ∧ free_scan marked p = some blocks ∧
      (∀ (p2 : Nat) (m2 : List pool_block), alloc_scan marked = some (p2, m2) → p2 ≠ p) := by
  obtain ⟨pre, post, e1, e2, e3⟩ := alloc_scan_some blocks p marked h
  subst e1
  have hpre := nodup_pre pre post p 0 hn
  refine ⟨pre, post, rfl, e2, e3, by rw [e3]; exact free_scan_marked pre post p 1 hpre, ?_⟩
  intro p2 m2 h2 e
  subst e
  obtain ⟨pre2, post2, f1, _, _⟩ := alloc_scan_some marked p2 m2 h2
  have hmem : (⟨p2, 0⟩ : pool_block) ∈ marked := by rw [f1]; simp
  rw [e3, List.mem_append, List.mem_cons] at hmem
  rcases hmem with hm | hm | hm
  · exact e2 _ hm rfl
  · simp at hm
  · rw [List.map_append, List.map_cons, List.nodup_append, List.nodup_cons] at hn
    exact hn.2.1.1 (List.mem_map_of_mem pool_block.memory hm)

theorem size_class_eq (size : Nat) :
    (size_class size = 0 ↔ size ≤ 32) ∧
    (size_class size = 1 ↔ ¬ size ≤ 32 ∧ size ≤ 256) ∧
    (size_class size = 2 ↔ ¬ size ≤ 32 ∧ ¬ size ≤ 256 ∧ size ≤ 1024) := by
  unfold size_class
  split_ifs <;> simp <;> omega

/-- C30. In a pool whose blocks have memory at addresses that differ, when `mp_alloc` returns
the memory `p` of a block of the pool, that block is the first of its class that was not in
use; after the call it is marked in use and every other block of the three classes is as it was.
A second `mp_alloc` of the same class on the pool so left does not return `p`. `mp_free` with `p`
and the same size marks that block free again and hands nothing to `free`, so that the blocks of
the pool are as before the `mp_alloc`. -/
theorem pool_alloc_free (pool pool2 : memory_pool) (size p : Nat) (hw : pool_wf pool)
    (ha : mp_alloc pool size = (allocation.pooled p, pool2)) :
    ∃ pre post, size_class size < 3 ∧
      (pool_blocks pool).getD (size_class size) [] = pre ++ ⟨p, 0⟩ :: post ∧
      (∀ b ∈ pre, b.in_use ≠ 0) ∧
      pool_blocks pool2 = (pool_blocks pool).set (size_class size) (pre ++ ⟨p, 1⟩ :: post) ∧
      pool_blocks (mp_free pool2 p size).1 = pool_blocks pool ∧
      (mp_free pool2 p size).2 = false ∧
      (∀ (size2 p2 : Nat) (pool3 : memory_pool), size_class size2 = size_class size →
        mp_alloc pool2 size2 = (allocation.pooled p2, pool3) → p2 ≠ p) := by
  have hs := hw pool.small_blocks (by simp [pool_blocks])
  have hm := hw pool.medium_blocks (by simp [pool_blocks])
  have hl := hw pool.large_blocks (by simp [pool_blocks])
  unfold mp_alloc at ha
  by_cases h1 : size ≤ 32
  · rw [if_pos h1] at ha
    cases hsc : alloc_scan pool.small_blocks with
    | none => rw [hsc] at ha; simp at ha
    | some r =>
      rw [hsc] at ha
      simp only [Prod.mk.injEq, allocation.pooled.injEq] at ha
      obtain ⟨hp, h2⟩ := ha
      obtain ⟨pre, post, e1, e0, e2, e3, e4⟩ :=
        scan_roundtrip pool.small_blocks hs.1 r.1 r.2 hsc
      rw [hp] at e1 e2 e3 e4
      have hp0 : p ≠ 0 := hs.2 ⟨p, 0⟩ (by rw [e1]; simp)
      have hc : size_class size = 0 := by simp [size_class, h1]
      refine ⟨pre, post, by omega, by rw [hc, ← e1]; rfl, e0, ?_, ?_, ?_, ?_⟩
      · rw [hc, ← h2, ← e2]; rfl
      · rw [← h2]
        simp only [mp_free, if_neg hp0, if_pos h1, e3]
        rfl
      · rw [← h2]
        simp only [mp_free, if_neg hp0, if_pos h1, e3]
      · intro size2 p2 pool3 hc2 ha2
        have h12 : size2 ≤ 32 := (size_class_eq size2).1.1 (hc2.trans hc)
        rw [← h2] at ha2
        simp only [mp_alloc, if_pos h12] at ha2
        cases hsc2 : alloc_scan r.2 with
        | none => rw [hsc2] at ha2; simp at ha2
        | some r2 =>
          rw [hsc2] at ha2
          simp only [Prod.mk.injEq, allocation.pooled.injEq] at ha2
          rw [← ha2.1]
          exact e4 r2.1 r2.2 hsc2
  · rw [if_neg h1] at ha
    by_cases h3 : size ≤ 256
    · rw [if_pos h3] at ha
      cases hsc : alloc_scan pool.medium_blocks with
      | none => rw [hsc] at ha; simp at ha
      | some r =>
        rw [hsc] at ha
        simp only [Prod.mk.injEq, allocation.pooled.injEq] at ha
        obtain ⟨hp, h2⟩ := ha
        obtain ⟨pre, post, e1, e0, e2, e3, e4⟩ :=
          scan_roundtrip pool.medium_blocks hm.1 r.1 r.2 hsc
        rw [hp] at e1 e2 e3 e4
        have hp0 : p ≠ 0 := hm.2 ⟨p, 0⟩ (by rw [e1]; simp)
        have hc : size_class size = 1 := by simp [size_class, h1, h3]
        refine ⟨pre, post, by omega, by rw [hc, ← e1]; rfl, e0, ?_, ?_, ?_, ?_⟩
        · rw [hc, ← h2, ← e2]; rfl
        · rw [← h2]
          simp only [mp_free, if_neg hp0, if_neg h1, if_pos h3, e3]
          rfl
        · rw [← h2]
          simp only [mp_free, if_neg hp0, if_neg h1, if_pos h3, e3]
        · intro size2 p2 pool3 hc2 ha2
          have h12 : ¬ size2 ≤ 32 ∧ size2 ≤ 256 := (size_class_eq size2).2.1.1 (hc2.trans hc)
          rw [← h2] at ha2
          simp only [mp_alloc, if_neg h12.1, if_pos h12.2] at ha2
          cases hsc2 : alloc_scan r.2 with
          | none => rw [hsc2] at ha2; simp at ha2
          | some r2 =>
            rw [hsc2] at ha2
            simp only [Prod.mk.injEq, allocation.pooled.injEq] at ha2
            rw [← ha2.1]
            exact e4 r2.1 r2.2 hsc2
    · rw [if_neg h3] at ha
      by_cases h4 : size ≤ 1024
      · rw [if_pos h4] at ha
        cases hsc : alloc_scan pool.large_blocks with
        | none => rw [hsc] at ha; simp at ha
        | some r =>
          rw [hsc] at ha
          simp only [Prod.mk.injEq, allocation.pooled.injEq] at ha
          obtain ⟨hp, h2⟩ := ha
          obtain ⟨pre, post, e1, e0, e2, e3, e4⟩ :=
            scan_roundtrip pool.large_blocks hl.1 r.1 r.2 hsc
          rw [hp] at e1 e2 e3 e4
          have hp0 : p ≠ 0 := hl.2 ⟨p, 0⟩ (by rw [e1]; simp)
          have hc : size_class size = 2 := by simp [size_class, h1, h3, h4]
          refine ⟨pre, post, by omega, by rw [hc, ← e1]; rfl, e0, ?_, ?_, ?_, ?_⟩
          · rw [hc, ← h2, ← e2]; rfl
          · rw [← h2]
            simp only [mp_free, if_neg hp0, if_neg h1, if_neg h3, if_pos h4, e3]
            rfl
          · rw [← h2]
            simp only [mp_free, if_neg hp0, if_neg h1, if_neg h3, if_pos h4, e3]
          · intro size2 p2 pool3 hc2 ha2
            have h12 : ¬ size2 ≤ 32 ∧ ¬ size2 ≤ 256 ∧ size2 ≤ 1024 :=
              (size_class_eq size2).2.2.1 (hc2.trans hc)
            rw [← h2] at ha2
            simp only [mp_alloc, if_neg h12.1, if_neg h12.2.1, if_pos h12.2.2] at ha2
            cases hsc2 : alloc_scan r.2 with
            | none => rw [hsc2] at ha2; simp at ha2
            | some r2 =>
              rw [hsc2] at ha2
              simp only [Prod.mk.injEq, allocation.pooled.injEq] at ha2
              rw [← ha2.1]
              exact e4 r2.1 r2.2 hsc2
      · rw [if_neg h4] at ha
        simp at ha

theorem pool4_wf : pool_wf pool4 := by
  intro blocks hb
  simp only [pool_blocks, pool4, List.mem_cons, List.mem_singleton, List.not_mem_nil,
    or_false] at hb
  rcases hb with rfl | rfl | rfl <;> decide

theorem pool_alloc_free_witness :
    pool_wf pool4 ∧ mp_alloc pool4 32 = (allocation.pooled 100, pool4_one) ∧
    ∃ pre post, size_class 32 < 3 ∧
      (pool_blocks pool4).getD (size_class 32) [] = pre ++ ⟨100, 0⟩ :: post ∧
      (∀ b ∈ pre, b.in_use ≠ 0) ∧
      pool_blocks pool4_one = (pool_blocks pool4).set (size_class 32) (pre ++ ⟨100, 1⟩ :: post) ∧
      pool_blocks (mp_free pool4_one 100 32).1 = pool_blocks pool4 ∧
      (mp_free pool4_one 100 32).2 = false ∧
      (∀ (size2 p2 : Nat) (pool3 : memory_pool), size_class size2 = size_class 32 →
        mp_alloc pool4_one size2 = (allocation.pooled p2, pool3) → p2 ≠ 100) :=
  ⟨pool4_wf, by decide, pool_alloc_free pool4 pool4_one 32 100 pool4_wf (by decide)⟩

theorem mem_bytes_length (n x : Nat) : (mem_bytes n x).length = n := by simp [mem_bytes]

theorem le_val_mem_bytes (x : Nat) (hx : x < 2 ^ 64) : le_val (mem_bytes 8 x) = x := by
  simp only [mem_bytes, le_val, List.foldr, List.range, List.range.loop, List.map]
  norm_num
  omega

theorem pipe_read_write (o_l : Nat × Nat) (pipe : List Nat) (h1 : o_l.1 < 2 ^ 64)
    (h2 : o_l.2 < 2 ^ 64) :
    pipe_read (mem_bytes 8 o_l.1 ++ mem_bytes 8 o_l.2 ++ pipe) = some (o_l, pipe) := by
  have l1 := mem_bytes_length 8 o_l.1
  have l2 := mem_bytes_length 8 o_l.2
  unfold pipe_read
  rw [if_neg (by simp only [List.length_append, l1, l2]; omega)]
  have t1 : (mem_bytes 8 o_l.1 ++ mem_bytes 8 o_l.2 ++ pipe).take 8 = mem_bytes 8 o_l.1 := by
    rw [List.append_assoc]; exact List.take_left' l1
  have d1 : (mem_bytes 8 o_l.1 ++ mem_bytes 8 o_l.2 ++ pipe).drop 8
      = mem_bytes 8 o_l.2 ++ pipe := by
    rw [List.append_assoc]; exact List.drop_left' l1
  have d2 : (mem_bytes 8 o_l.1 ++ mem_bytes 8 o_l.2 ++ pipe).drop 16 = pipe :=
    List.drop_left' (by simp only [List.length_append, l1, l2])
  rw [t1, d1, d2, List.take_left' l2, le_val_mem_bytes _ h1, le_val_mem_bytes _ h2]

theorem foldl_pipe_write (records : List (Nat × Nat)) : ∀ pipe : List Nat,
    records.foldl pipe_write pipe
      = pipe ++ records.flatMap (fun r => mem_bytes 8 r.1 ++ mem_bytes 8 r.2) := by
  induction records with
  | nil => intro pipe; simp
  | cons r t ih => intro pipe; simp [List.foldl_cons, ih, pipe_write]

/-- The reads of the pipe give the records back in the order they were written. -/
theorem pipe_reads_written : ∀ (records : List (Nat × Nat)) (rest : List Nat),
    (∀ r ∈ records, r.1 < 2 ^ 64 ∧ r.2 < 2 ^ 64) →
    pipe_reads records.length
        (records.flatMap (fun r => mem_bytes 8 r.1 ++ mem_bytes 8 r.2) ++ rest)
      = some (records, rest) := by
  intro records
  induction records with
  | nil => intro rest _; rfl
  | cons r t ih =>
    intro rest h
    have hr := h r (List.mem_cons_self _ _)
    simp only [List.flatMap_cons, List.length_cons, pipe_reads, List.append_assoc]
    rw [← List.append_assoc, ← List.append_assoc, List.append_assoc _ _ rest,
      pipe_read_write r _ hr.1 hr.2]
    simp only
    rw [ih rest (fun x hx => h x (List.mem_cons_of_mem _ hx))]
    rfl

/-- The records of a request whose range does not wrap lie within the range of the request. -/
theorem parent_records_within (input : file_request) (h : input.offset + input.length < 2 ^ 64) :
    ∀ r ∈ (parent_records input).1,
      input.offset ≤ r.1 ∧ r.1 + r.2 ≤ input.offset + input.length := by
  intro r hr
  obtain ⟨_, _, c3, _⟩ := contiguous_props _ _ _ (parent_records_chain input h)
  exact c3 r (List.mem_append_left _ hr)

/-- C25. For every request that passes validation, the records `parent_send` writes to the pipe
of the session are read back, one per call of `child_send` and in the order they were written:
as many reads of sixteen bytes as records were written yield exactly those pairs and leave the
pipe empty, and a further read finds no record. The `child_send` that reads a record replies
with `0x70`, the length, the session id and that pair in network byte order, and the file bytes
of that range. -/
theorem pipe_records_in_order (compressed : Nat) (directory : List Nat) (input : file_request)
    (dict : List m_node) (fs : file_system) (content : List Nat)
    (hp : path_rejected input.file_name = false)
    (hl : fs.lookup (join_path directory input.file_name) = some content)
    (hv : input.offset + input.length ≤ content.length) (hs : content.length < 2 ^ 64) :
    pipe_reads ((parent_send compressed directory input dict fs).written).length
        (((parent_send compressed directory input dict fs).written).foldl pipe_write [])
      = some ((parent_send compressed directory input dict fs).written, []) ∧
    pipe_read [] = none ∧
    ((parent_send compressed directory input dict fs).written).length = input.num_connect ∧
    (∀ r ∈ (parent_send compressed directory input dict fs).written,
      (child_send 0 directory input dict fs r).reads = 1 ∧
      (child_send 0 directory input dict fs r).sent
        = 0x70 :: (be_bytes 8 (20 + r.2) ++ (be_bytes 4 input.session_id ++ be_bytes 8 r.1 ++
            be_bytes 8 r.2 ++ (content.drop r.1).take r.2)) ∧
      ((content.drop r.1).take r.2).length = r.2) := by
  rw [parent_send_valid compressed directory input dict fs content hp hl hv hs]
  dsimp only
  have hw := parent_records_within input (by omega)
  refine ⟨?_, rfl, ?_, ?_⟩
  · rw [foldl_pipe_write, List.nil_append]
    have := pipe_reads_written (parent_records input).1 [] (fun r hr => by
      have := hw r hr; constructor <;> omega)
    simpa using this
  · rw [parent_records_eq input (by omega)]
    simp [partition_spec]
  · intro r hr
    have h1 := hw r hr
    obtain ⟨r1, r2, r3⟩ := range_buffer_eq input.session_id r.1 r.2 content (by omega)
    unfold child_send
    rw [hp, hl]
    simp only [Bool.false_eq_true, if_false]
    rw [file_reply, if_neg (by decide), r2, send_u64_eq, r1]
    exact ⟨trivial, rfl, r3⟩

theorem pipe_records_in_order_witness :
    (parent_send 0 [100] ⟨1, 2, 7, [97], 2⟩ dict8 fs8).written = [(2, 3), (5, 2)] ∧
    pipe_reads 2 (((parent_send 0 [100] ⟨1, 2, 7, [97], 2⟩ dict8 fs8).written).foldl
      pipe_write []) = some ([(2, 3), (5, 2)], []) ∧
    (child_send 0 [100] ⟨1, 2, 7, [97], 2⟩ dict8 fs8 (5, 2)).sent
      = [0x70, 0, 0, 0, 0, 0, 0, 0, 22, 0, 0, 0, 1, 0, 0, 0, 0, 0, 0, 0, 5,
          0, 0, 0, 0, 0, 0, 0, 2, 5, 6] :=
  have h := pipe_records_in_order 0 [100] ⟨1, 2, 7, [97], 2⟩ dict8 fs8 (List.range 10)
    (by decide) (by decide) (by decide) (by decide)
  ⟨by decide, h.1, (h.2.2.2 (5, 2) (by decide)).2.1⟩

theorem take_drop_length (content : List Nat) (off len : Nat) :
    ((content.drop off).take len).length = min len (content.length - off) := by
  rw [List.length_take, List.length_drop]

/-- C28. `parent_send_optimized` does not do what `parent_send` does. For the request of the
bytes 2 to 9 of a file of ten bytes that no peer has joined, both send the same frame, but
`parent_send` writes nothing to the pipe and `parent_send_optimized` writes one record, the
offset and the length in network byte order. With two peers joined, `parent_send` serves the last
third `(7, 2)` and writes the records `(2, 3)` and `(5, 2)`; `parent_send_optimized` serves the
whole range `(2, 7)`. The request of no byte at offset 11 is rejected by `parent_send` and served
by `parent_send_optimized`. What holds: for a valid request within the file, without
compression and with no peer joined, the two send the same frame; and both send the error frame
for a name that is rejected, for a file that is not found, and for a range that starts within
the file and ends after it. -/
theorem parent_send_optimized_differs :
    ((parent_send 0 [100] ⟨1, 2, 7, [97], 0⟩ dict8 fs8).written = [] ∧
      (parent_send_optimized 0 [100] ⟨1, 2, 7, [97], 0⟩ fs8).map send_result.written
        = some [(bswap_64 2, bswap_64 7)] ∧
      (parent_send 0 [100] ⟨1, 2, 7, [97], 2⟩ dict8 fs8).sent
        = file_reply 0 (range_buffer 1 7 2 (List.range 10)) dict8 ∧
      (parent_send_optimized 0 [100] ⟨1, 2, 7, [97], 2⟩ fs8).map send_result.sent
        = some (file_reply 0 (range_buffer 1 2 7 (List.range 10)) dict8) ∧
      file_reply 0 (range_buffer 1 7 2 (List.range 10)) dict8
        ≠ file_reply 0 (range_buffer 1 2 7 (List.range 10)) dict8 ∧
      (parent_send 0 [100] ⟨1, 11, 0, [97], 0⟩ dict8 fs8).sent = error_send ∧
      (parent_send_optimized 0 [100] ⟨1, 11, 0, [97], 0⟩ fs8).map send_result.sent
        = some (0x70 :: (be_bytes 8 20 ++ (be_bytes 4 1 ++ be_bytes 8 11 ++ be_bytes 8 0)))) ∧
    (∀ (directory : List Nat) (input : file_request) (dict : List m_node) (fs : file_system)
      (content : List Nat), input.num_connect = 0 → path_rejected input.file_name = false →
      (join_path directory input.file_name).length ≤ 4095 →
      fs.lookup (join_path directory input.file_name) = some content →
      input.offset + input.length ≤ content.length → content.length < 2 ^ 64 →
      parent_send_optimized 0 directory input fs
        = some ⟨(parent_send 0 directory input dict fs).sent,
            [(bswap_64 input.offset, bswap_64 input.length)], 0⟩ ∧
      (parent_send 0 directory input dict fs).written = []) ∧
    (∀ (compressed : Nat) (directory : List Nat) (input : file_request) (dict : List m_node)
      (fs : file_system), (join_path directory input.file_name).length ≤ 4095 →
      (path_rejected input.file_name = true ∨
        fs.lookup (join_path directory input.file_name) = none ∨
        ∃ content, fs.lookup (join_path directory input.file_name) = some content ∧
          input.offset ≤ content.length ∧ input.offset + input.length > content.length ∧
          input.offset + input.length < 2 ^ 64) →
      parent_send compressed directory input dict fs = ⟨error_send, [], 0⟩ ∧
      parent_send_optimized compressed directory input fs = some ⟨error_send, [], 0⟩) := by
  refine ⟨⟨by decide, by decide, by decide, by decide, by decide, by decide, by decide⟩, ?_, ?_⟩
  · intro directory input dict fs content hn hp hpl hl hv hs
    have hv2 := parent_send_valid 0 directory input dict fs content hp hl hv hs
    have hrec : parent_records input = ([], input.offset) := by
      simp [parent_records, hn]
    obtain ⟨r1, r2, r3⟩ := range_buffer_eq input.session_id input.offset input.length content hv
    have ht : (join_path directory input.file_name).take 4095
        = join_path directory input.file_name := List.take_of_length_le hpl
    rw [hv2, hrec]
    simp only [hn, Nat.zero_add, Nat.div_one]
    refine ⟨?_, trivial⟩
    unfold parent_send_optimized
    rw [hp, ht, hl]
    simp only [Bool.false_eq_true, if_false]
    rw [if_neg (by rw [r3]; simp), if_neg (by decide)]
    rw [file_reply, if_neg (by decide), r2]
    unfold range_buffer
    rw [(read_file_inside content input.offset input.length hv).1]
  · intro compressed directory input dict fs hpl h
    have ht : (join_path directory input.file_name).take 4095
        = join_path directory input.file_name := List.take_of_length_le hpl
    unfold parent_send parent_send_optimized
    rw [ht]
    rcases h with h | h | ⟨content, hl, h1, h2, h3⟩
    · simp [h]
    · cases hp : path_rejected input.file_name <;> simp [h]
    · cases hp : path_rejected input.file_name
      · simp only [hl, Bool.false_eq_true, if_false]
        rw [Nat.mod_eq_of_lt h3, if_pos (Or.inr h2), if_pos (by
          rw [take_drop_length]; omega)]
        exact ⟨rfl, rfl⟩
      · simp

theorem parent_send_optimized_differs_witness :
    parent_send_optimized 0 [100] ⟨1, 2, 7, [97], 0⟩ fs8
      = some ⟨(parent_send 0 [100] ⟨1, 2, 7, [97], 0⟩ dict8 fs8).sent,
          [(bswap_64 2, bswap_64 7)], 0⟩ ∧
    parent_send_optimized 0 [100] ⟨1, 5, 7, [97], 0⟩ fs8 = some ⟨error_send, [], 0⟩ :=
  ⟨(parent_send_optimized_differs.2.1 [100] ⟨1, 2, 7, [97], 0⟩ dict8 fs8 (List.range 10) rfl
      (by decide) (by decide) (by decide) (by decide) (by decide)).1,
    (parent_send_optimized_differs.2.2 0 [100] ⟨1, 5, 7, [97], 0⟩ dict8 fs8 (by decide)
      (Or.inr (Or.inr ⟨List.range 10, by decide, by decide, by decide, by decide⟩))).2⟩

theorem getD_some_lt {α : Type} (l : List (Option α)) (a : Nat) (x : α)
    (h : l.getD a none = some x) : a < l.length := by
  by_contra hn
  rw [List.getD_eq_default _ _ (by omega)] at h
  exact Option.noConfusion h

theorem linked_unique (cells : List (Option request_cell)) (a b c : Nat)
    (h1 : linked cells a b) (h2 : linked cells a c) : b = c := by
  obtain ⟨x, hx, hxn⟩ := h1
  obtain ⟨y, hy, hyn⟩ := h2
  rw [hx] at hy
  cases hy
  rw [hxn] at hyn
  exact Option.some.inj hyn

theorem chain_congr_init {R S : Nat → Nat → Prop} : ∀ l : List Nat, l.Chain' R →
    (∀ a ∈ l.dropLast, ∀ b, R a b → S a b) → l.Chain' S := by
  intro l
  induction l with
  | nil => intro _ _; exact List.chain'_nil
  | cons x t ih =>
    intro h hc
    cases t with
    | nil => exact List.chain'_singleton x
    | cons y t2 =>
      rw [List.chain'_cons] at h ⊢
      refine ⟨hc x (by simp [List.dropLast]) y h.1, ih h.2 ?_⟩
      intro a ha b hab
      exact hc a (by
        rw [List.dropLast_cons₂]
        exact List.mem_cons_of_mem _ ha) b hab

theorem chain_congr_mem {R S : Nat → Nat → Prop} (l : List Nat) (h : l.Chain' R)
    (hc : ∀ a ∈ l, ∀ b, R a b → S a b) : l.Chain' S :=
  chain_congr_init l h (fun a ha b hab => hc a (List.mem_of_mem_dropLast ha) b hab)

theorem getD_two_sets (cells : List (Option request_cell)) (p r a : Nat) (x : Option request_cell)
    (hp : a ≠ p) (hr : a ≠ r) : ((cells.set p x).set r none).getD a none = cells.getD a none := by
  rw [getD_set_other _ _ _ _ _ (Ne.symm hr), getD_set_other _ _ _ _ _ (Ne.symm hp)]

theorem remove_walk_at (cells : List (Option request_cell)) (r p fuel : Nat)
    (h : linked cells p r) : remove_walk cells r (fuel + 1) p = some p := by
  obtain ⟨cell, hc, hn⟩ := h
  rw [remove_walk, hc]
  simp only
  rw [if_pos hn]

theorem remove_walk_step (cells : List (Option request_cell)) (r a b fuel : Nat)
    (h : linked cells a b) (hne : ¬ linked cells a r) :
    remove_walk cells r (fuel + 1) a = remove_walk cells r fuel b := by
  obtain ⟨cell, hc, hn⟩ := h
  have hne2 : ¬ cell.next = some r := fun e => hne ⟨cell, hc, e⟩
  rw [remove_walk, hc]
  simp only
  rw [if_neg hne2, hn]

theorem remove_walk_finds (cells : List (Option request_cell)) (r p : Nat)
    (hp : linked cells p r) : ∀ (pre : List Nat) (a fuel : Nat), pre.length + 1 < fuel →
    (a :: (pre ++ [p])).Chain' (linked cells) → (∀ x ∈ a :: pre, ¬ linked cells x r) →
    remove_walk cells r fuel a = some p := by
  intro pre
  induction pre with
  | nil =>
    intro a fuel hf hc hn
    obtain ⟨fuel, rfl⟩ : ∃ f, fuel = f + 1 := ⟨fuel - 1, by omega⟩
    obtain ⟨fuel, rfl⟩ : ∃ f, fuel = f + 1 := ⟨fuel - 1, by simp at hf; omega⟩
    simp only [List.nil_append, List.chain'_cons] at hc
    rw [remove_walk_step cells r a p _ hc.1 (hn a (List.mem_cons_self _ _))]
    exact remove_walk_at cells r p fuel hp
  | cons b t ih =>
    intro a fuel hf hc hn
    obtain ⟨fuel, rfl⟩ : ∃ f, fuel = f + 1 := ⟨fuel - 1, by omega⟩
    simp only [List.cons_append, List.chain'_cons] at hc
    rw [remove_walk_step cells r a b _ hc.1 (hn a (List.mem_cons_self _ _))]
    exact ih b fuel (by simp only [List.length_cons] at hf; omega)
      (by simpa [List.chain'_cons] using hc.2)
      (fun x hx => hn x (List.mem_cons_of_mem _ hx))

theorem nodup_length_le (addrs : List Nat) (n : Nat) (hn : addrs.Nodup)
    (h : ∀ a ∈ addrs, a < n) : addrs.length ≤ n := by
  have hs : addrs ⊆ List.range n := fun a ha => List.mem_range.mpr (h a ha)
  have := (hn.subperm hs).length_le
  simpa using this

/-- The walk of `remove_node` from the head stops at the request before `r`. -/
theorem remove_walk_head (list : multiplex_list) (pre post : List Nat) (p r : Nat)
    (h : list_repr list (pre ++ p :: r :: post)) :
    ∃ head, list.head = some head ∧
      remove_walk list.cells r (list.cells.length + 1) head = some p := by
  obtain ⟨hnd, hval, hhead, _, hch⟩ := h
  have hlen : (pre ++ p :: r :: post).length ≤ list.cells.length :=
    nodup_length_le _ _ hnd (fun a ha => by
      obtain ⟨cell, hc⟩ := hval a ha
      exact getD_some_lt _ _ _ hc)
  simp only [List.length_append, List.length_cons] at hlen
  rw [List.chain'_split] at hch
  obtain ⟨hch1, hch2⟩ := hch
  have hpr : linked list.cells p r := (List.chain'_cons.1 hch2).1
  have hnot : ∀ x ∈ pre, ¬ linked list.cells x r := by
    intro x hx hl
    obtain ⟨l1, l2, rfl⟩ := List.append_of_mem hx
    rw [List.append_assoc, List.cons_append, List.chain'_split] at hch1
    have h2 := hch1.2
    rw [List.chain'_cons'] at h2
    have hy : ∃ y, (l2 ++ [p]).head? = some y ∧ y ∈ l2 ++ [p] := by
      cases l2 with
      | nil => exact ⟨p, rfl, by simp⟩
      | cons y t => exact ⟨y, rfl, by simp⟩
    obtain ⟨y, hy1, hy2⟩ := hy
    have hxy : linked list.cells x y := h2.1 y (by rw [hy1]; rfl)
    have e := linked_unique _ _ _ _ hxy hl
    subst e
    rw [List.nodup_append] at hnd
    have hd := hnd.2.2
    have h3 : y ∈ l1 ++ x :: l2 ∨ y = p := by
      rcases List.mem_append.1 hy2 with h | h
      · exact Or.inl (by simp [h])
      · exact Or.inr (by simpa using h)
    rcases h3 with h3 | h3
    · exact hd h3 (by simp)
    · subst h3
      have := hnd.2.1
      rw [List.nodup_cons] at this
      exact this.1 (by simp)
  cases pre with
  | nil =>
    refine ⟨p, by rw [hhead]; rfl, ?_⟩
    exact remove_walk_at _ _ _ _ hpr
  | cons a t =>
    refine ⟨a, by rw [hhead]; rfl, ?_⟩
    exact remove_walk_finds list.cells r p hpr t a _ (by simp only [List.length_cons] at hlen; omega)
      (by simpa using hch1) hnot

/-- Removal of a request that is not the head: the table holds the other requests, in their
order. -/
theorem remove_node_later (list : multiplex_list) (pre post : List Nat) (p r : Nat)
    (h : list_repr list (pre ++ p :: r :: post)) :
    ∃ list2, remove_node list r = some list2 ∧ list_repr list2 (pre ++ p :: post) ∧
      (∀ a, a ≠ r → (list2.cells.getD a none).map request_cell.request
        = (list.cells.getD a none).map request_cell.request) := by
  obtain ⟨head, hh, hw⟩ := remove_walk_head list pre post p r h
  obtain ⟨hnd, hval, hhead, htail, hch⟩ := h
  obtain ⟨cp, hcp⟩ := hval p (by simp)
  obtain ⟨cr, hcr⟩ := hval r (by simp)
  have hpl : p < list.cells.length := getD_some_lt _ _ _ hcp
  -- the addresses differ
  have hnd2 := hnd
  rw [List.nodup_append, List.nodup_cons, List.nodup_cons] at hnd2
  obtain ⟨hnpre, ⟨hp1, hr1, hnpost⟩, hdis⟩ := hnd2
  have hpr : p ≠ r := fun e => hp1 (by simp [e])
  have hpre : ∀ a ∈ pre, a ≠ p ∧ a ≠ r := fun a ha =>
    ⟨fun e => hdis ha (by simp [e]), fun e => hdis ha (by simp [e])⟩
  have hpost : ∀ a ∈ post, a ≠ p ∧ a ≠ r := fun a ha =>
    ⟨fun e => hp1 (by simp [← e, ha]), fun e => hr1 (by rw [← e]; exact ha)⟩
  have hnothead : ¬ (list.head = some r ∧ list.tail = some r) := by
    rintro ⟨e, _⟩
    rw [hhead] at e
    cases pre with
    | nil => simp at e; exact hpr e
    | cons a t => simp at e; exact (hpre a (by simp)).2 e
  -- the cells after the removal
  have hgp : ((list.cells.set p (some ⟨cp.request, cr.next⟩)).set r none).getD p none
      = some ⟨cp.request, cr.next⟩ := by
    rw [getD_set_other _ _ _ _ _ (Ne.symm hpr), getD_set_same _ _ _ _ hpl]
  have hgo : ∀ a, a ≠ p → a ≠ r →
      ((list.cells.set p (some ⟨cp.request, cr.next⟩)).set r none).getD a none
        = list.cells.getD a none := fun a h1 h2 => getD_two_sets _ _ _ _ _ h1 h2
  have hres : remove_node list r
      = some ⟨(list.cells.set p (some ⟨cp.request, cr.next⟩)).set r none, list.head,
          if list.tail = some r then some p else list.tail⟩ := by
    unfold remove_node
    rw [if_neg hnothead, hh]
    simp only [hw, hcp, hcr]
  refine ⟨_, hres, ⟨?_, ?_, ?_, ?_, ?_⟩, ?_⟩
  · exact hnd.sublist (List.Sublist.append_left (List.Sublist.cons₂ p
      (List.sublist_cons_self r post)) pre)
  · intro a ha
    simp only [List.mem_append, List.mem_cons] at ha
    rcases ha with ha | rfl | ha
    · rw [hgo a (hpre a ha).1 (hpre a ha).2]; exact hval a (by simp [ha])
    · exact ⟨_, hgp⟩
    · rw [hgo a (hpost a ha).1 (hpost a ha).2]; exact hval a (by simp [ha])
  · simp only
    rw [hhead]
    cases pre <;> rfl
  · simp only
    rw [htail]
    cases post with
    | nil =>
      have e : (pre ++ [p, r]).getLast? = some r := by
        rw [show pre ++ [p, r] = (pre ++ [p]) ++ [r] by simp, List.getLast?_concat]
      rw [e, if_pos rfl, List.getLast?_concat]
    | cons b t =>
      have e1 : (pre ++ p :: r :: b :: t).getLast? = (b :: t).getLast? := by
        rw [show pre ++ p :: r :: b :: t = (pre ++ [p, r]) ++ (b :: t) by simp,
          List.getLast?_append]
        cases hl : (b :: t).getLast? with
        | none => simp at hl
        | some x => rfl
      have e2 : (pre ++ p :: b :: t).getLast? = (b :: t).getLast? := by
        rw [show pre ++ p :: b :: t = (pre ++ [p]) ++ (b :: t) by simp, List.getLast?_append]
        cases hl : (b :: t).getLast? with
        | none => simp at hl
        | some x => rfl
      rw [e1, e2]
      have hne : ¬ (b :: t).getLast? = some r := by
        intro e
        have := List.mem_of_getLast?_eq_some e
        exact (hpost r this).2 rfl
      rw [if_neg hne]
  · simp only
    rw [List.chain'_split] at hch ⊢
    obtain ⟨hch1, hch2⟩ := hch
    rw [List.chain'_cons] at hch2
    obtain ⟨_, hch3⟩ := hch2
    rw [List.chain'_cons'] at hch3 ⊢
    refine ⟨?_, ?_, ?_⟩
    · refine chain_congr_init _ hch1 ?_
      intro a ha b hab
      rw [List.dropLast_concat] at ha
      obtain ⟨c, hc1, hc2⟩ := hab
      exact ⟨c, by rw [hgo a (hpre a ha).1 (hpre a ha).2]; exact hc1, hc2⟩
    · intro y hy
      obtain ⟨c, hc1, hc2⟩ := hch3.1 y hy
      rw [hcr] at hc1
      cases hc1
      exact ⟨_, hgp, hc2⟩
    · refine chain_congr_mem _ hch3.2 ?_
      intro a ha b hab
      obtain ⟨c, hc1, hc2⟩ := hab
      exact ⟨c, by rw [hgo a (hpost a ha).1 (hpost a ha).2]; exact hc1, hc2⟩
  · intro a har
    simp only
    by_cases hap : a = p
    · subst hap; rw [hgp, hcp]; rfl
    · rw [hgo a hap har]

/-- Removal of the only request of a table: the table is empty. -/
theorem remove_node_single (list : multiplex_list) (r : Nat) (h : list_repr list [r]) :
    remove_node list r = some ⟨list.cells.set r none, none, none⟩ ∧
    list_repr ⟨list.cells.set r none, none, none⟩ [] := by
  obtain ⟨_, hval, hhead, htail, _⟩ := h
  obtain ⟨cr, hcr⟩ := hval r (by simp)
  constructor
  · unfold remove_node
    rw [if_pos ⟨by rw [hhead]; rfl, by rw [htail]; rfl⟩, hcr]
  · exact ⟨List.nodup_nil, by simp, rfl, rfl, List.chain'_nil⟩

/-- The general path of `remove_node` never assigns `head`. -/
theorem remove_node_head_kept (list list2 : multiplex_list) (r : Nat)
    (hn : ¬ (list.head = some r ∧ list.tail = some r))
    (h : remove_node list r = some list2) : list2.head = list.head := by
  unfold remove_node at h
  rw [if_neg hn] at h
  cases hh : list.head with
  | none => rw [hh] at h; simp only [Option.some.injEq] at h; rw [← h, hh]
  | some head =>
    rw [hh] at h
    simp only at h
    cases hw : remove_walk list.cells r (list.cells.length + 1) head with
    | none => rw [hw] at h; simp at h
    | some node =>
      rw [hw] at h
      simp only at h
      cases h1 : list.cells.getD node none with
      | none => rw [h1] at h; simp at h
      | some cell =>
        cases h2 : list.cells.getD r none with
        | none => rw [h1, h2] at h; simp at h
        | some removed =>
          rw [h1, h2] at h
          simp only [Option.some.injEq] at h
          rw [← h]

/-- Removal of the head of a table of two requests or more never leaves the table of the other
requests. -/
theorem remove_node_head_long (list : multiplex_list) (r b : Nat) (rest : List Nat)
    (h : list_repr list (r :: b :: rest)) :
    ¬ ∃ list2, remove_node list r = some list2 ∧ list_repr list2 (b :: rest) := by
  rintro ⟨list2, h1, h2⟩
  obtain ⟨hnd, _, hhead, htail, _⟩ := h
  have hrb : r ≠ b := by
    intro e
    rw [List.nodup_cons] at hnd
    exact hnd.1 (by simp [e])
  have hn : ¬ (list.head = some r ∧ list.tail = some r) := by
    rintro ⟨_, e⟩
    rw [htail, List.getLast?_cons_cons] at e
    have := List.mem_of_getLast?_eq_some e
    rw [List.nodup_cons] at hnd
    exact hnd.1 this
  have hk := remove_node_head_kept list list2 r hn h1
  rw [h2.2.2.1, hhead] at hk
  simp at hk
  exact hrb hk.symm

/-- After `add`, the table holds the requests it held and then the new one. -/
theorem add_repr (list : multiplex_list) (addrs : List Nat) (r : Nat) (cell : request_cell)
    (h : list_repr list addrs) (hr : r ∉ addrs) (hc : list.cells.getD r none = some cell) :
    ∃ list2, add list r = some list2 ∧ list_repr list2 (addrs ++ [r]) ∧
      list2.cells.getD r none = some cell ∧
      (∀ a, (list2.cells.getD a none).map request_cell.request
        = (list.cells.getD a none).map request_cell.request) := by
  obtain ⟨hnd, hval, hhead, htail, hch⟩ := h
  rcases List.eq_nil_or_concat addrs with rfl | ⟨pre, t, e⟩
  · refine ⟨⟨list.cells, some r, some r⟩, ?_, ?_, hc, fun a => rfl⟩
    · unfold add; rw [hhead]; rfl
    · refine ⟨List.nodup_singleton r, ?_, rfl, rfl, List.chain'_singleton r⟩
      intro a ha
      rw [List.nil_append, List.mem_singleton] at ha
      subst ha
      exact ⟨cell, hc⟩
  · rw [List.concat_eq_append] at e
    subst e
    obtain ⟨ct, hct⟩ := hval t (by simp)
    have htl : t < list.cells.length := getD_some_lt _ _ _ hct
    have hrt : r ≠ t := fun e => hr (by simp [e])
    have hpre : ∀ a ∈ pre, a ≠ t := by
      intro a ha e
      rw [List.nodup_append] at hnd
      exact hnd.2.2 ha (by simp [e])
    have hh : ∃ x, list.head = some x := by
      rw [hhead]
      cases pre with
      | nil => exact ⟨t, rfl⟩
      | cons a l => exact ⟨a, rfl⟩
    obtain ⟨x, hx⟩ := hh
    have hgt : (list.cells.set t (some ⟨ct.request, some r⟩)).getD t none
        = some ⟨ct.request, some r⟩ := getD_set_same _ _ _ _ htl
    have hgo : ∀ a, a ≠ t → (list.cells.set t (some ⟨ct.request, some r⟩)).getD a none
        = list.cells.getD a none := fun a ha => getD_set_other _ _ _ _ _ (Ne.symm ha)
    refine ⟨⟨list.cells.set t (some ⟨ct.request, some r⟩), list.head, some r⟩, ?_,
      ⟨?_, ?_, ?_, ?_, ?_⟩, ?_, ?_⟩
    · unfold add
      rw [hx, htail, List.getLast?_concat]
      simp only [hct]
    · rw [List.nodup_append]
      exact ⟨hnd, List.nodup_singleton r, by
        intro a ha hb
        simp only [List.mem_singleton] at hb
        exact hr (hb ▸ ha)⟩
    · intro a ha
      simp only [List.mem_append, List.mem_singleton] at ha
      rcases ha with (ha | rfl) | rfl
      · rw [hgo a (hpre a ha)]; exact hval a (by simp [ha])
      · exact ⟨_, hgt⟩
      · rw [hgo a hrt]; exact ⟨cell, hc⟩
    · simp only
      rw [hhead]
      cases pre <;> rfl
    · simp only
      rw [List.getLast?_concat]
    · simp only
      rw [List.append_assoc, List.singleton_append, List.chain'_split]
      refine ⟨?_, ?_⟩
      · refine chain_congr_init _ hch ?_
        intro a ha b hab
        rw [List.dropLast_concat] at ha
        obtain ⟨c, hc1, hc2⟩ := hab
        exact ⟨c, by rw [hgo a (hpre a ha)]; exact hc1, hc2⟩
      · rw [List.chain'_cons]
        exact ⟨⟨_, hgt, rfl⟩, List.chain'_singleton r⟩
    · simp only
      rw [hgo r hrt]; exact hc
    · intro a
      simp only
      by_cases hat : a = t
      · subst hat; rw [hgt, hct]; rfl
      · rw [hgo a hat]

/-- C22. `find` does not walk the list: in the table of the sessions 1 and 2, the query for the
session 2, which is the second entry, never returns, and in the table of the session 1 alone the
same query never returns either, where it should return null; `curr` is never moved from the
head. `find` returns exactly when the table is empty or its head has the session id asked for,
and what it returns then is the first entry with that id, null for the empty table. -/
theorem find_walks_list :
    (find [⟨1, 0, 10, [97], 0⟩, ⟨2, 0, 10, [97], 0⟩] ⟨2, 0, 10, [97], 0⟩ = none ∧
      [(⟨1, 0, 10, [97], 0⟩ : file_request), ⟨2, 0, 10, [97], 0⟩].find?
        (fun e => decide (e.session_id = 2)) = some ⟨2, 0, 10, [97], 0⟩ ∧
      find [⟨1, 0, 10, [97], 0⟩] ⟨2, 0, 10, [97], 0⟩ = none ∧
      find_request ⟨cells2, some 0, some 1⟩ 2 = none) ∧
    (∀ (head : file_request) (rest : List file_request) (input : file_request),
      head.session_id ≠ input.session_id → find (head :: rest) input = none) ∧
    (∀ (list : List file_request) (input : file_request),
      (list = [] ∨ ∃ head rest, list = head :: rest ∧ head.session_id = input.session_id) →
      find list input
        = some (list.find? (fun e => decide (e.session_id = input.session_id)))) := by
  refine ⟨⟨by decide, by decide, by decide, by decide⟩, ?_, ?_⟩
  · intro head rest input h
    simp [find, h]
  · intro list input h
    rcases h with rfl | ⟨head, rest, rfl, h⟩
    · rfl
    · simp [find, h]

theorem find_walks_list_witness :
    find [⟨2, 0, 10, [97], 0⟩, ⟨1, 0, 10, [97], 0⟩] ⟨2, 5, 5, [98], 0⟩
      = some (some ⟨2, 0, 10, [97], 0⟩) ∧
    find [⟨1, 0, 10, [97], 0⟩, ⟨2, 0, 10, [97], 0⟩] ⟨2, 5, 5, [98], 0⟩ = none :=
  ⟨(find_walks_list.2.2 [⟨2, 0, 10, [97], 0⟩, ⟨1, 0, 10, [97], 0⟩] ⟨2, 5, 5, [98], 0⟩
      (Or.inr ⟨_, _, rfl, rfl⟩)).trans (by decide),
    find_walks_list.2.1 ⟨1, 0, 10, [97], 0⟩ [⟨2, 0, 10, [97], 0⟩] ⟨2, 5, 5, [98], 0⟩
      (by decide)⟩

theorem cells2_repr : list_repr ⟨cells2, some 0, some 1⟩ [0, 1] := by
  refine ⟨by decide, ?_, rfl, rfl, ?_⟩
  · intro a ha
    simp only [List.mem_cons, List.mem_singleton, List.not_mem_nil, or_false] at ha
    rcases ha with rfl | rfl
    · exact ⟨_, rfl⟩
    · exact ⟨_, rfl⟩
  · rw [List.chain'_cons]
    exact ⟨⟨_, rfl, rfl⟩, List.chain'_singleton 1⟩

/-- C23. In the table of two requests, at the addresses 0 and 1, `remove_node` of the head does
not return: its loop looks for the request whose `next` is the head, passes the tail and reads
through its null `next`. In every table of two requests or more, `remove_node` of the head never
leaves the table of the other requests (when it returns, `head` still points to the request it
freed). `remove_node` of the only request of a table leaves the empty table, with `head` and
`tail` null; `remove_node` of a request that is not the head returns and leaves the table of the
other requests, in their order, with `head` and `tail` at the first and the last of them, and
it changes no field but `next` of the requests that stay. -/
theorem remove_node_entries :
    (list_repr ⟨cells2, some 0, some 1⟩ [0, 1] ∧
      remove_node ⟨cells2, some 0, some 1⟩ 0 = none) ∧
    (∀ (list : multiplex_list) (r b : Nat) (rest : List Nat), list_repr list (r :: b :: rest) →
      ¬ ∃ list2, remove_node list r = some list2 ∧ list_repr list2 (b :: rest)) ∧
    (∀ (list : multiplex_list) (r : Nat), list_repr list [r] →
      ∃ list2, remove_node list r = some list2 ∧ list_repr list2 [] ∧ list2.head = none ∧
        list2.tail = none) ∧
    (∀ (list : multiplex_list) (pre post : List Nat) (p r : Nat),
      list_repr list (pre ++ p :: r :: post) →
      ∃ list2, remove_node list r = some list2 ∧ list_repr list2 (pre ++ p :: post) ∧
        list2.head = (pre ++ p :: post).head? ∧ list2.tail = (pre ++ p :: post).getLast? ∧
        (∀ a, a ≠ r → (list2.cells.getD a none).map request_cell.request
          = (list.cells.getD a none).map request_cell.request)) := by
  refine ⟨⟨cells2_repr, by decide⟩, remove_node_head_long, ?_, ?_⟩
  · intro list r h
    obtain ⟨h1, h2⟩ := remove_node_single list r h
    exact ⟨_, h1, h2, rfl, rfl⟩
  · intro list pre post p r h
    obtain ⟨list2, h1, h2, h3⟩ := remove_node_later list pre post p r h
    exact ⟨list2, h1, h2, h2.2.2.1, h2.2.2.2.1, h3⟩

theorem remove_node_entries_witness :
    list_repr ⟨cells2, some 0, some 1⟩ ([] ++ 0 :: 1 :: []) ∧
    ∃ list2, remove_node ⟨cells2, some 0, some 1⟩ 1 = some list2 ∧
      list_repr list2 ([] ++ 0 :: []) ∧ list2.head = some 0 ∧ list2.tail = some 0 :=
  ⟨cells2_repr,
    (remove_node_entries.2.2.2 ⟨cells2, some 0, some 1⟩ [] [] 0 1 cells2_repr).imp
      (fun _ h => ⟨h.1, h.2.1, h.2.2.1, h.2.2.2.1⟩)⟩

theorem find_request_of_head (list : multiplex_list) (a : Nat) (rest : List Nat)
    (cell : request_cell) (session_id : Nat) (h : list_repr list (a :: rest))
    (hc : list.cells.getD a none = some cell) :
    find_request list session_id
      = if cell.request.session_id = session_id then some (some a) else none := by
  unfold find_request
  rw [h.2.2.1]
  simp only [List.head?_cons, hc]

/-- C24. In the table that holds the session 1 alone, after `add` of a request of the session 2 the
lookup `find` for that request never returns: the head has another session id and `curr` is
never moved. For every table that holds the requests at `addrs` and every request `r` in memory
that is not among them, `add(r)` leaves the table of the same requests in the same order followed
by `r`, and `r` is the tail; `find` for the session of `r` then returns `r` itself when the table
was empty, and never returns when the head of the table has another session id; and
`remove_node(r)` after the `add` returns and leaves the table of the requests at `addrs`, with
`head` and `tail` as before the `add`. -/
theorem add_find_remove :
    (list_repr ⟨cells_apart, some 0, some 0⟩ [0] ∧
      add ⟨cells_apart, some 0, some 0⟩ 1 = some ⟨cells2, some 0, some 1⟩ ∧
      find_request ⟨cells2, some 0, some 1⟩ 2 = none) ∧
    (∀ (list : multiplex_list) (addrs : List Nat) (r : Nat) (cell : request_cell),
      list_repr list addrs → r ∉ addrs → list.cells.getD r none = some cell →
      ∃ list1, add list r = some list1 ∧ list_repr list1 (addrs ++ [r]) ∧
        list1.tail = some r ∧
        (addrs = [] → find_request list1 cell.request.session_id = some (some r)) ∧
        (∀ (a : Nat) (rest : List Nat) (first : request_cell), addrs = a :: rest →
          list.cells.getD a none = some first →
          first.request.session_id ≠ cell.request.session_id →
          find_request list1 cell.request.session_id = none) ∧
        ∃ list2, remove_node list1 r = some list2 ∧ list_repr list2 addrs ∧
          list2.head = list.head ∧ list2.tail = list.tail) := by
  constructor
  · refine ⟨?_, by decide, by decide⟩
    exact ⟨by decide, fun a ha => by
      rw [List.mem_singleton] at ha; subst ha; exact ⟨_, rfl⟩, rfl, rfl,
      List.chain'_singleton 0⟩
  · intro list addrs r cell h hr hc
    obtain ⟨list1, h1, hrep1, hcell1, hreq⟩ := add_repr list addrs r cell h hr hc
    have htail : list1.tail = some r := by rw [hrep1.2.2.2.1, List.getLast?_concat]
    refine ⟨list1, h1, hrep1, htail, ?_, ?_, ?_⟩
    · intro e
      subst e
      rw [find_request_of_head list1 r [] cell _ hrep1 hcell1, if_pos rfl]
    · intro a rest first e hfirst hne
      subst e
      have hq := hreq a
      rw [hfirst] at hq
      cases hc1 : list1.cells.getD a none with
      | none => rw [hc1] at hq; simp at hq
      | some c1 =>
        rw [hc1] at hq
        simp only [Option.map_some', Option.some.injEq] at hq
        rw [find_request_of_head list1 a (rest ++ [r]) c1 _ hrep1 hc1, hq, if_neg hne]
    · rcases List.eq_nil_or_concat addrs with rfl | ⟨pre, p, e⟩
      · obtain ⟨g1, g2⟩ := remove_node_single list1 r hrep1
        exact ⟨_, g1, g2, by rw [h.2.2.1]; rfl, by rw [h.2.2.2.1]; rfl⟩
      · rw [List.concat_eq_append] at e
        subst e
        have hrep2 : list_repr list1 (pre ++ p :: r :: []) := by
          simpa using hrep1
        obtain ⟨list2, g1, g2, _⟩ := remove_node_later list1 pre [] p r hrep2
        exact ⟨list2, g1, g2, by rw [g2.2.2.1, h.2.2.1], by rw [g2.2.2.2.1, h.2.2.2.1]⟩

theorem add_find_remove_witness :
    list_repr (create cells_apart) [] ∧
    ∃ list1, add (create cells_apart) 0 = some list1 ∧ list_repr list1 ([] ++ [0]) ∧
      list1.tail = some 0 ∧ find_request list1 1 = some (some 0) ∧
      ∃ list2, remove_node list1 0 = some list2 ∧ list_repr list2 [] ∧ list2.head = none ∧
        list2.tail = none :=
  have h0 : list_repr (create cells_apart) [] :=
    ⟨List.nodup_nil, fun a ha => by simp at ha, rfl, rfl, List.chain'_nil⟩
  ⟨h0, (add_find_remove.2 (create cells_apart) [] 0 ⟨⟨1, 0, 10, [97], 0⟩, none⟩ h0 (by simp)
    rfl).imp (fun _ h => ⟨h.1, h.2.1, h.2.2.1, h.2.2.2.1 rfl, h.2.2.2.2.2⟩)⟩

end MultiplexServer
